import Mathlib

/-!
# The queue of `queue.c`: a circular doubly-linked list of string elements

The C code manipulates `struct list_head` nodes through pointers.  The embedding keeps
that level: a `Heap` maps addresses to the `next` and `prev` fields of the node stored
there, to the payload of the element that contains the node, and to the allocation
status of the block.  Address `0` is `NULL`.  `list_entry` (`container_of`) is the
identity: an element is addressed by its embedded list node.

* Strings are lists of byte values, the terminator left out; `strcmp`, `strncpy` and
  `strdup` stop at a NUL byte as libc does, and `IsCStr` says that a list has none.
* `malloc` and `strdup` can fail: the functions that allocate take the outcome of the
  allocator as arguments.
* The local sentinel `right` of `q_sort` lives at a stack address `sp` given as an
  argument; the queue nodes are assumed to lie below it.
* Loops become functions with a fuel argument that return `none` when the fuel runs out;
  the theorems give a fuel bound under which a result is produced.
* `WF h head L` says that in memory `h` the sentinel `head` and the distinct nodes `L`
  form one cycle linked in both directions; the theorems describe each function by the
  list `L` before and after.
-/

namespace Queue

/-! ## Memory -/

/-- Pointwise update of a memory map. -/
def upd {α : Type} (f : Nat → α) (a : Nat) (v : α) : Nat → α :=
  fun x => if x = a then v else f x

/-- The memory the queue code works on.  `next`/`prev` are the two fields of
`struct list_head`, `value` is the string an `element_t` owns (its bytes before the
terminator), `alloc` tells whether the block at an address is currently allocated,
`bytes` is the character memory output buffers live in. -/
structure Heap where
  next : Nat → Nat
  prev : Nat → Nat
  value : Nat → List Nat
  alloc : Nat → Bool
  bytes : Nat → Nat

/-- The assignment `p->next = v`. -/
def Heap.setNext (h : Heap) (p v : Nat) : Heap := { h with next := upd h.next p v }

/-- The assignment `p->prev = v`. -/
def Heap.setPrev (h : Heap) (p v : Nat) : Heap := { h with prev := upd h.prev p v }

/-- The assignment `e->value = s`. -/
def Heap.setValue (h : Heap) (p : Nat) (s : List Nat) : Heap :=
  { h with value := upd h.value p s }

/-- Marks the block at `p` allocated (`b = true`) or released (`b = false`). -/
def Heap.setAlloc (h : Heap) (p : Nat) (b : Bool) : Heap :=
  { h with alloc := upd h.alloc p b }

/-- The assignment `sp[i] = c` on character memory (address `a = sp + i`). -/
def Heap.setByte (h : Heap) (a c : Nat) : Heap := { h with bytes := upd h.bytes a c }

/-- A memory with nothing in it. -/
def Heap.empty : Heap :=
  { next := fun _ => 0, prev := fun _ => 0, value := fun _ => [], alloc := fun _ => false,
    bytes := fun _ => 0 }

/-! ## C strings (libc) -/

/-- The C string stored in a byte sequence: the bytes before the first NUL. -/
def cstr (s : List Nat) : List Nat := s.takeWhile (fun b => b != 0)

/-- A byte sequence that is a C string's content: it has no NUL byte in it. -/
def IsCStr (s : List Nat) : Prop := ∀ b ∈ s, b ≠ 0

/-- Whether a byte sequence is free of NUL bytes can be computed. -/
instance decIsCStr (s : List Nat) : Decidable (IsCStr s) := by unfold IsCStr; infer_instance

/-- The libc `strcmp`: the difference of the first pair of bytes that differ, comparison
ending at a terminator (an exhausted list reads as the terminator `0`). -/
def strcmp : List Nat → List Nat → Int
  | [], [] => 0
  | [], b :: _ => 0 - (b : Int)
  | a :: _, [] => (a : Int)
  | a :: as, b :: bs =>
    if a = b then (if a = 0 then 0 else strcmp as bs) else (a : Int) - (b : Int)

/-- The `n` bytes libc `strncpy` writes for source `s`: bytes of `s` up to its terminator,
then NUL padding. -/
def strncpyBytes : List Nat → Nat → List Nat
  | _, 0 => []
  | [], n + 1 => 0 :: strncpyBytes [] n
  | c :: cs, n + 1 => if c = 0 then 0 :: strncpyBytes [] n else c :: strncpyBytes cs n

/-- The libc call `strncpy(dst, src, n)` on character memory. -/
def strncpy (h : Heap) (dst : Nat) (src : List Nat) (n : Nat) : Heap :=
  { h with bytes := fun a =>
      if dst ≤ a ∧ a < dst + n then (strncpyBytes src n).getD (a - dst) 0 else h.bytes a }

/-- The value of `bufsize - 1` in `size_t` arithmetic (64 bit, wrapping at zero). -/
def sizeSub1 (bufsize : Nat) : Nat := (bufsize + 2 ^ 64 - 1) % 2 ^ 64

/-! ## The linkage primitives of `list.h` -/

/-- Modelled from the spec: `INIT_LIST_HEAD` of the absent `list.h` ("initialize-empty":
the sentinel points to itself in both directions). -/
def INIT_LIST_HEAD (h : Heap) (head : Nat) : Heap :=
  (h.setNext head head).setPrev head head

/-- Modelled from the spec: `list_empty` of the absent `list.h` ("a list is empty iff the
sentinel's successor equals the sentinel itself"). -/
def list_empty (h : Heap) (head : Nat) : Bool := h.next head == head

/-- Modelled from the spec: `list_is_singular` of the absent `list.h` ("is-singular":
non-empty and the first element is also the last). -/
def list_is_singular (h : Heap) (head : Nat) : Bool :=
  !list_empty h head && h.prev head == h.next head

/-- Modelled from the spec: `list_add` of the absent `list.h` ("insert-after(node, at)":
links `node` directly after `head`). -/
def list_add (h : Heap) (node head : Nat) : Heap :=
  let next := h.next head
  let h := h.setPrev next node
  let h := h.setNext node next
  let h := h.setPrev node head
  h.setNext head node

/-- Modelled from the spec: `list_add_tail` of the absent `list.h` ("insert-before(node,
at)": links `node` directly before `head`). -/
def list_add_tail (h : Heap) (node head : Nat) : Heap :=
  let prev := h.prev head
  let h := h.setNext prev node
  let h := h.setNext node head
  let h := h.setPrev node prev
  h.setPrev head node

/-- Modelled from the spec: `list_del` of the absent `list.h` ("unlink(node)": removes the
node from the cycle, does not deallocate, the node's own two pointers are not used
afterwards; here they keep their old contents). -/
def list_del (h : Heap) (node : Nat) : Heap :=
  let next := h.next node
  let prev := h.prev node
  let h := h.setPrev next prev
  h.setNext prev next

/-- Modelled from the spec: `list_splice` of the absent `list.h` ("splice(src, dst)":
relinks the whole list `list` to the front of `head` without visiting the nodes). -/
def list_splice (h : Heap) (list head : Nat) : Heap :=
  let head_first := h.next head
  let list_first := h.next list
  let list_last := h.prev list
  if list_empty h list then h
  else
    let h := h.setNext head list_first
    let h := h.setPrev list_first head
    let h := h.setNext list_last head_first
    h.setPrev head_first list_last

/-! ## The functions of `queue.c` -/

/-- The function `q_new`; `m` is what `malloc` returns (`0` when it fails). -/
def q_new (h : Heap) (m : Nat) : Nat × Heap :=
  if m = 0 then (0, h)
  else (m, INIT_LIST_HEAD (h.setAlloc m true) m)

/-- The function `new_element`; `m` is what `malloc` returns (`0` when it fails) and
`dupOk` tells whether `strdup` succeeds. -/
def new_element (h : Heap) (s : List Nat) (m : Nat) (dupOk : Bool) : Nat × Heap :=
  if m = 0 then (0, h)
  else
    let h := h.setAlloc m true
    if dupOk = false then (0, h.setAlloc m false)
    else (m, h.setValue m (cstr s))

/-- The function `q_insert_head`. -/
def q_insert_head (h : Heap) (head : Nat) (s : List Nat) (m : Nat) (dupOk : Bool) :
    Bool × Heap :=
  if head = 0 then (false, h)
  else
    let r := new_element h s m dupOk
    if r.1 = 0 then (false, r.2)
    else (true, list_add r.2 r.1 head)

/-- The function `q_insert_tail`. -/
def q_insert_tail (h : Heap) (head : Nat) (s : List Nat) (m : Nat) (dupOk : Bool) :
    Bool × Heap :=
  if head = 0 then (false, h)
  else
    let r := new_element h s m dupOk
    if r.1 = 0 then (false, r.2)
    else (true, list_add_tail r.2 r.1 head)

/-- The function `q_remove_head`; the result is the removed element (`0` for `NULL`).
On a non-empty queue with a buffer (`sp ≠ 0`) the C code needs `bufsize ≥ 1`: with
`bufsize = 0` it copies `SIZE_MAX` bytes and stores at `sp[SIZE_MAX]`, which is undefined, so
this function describes the code only for `sp = 0 ∨ 1 ≤ bufsize` (with `bufsize < 2 ^ 64`),
and the theorems C6, C7, C8, C14 and C15 assume that of every removal on a non-empty queue. -/
def q_remove_head (h : Heap) (head sp bufsize : Nat) : Nat × Heap :=
  if head = 0 ∨ list_empty h head = true then (0, h)
  else
    let ele := h.next head
    let h := if sp ≠ 0 then
        (strncpy h sp (h.value ele) (sizeSub1 bufsize)).setByte (sp + sizeSub1 bufsize) 0
      else h
    (ele, list_del h ele)

/-- The function `q_remove_tail`; it hands `sp` and `bufsize` to `q_remove_head` and so
describes the code under the same condition `sp = 0 ∨ 1 ≤ bufsize`. -/
def q_remove_tail (h : Heap) (head sp bufsize : Nat) : Nat × Heap :=
  if head = 0 ∨ list_empty h head = true then (0, h)
  else q_remove_head h (h.prev (h.prev head)) sp bufsize

/-- The function `q_release_element`: payload and element are freed. -/
def q_release_element (h : Heap) (e : Nat) : Heap := h.setAlloc e false

/-- The loop of `q_delete_mid`.  `indir` points to the `next` field of a node and is
represented by that node, so `*indir` is `h.next indir`. -/
def midLoop : Nat → Heap → Nat → Nat → Nat → Option Nat
  | 0, _, _, _, _ => none
  | fuel + 1, h, head, indir, fast =>
    if fast ≠ head ∧ h.next fast ≠ head then
      midLoop fuel h head (h.next indir) (h.next (h.next fast))
    else some indir

/-- The function `q_delete_mid`. -/
def q_delete_mid (fuel : Nat) (h : Heap) (head : Nat) : Option (Bool × Heap) :=
  if head = 0 ∨ list_empty h head = true then some (false, h)
  else
    match midLoop fuel h head head (h.next head) with
    | none => none
    | some indir =>
      let del := h.next indir
      let h := h.setNext indir (h.next (h.next indir))
      let h := list_del h del
      some (true, q_release_element h del)

/-- The `list_for_each_entry_safe` loop of `q_delete_dup`, entered with the cursor `n`,
its saved successor `s` and the flag `isdup`. -/
def dupLoop : Nat → Heap → Nat → Nat → Nat → Bool → Option Heap
  | 0, _, _, _, _, _ => none
  | fuel + 1, h, head, n, s, isdup =>
    if n = head then some h
    else if h.next n ≠ head ∧ strcmp (h.value n) (h.value (h.next n)) = 0 then
      let h := q_release_element (list_del h n) n
      dupLoop fuel h head s (h.next s) true
    else if isdup = true then
      let h := q_release_element (list_del h n) n
      dupLoop fuel h head s (h.next s) false
    else dupLoop fuel h head s (h.next s) isdup

/-- The function `q_delete_dup`. -/
def q_delete_dup (fuel : Nat) (h : Heap) (head : Nat) : Option (Bool × Heap) :=
  if head = 0 then some (false, h)
  else
    match dupLoop fuel h head (h.next head) (h.next (h.next head)) false with
    | none => none
    | some h => some (true, h)

/-- The inner `while` of `merge_two_list`: moves `left` forward while it is not the last
node of the left list and compares less or equal; returns the cursor and the last
comparison result. -/
def mergeAdvance : Nat → Heap → Nat → Nat → Nat → Int → Option (Nat × Int)
  | 0, _, _, _, _, _ => none
  | fuel + 1, h, left_head, left, right, cmp_result =>
    if h.next left ≠ left_head ∧ cmp_result ≤ 0 then
      mergeAdvance fuel h left_head (h.next left) right
        (strcmp (h.value (h.next left)) (h.value right))
    else some (left, cmp_result)

/-- The `list_for_each_safe` loop of `merge_two_list`; `bound` is the fuel handed to each
run of the inner loop. -/
def mergeLoop (bound : Nat) : Nat → Heap → Nat → Nat → Nat → Nat → Nat → Option Heap
  | 0, _, _, _, _, _, _ => none
  | fuel + 1, h, left_head, right_head, left, right, safe =>
    if right = right_head then some h
    else
      match mergeAdvance bound h left_head left right
          (strcmp (h.value left) (h.value right)) with
      | none => none
      | some (left, cmp_result) =>
        let h := list_del h right
        let h := if cmp_result > 0 then list_add_tail h right left else list_add h right left
        mergeLoop bound fuel h left_head right_head left safe (h.next safe)

/-- The function `merge_two_list`. -/
def merge_two_list (fuel : Nat) (h : Heap) (left_head right_head : Nat) : Option Heap :=
  let left := h.next left_head
  if left = left_head ∧ h.next right_head ≠ right_head then
    some (list_splice h right_head left_head)
  else
    mergeLoop fuel fuel h left_head right_head left (h.next right_head)
      (h.next (h.next right_head))

/-- The slow/fast loop of `q_sort`; returns `slow`. -/
def sortMid : Nat → Heap → Nat → Nat → Nat → Option Nat
  | 0, _, _, _, _ => none
  | fuel + 1, h, head, slow, fast =>
    if fast ≠ head ∧ h.next fast ≠ head then
      sortMid fuel h head (h.next slow) (h.next (h.next fast))
    else some slow

/-- The split of `q_sort`: the local sentinel `right` takes the nodes after `slow`. -/
def sortSplit (h : Heap) (head slow right : Nat) : Heap :=
  let h := INIT_LIST_HEAD h right
  let h := h.setNext right (h.next slow)
  let h := h.setPrev (h.next right) right
  let h := h.setPrev right (h.prev head)
  let h := h.setNext (h.prev right) right
  let h := h.setNext slow head
  h.setPrev head slow

/-- The function `q_sort`.  `sp` is the address of the local variable `right` of this
activation; the activations it calls have theirs at `sp + 1`. -/
def q_sort : Nat → Heap → Nat → Nat → Option Heap
  | 0, _, _, _ => none
  | fuel + 1, h, head, sp =>
    if head = 0 ∨ list_empty h head = true ∨ list_is_singular h head = true then some h
    else
      match sortMid fuel h head (h.next head) (h.next (h.next head)) with
      | none => none
      | some slow =>
        let h := sortSplit h head slow sp
        match q_sort fuel h sp (sp + 1) with
        | none => none
        | some h =>
          match q_sort fuel h head (sp + 1) with
          | none => none
          | some h => merge_two_list fuel h head sp

/-- The value of an `int` after an arithmetic step: 32 bit, two's complement, an overflow
(undefined in C) taken as wrapping. -/
def intWrap (n : Int) : Int := (n + 2 ^ 31) % 2 ^ 32 - 2 ^ 31

/-- The `list_for_each` loop of `q_size`, entered with the cursor `li` and the count
`len`. -/
def sizeLoop : Nat → Heap → Nat → Nat → Int → Option Int
  | 0, _, _, _, _ => none
  | fuel + 1, h, head, li, len =>
    if li = head then some len
    else sizeLoop fuel h head (h.next li) (intWrap (len + 1))

/-- The function `q_size`. -/
def q_size (fuel : Nat) (h : Heap) (head : Nat) : Option Int :=
  if head = 0 then some 0
  else sizeLoop fuel h head (h.next head) 0

/-- The loop of `q_swap`, entered with the cursor `node`. -/
def swapLoop : Nat → Heap → Nat → Nat → Option Heap
  | 0, _, _, _ => none
  | fuel + 1, h, head, node =>
    if h.next node ≠ head ∧ node ≠ head then
      let next := h.next node
      let h := list_del h node
      let h := list_add h node next
      swapLoop fuel h head (h.next node)
    else some h

/-- The function `q_swap`. -/
def q_swap (fuel : Nat) (h : Heap) (head : Nat) : Option Heap :=
  if head = 0 then some h
  else swapLoop fuel h head (h.next head)

/-- The `while` loop of `q_reverse`, entered with the cursor `li`. -/
def reverseLoop : Nat → Heap → Nat → Nat → Option Heap
  | 0, _, _, _ => none
  | fuel + 1, h, head, li =>
    if li ≠ head then
      let prev := h.prev li
      let next := h.next li
      let h := h.setPrev li next
      let h := h.setNext li prev
      reverseLoop fuel h head next
    else some h

/-- The function `q_reverse`. -/
def q_reverse (fuel : Nat) (h : Heap) (head : Nat) : Option Heap :=
  if head = 0 ∨ list_empty h head = true then some h
  else
    match reverseLoop fuel h head (h.next head) with
    | none => none
    | some h =>
      let tmp := h.prev head
      let h := h.setPrev head (h.next head)
      some (h.setNext head tmp)

/-! ## Reading a queue -/

/-- The nodes met from `p` following `next` until `head` is reached. -/
def walk : Nat → Heap → Nat → Nat → Option (List Nat)
  | 0, _, _, _ => none
  | fuel + 1, h, head, p =>
    if p = head then some []
    else (walk fuel h head (h.next p)).map (fun l => p :: l)

/-- The elements of the queue, read from the sentinel forward. -/
def toList (fuel : Nat) (h : Heap) (head : Nat) : Option (List Nat) :=
  walk fuel h head (h.next head)

/-- One doubly-linked step: `b` is the successor of `a` and `a` the predecessor of `b`. -/
def Linked (h : Heap) (a b : Nat) : Prop := h.next a = b ∧ h.prev b = a

/-- The nodes `xs` are doubly linked in this order between `a` and `b`. -/
def Seg (h : Heap) : Nat → List Nat → Nat → Prop
  | a, [], b => Linked h a b
  | a, x :: xs, b => Linked h a x ∧ Seg h x xs b

/-- A well-formed queue: the sentinel `head` and the distinct element nodes `L` form one
cycle, linked in both directions. -/
def WF (h : Heap) (head : Nat) (L : List Nat) : Prop :=
  Seg h head L head ∧ (head :: L).Nodup

/-- Whether two nodes are linked can be computed. -/
instance decLinked (h : Heap) (a b : Nat) : Decidable (Linked h a b) := by
  unfold Linked; infer_instance

/-- Whether a segment is linked can be computed. -/
instance decSeg (h : Heap) : (a : Nat) → (xs : List Nat) → (b : Nat) → Decidable (Seg h a xs b)
  | a, [], b => decLinked h a b
  | a, x :: xs, b => @instDecidableAnd _ _ (decLinked h a x) (decSeg h x xs b)

/-- Whether a queue is well formed can be computed. -/
instance decWF (h : Heap) (head : Nat) (L : List Nat) : Decidable (WF h head L) := by
  unfold WF; infer_instance

/-- The nodes met from `p` following `prev` until `head` is reached. -/
def walkBack : Nat → Heap → Nat → Nat → Option (List Nat)
  | 0, _, _, _ => none
  | fuel + 1, h, head, p =>
    if p = head then some []
    else (walkBack fuel h head (h.prev p)).map (fun l => p :: l)

/-- The elements of the queue, read from the sentinel backward. -/
def toListBack (fuel : Nat) (h : Heap) (head : Nat) : Option (List Nat) :=
  walkBack fuel h head (h.prev head)

/-- The link invariant at the node `n`: `n->next->prev == n` and `n->prev->next == n`. -/
def LinkInv (h : Heap) (n : Nat) : Prop := h.prev (h.next n) = n ∧ h.next (h.prev n) = n

/-- Whether the link invariant holds at a node can be computed. -/
instance decLinkInv (h : Heap) (n : Nat) : Decidable (LinkInv h n) := by
  unfold LinkInv; infer_instance

/-- The link invariant holds in the queue at `head`: following `next` from the sentinel
leads back to it, and the invariant holds at the sentinel and at every node met on the
way. -/
def InvHolds (fuel : Nat) (h : Heap) (head : Nat) : Prop :=
  ∃ L, toList fuel h head = some L ∧ ∀ n ∈ head :: L, LinkInv h n

/-- The payloads of the nodes `L`. -/
def payloads (h : Heap) (L : List Nat) : List (List Nat) := L.map h.value

/-- The order `q_sort` sorts by: `strcmp` reports less or equal. -/
def cmpLE (h : Heap) (a b : Nat) : Bool := decide (strcmp (h.value a) (h.value b) ≤ 0)

/-! ## The loops read on the sequence of elements -/

/-- What the loop of `q_delete_dup` keeps of the elements it still has to visit; `v` gives
the payloads and `isdup` is the flag of the loop. -/
def dupFilter (v : Nat → List Nat) : Bool → List Nat → List Nat
  | _, [] => []
  | isdup, [x] => if isdup = true then [] else [x]
  | isdup, x :: y :: R =>
    if strcmp (v x) (v y) = 0 then dupFilter v true (y :: R)
    else if isdup = true then dupFilter v false (y :: R)
    else x :: dupFilter v false (y :: R)

/-- What the loop of `q_swap` makes of the elements it still has to visit. -/
def swapPairs : List Nat → List Nat
  | a :: b :: R => b :: a :: swapPairs R
  | R => R

/-- The elements whose payload differs from the payload of the element before them (`p`,
if there is one, for the first) and from the payload of the element after them. -/
def isolated (v : Nat → List Nat) : Option (List Nat) → List Nat → List Nat
  | _, [] => []
  | p, [x] => if p = some (v x) then [] else [x]
  | p, x :: y :: R =>
    if p = some (v x) ∨ v y = v x then isolated v (some (v x)) (y :: R)
    else x :: isolated v (some (v x)) (y :: R)

/-! ## Sequences of calls -/

/-- One call of a function that inserts, removes or deletes, with its arguments and, for an
insertion, the outcome of the allocator. -/
inductive Op where
  | insertHead (s : List Nat) (m : Nat) (dupOk : Bool)
  | insertTail (s : List Nat) (m : Nat) (dupOk : Bool)
  | removeHead (sp bufsize : Nat)
  | removeTail (sp bufsize : Nat)
  | deleteMid

/-- Runs one call; the result is the memory after it and the change of the number of
elements it reports: `1` for an insertion that returns true, `-1` for a removal that
returns an element and for a deletion that returns true, `0` otherwise. -/
def applyOp (fuel : Nat) (h : Heap) (head : Nat) : Op → Option (Heap × Int)
  | Op.insertHead s m dupOk =>
    some ((q_insert_head h head s m dupOk).2,
      if (q_insert_head h head s m dupOk).1 = true then 1 else 0)
  | Op.insertTail s m dupOk =>
    some ((q_insert_tail h head s m dupOk).2,
      if (q_insert_tail h head s m dupOk).1 = true then 1 else 0)
  | Op.removeHead sp bufsize =>
    some ((q_remove_head h head sp bufsize).2,
      if (q_remove_head h head sp bufsize).1 = 0 then 0 else -1)
  | Op.removeTail sp bufsize =>
    some ((q_remove_tail h head sp bufsize).2,
      if (q_remove_tail h head sp bufsize).1 = 0 then 0 else -1)
  | Op.deleteMid =>
    match q_delete_mid fuel h head with
    | none => none
    | some r => some (r.2, if r.1 = true then -1 else 0)

/-- Runs the calls in turn; the result is the memory after them and the number of
successful insertions minus the number of successful removals and deletions. -/
def runOps (fuel : Nat) : Heap → Nat → List Op → Option (Heap × Int)
  | h, _, [] => some (h, 0)
  | h, head, op :: ops =>
    match applyOp fuel h head op with
    | none => none
    | some r =>
      match runOps fuel r.1 head ops with
      | none => none
      | some r' => some (r'.1, r.2 + r'.2)

/-- The elements of the queue after one call, given the elements `L` before it. -/
def opList (L : List Nat) : Op → List Nat
  | Op.insertHead _ m dupOk => if m = 0 ∨ dupOk = false then L else m :: L
  | Op.insertTail _ m dupOk => if m = 0 ∨ dupOk = false then L else L ++ [m]
  | Op.removeHead _ _ => L.tail
  | Op.removeTail _ _ => L.dropLast
  | Op.deleteMid => L.eraseIdx (L.length / 2)

/-- The arguments of a call are ones the code can be run on: the block `malloc` hands out in
an insertion is not in use by the queue, and a removal gets no buffer or a buffer of a
capacity `bufsize ≥ 1` (a `size_t`). -/
def opValid (head : Nat) (L : List Nat) : Op → Prop
  | Op.insertHead _ m _ => m ∉ head :: L
  | Op.insertTail _ m _ => m ∉ head :: L
  | Op.removeHead sp bufsize => (sp = 0 ∨ 1 ≤ bufsize) ∧ bufsize < 2 ^ 64
  | Op.removeTail sp bufsize => (sp = 0 ∨ 1 ≤ bufsize) ∧ bufsize < 2 ^ 64
  | Op.deleteMid => True

/-- In a sequence of calls on a queue with the elements `L`, every call has valid arguments
for the queue at the time of the call. -/
def ValidOps (head : Nat) : List Nat → List Op → Prop
  | _, [] => True
  | L, op :: ops => opValid head L op ∧ ValidOps head (opList L op) ops

/-! ## Concrete queues -/

/-- Appends the given strings with `q_insert_tail` to the queue whose sentinel is at address
`1`; the new elements get the addresses `a`, `a + 1`, and so on. -/
def buildFrom : List (List Nat) → Nat → Heap → Heap
  | [], _, h => h
  | s :: ss, a, h => buildFrom ss (a + 1) (q_insert_tail h 1 s a true).2

/-- The queue holding the given strings: `q_new` puts the sentinel at address `1`, the
elements are at the addresses `2`, `3`, and so on. -/
def build (l : List (List Nat)) : Heap := buildFrom l 2 (q_new Heap.empty 1).2

/-- Appends the given strings with `q_insert_tail` to the queue whose sentinel is at address
`head`; the new elements get the addresses `a`, `a + 1`, and so on. -/
def buildFromAt (head : Nat) : List (List Nat) → Nat → Heap → Heap
  | [], _, h => h
  | s :: ss, a, h => buildFromAt head ss (a + 1) (q_insert_tail h head s a true).2

/-- Two queues in one memory: the first as `build` makes it from `l`, the second holding the
strings `r` with its sentinel at address `100` and its elements at `101`, `102`, and so on. -/
def buildTwo (l r : List (List Nat)) : Heap :=
  buildFromAt 100 r 101 (q_new (build l) 100).2

/-! ## Field access after an assignment -/

@[simp] theorem upd_same {α : Type} (f : Nat → α) (a : Nat) (v : α) : upd f a v a = v := by
  simp [upd]

theorem upd_other {α : Type} (f : Nat → α) {a x : Nat} (v : α) (hx : x ≠ a) :
    upd f a v x = f x := by
  simp [upd, hx]

@[simp] theorem setNext_next (h : Heap) (p v : Nat) : (h.setNext p v).next = upd h.next p v := rfl
@[simp] theorem setNext_prev (h : Heap) (p v : Nat) : (h.setNext p v).prev = h.prev := rfl
@[simp] theorem setNext_value (h : Heap) (p v : Nat) : (h.setNext p v).value = h.value := rfl
@[simp] theorem setNext_alloc (h : Heap) (p v : Nat) : (h.setNext p v).alloc = h.alloc := rfl
@[simp] theorem setNext_bytes (h : Heap) (p v : Nat) : (h.setNext p v).bytes = h.bytes := rfl
@[simp] theorem setPrev_next (h : Heap) (p v : Nat) : (h.setPrev p v).next = h.next := rfl
@[simp] theorem setPrev_prev (h : Heap) (p v : Nat) : (h.setPrev p v).prev = upd h.prev p v := rfl
@[simp] theorem setPrev_value (h : Heap) (p v : Nat) : (h.setPrev p v).value = h.value := rfl
@[simp] theorem setPrev_alloc (h : Heap) (p v : Nat) : (h.setPrev p v).alloc = h.alloc := rfl
@[simp] theorem setPrev_bytes (h : Heap) (p v : Nat) : (h.setPrev p v).bytes = h.bytes := rfl
@[simp] theorem setValue_next (h : Heap) (p : Nat) (s : List Nat) :
    (h.setValue p s).next = h.next := rfl
@[simp] theorem setValue_prev (h : Heap) (p : Nat) (s : List Nat) :
    (h.setValue p s).prev = h.prev := rfl
@[simp] theorem setValue_value (h : Heap) (p : Nat) (s : List Nat) :
    (h.setValue p s).value = upd h.value p s := rfl
@[simp] theorem setValue_alloc (h : Heap) (p : Nat) (s : List Nat) :
    (h.setValue p s).alloc = h.alloc := rfl
@[simp] theorem setAlloc_next (h : Heap) (p : Nat) (b : Bool) :
    (h.setAlloc p b).next = h.next := rfl
@[simp] theorem setAlloc_prev (h : Heap) (p : Nat) (b : Bool) :
    (h.setAlloc p b).prev = h.prev := rfl
@[simp] theorem setAlloc_value (h : Heap) (p : Nat) (b : Bool) :
    (h.setAlloc p b).value = h.value := rfl
@[simp] theorem setAlloc_alloc (h : Heap) (p : Nat) (b : Bool) :
    (h.setAlloc p b).alloc = upd h.alloc p b := rfl
@[simp] theorem setAlloc_bytes (h : Heap) (p : Nat) (b : Bool) :
    (h.setAlloc p b).bytes = h.bytes := rfl
@[simp] theorem setByte_next (h : Heap) (a c : Nat) : (h.setByte a c).next = h.next := rfl
@[simp] theorem setByte_prev (h : Heap) (a c : Nat) : (h.setByte a c).prev = h.prev := rfl
@[simp] theorem setByte_value (h : Heap) (a c : Nat) : (h.setByte a c).value = h.value := rfl
@[simp] theorem setByte_alloc (h : Heap) (a c : Nat) : (h.setByte a c).alloc = h.alloc := rfl
@[simp] theorem strncpy_next (h : Heap) (d : Nat) (s : List Nat) (n : Nat) :
    (strncpy h d s n).next = h.next := rfl
@[simp] theorem strncpy_prev (h : Heap) (d : Nat) (s : List Nat) (n : Nat) :
    (strncpy h d s n).prev = h.prev := rfl
@[simp] theorem strncpy_value (h : Heap) (d : Nat) (s : List Nat) (n : Nat) :
    (strncpy h d s n).value = h.value := rfl
@[simp] theorem strncpy_alloc (h : Heap) (d : Nat) (s : List Nat) (n : Nat) :
    (strncpy h d s n).alloc = h.alloc := rfl

@[simp] theorem list_del_value (h : Heap) (n : Nat) : (list_del h n).value = h.value := rfl
@[simp] theorem list_del_alloc (h : Heap) (n : Nat) : (list_del h n).alloc = h.alloc := rfl
@[simp] theorem list_del_bytes (h : Heap) (n : Nat) : (list_del h n).bytes = h.bytes := rfl
@[simp] theorem list_add_value (h : Heap) (n a : Nat) : (list_add h n a).value = h.value := rfl
@[simp] theorem list_add_alloc (h : Heap) (n a : Nat) : (list_add h n a).alloc = h.alloc := rfl
@[simp] theorem list_add_bytes (h : Heap) (n a : Nat) : (list_add h n a).bytes = h.bytes := rfl
@[simp] theorem list_add_tail_value (h : Heap) (n a : Nat) :
    (list_add_tail h n a).value = h.value := rfl
@[simp] theorem list_add_tail_alloc (h : Heap) (n a : Nat) :
    (list_add_tail h n a).alloc = h.alloc := rfl
@[simp] theorem list_add_tail_bytes (h : Heap) (n a : Nat) :
    (list_add_tail h n a).bytes = h.bytes := rfl
@[simp] theorem release_next (h : Heap) (e : Nat) : (q_release_element h e).next = h.next := rfl
@[simp] theorem release_prev (h : Heap) (e : Nat) : (q_release_element h e).prev = h.prev := rfl
@[simp] theorem release_value (h : Heap) (e : Nat) :
    (q_release_element h e).value = h.value := rfl

/-! ## Segments and well-formed queues -/

theorem Seg_append (h : Heap) (a n b : Nat) (X Y : List Nat) :
    Seg h a (X ++ n :: Y) b ↔ Seg h a X n ∧ Seg h n Y b := by
  induction X generalizing a with
  | nil => simp [Seg]
  | cons x X ih => simp [Seg, ih, and_assoc]

/-- A segment only depends on the `next` field of its sources and the `prev` field of its
targets. -/
theorem Seg.transfer {h h' : Heap} {a b : Nat} {X : List Nat} (hs : Seg h a X b)
    (hn : ∀ x ∈ a :: X, h'.next x = h.next x)
    (hp : ∀ x ∈ X ++ [b], h'.prev x = h.prev x) : Seg h' a X b := by
  induction X generalizing a with
  | nil =>
    simp only [Seg, Linked] at hs ⊢
    rw [hn a (by simp), hp b (by simp)]; exact hs
  | cons x X ih =>
    simp only [Seg, Linked] at hs ⊢
    refine ⟨?_, ih hs.2 (fun y hy => hn y (by simp [List.mem_cons] at hy ⊢; tauto))
      (fun y hy => hp y (by simp at hy ⊢; tauto))⟩
    rw [hn a (by simp), hp x (by simp)]; exact hs.1

/-- A queue only depends on the fields of its own nodes. -/
theorem WF.frame {h h' : Heap} {head : Nat} {L : List Nat} (hw : WF h head L)
    (hn : ∀ x ∈ head :: L, h'.next x = h.next x)
    (hp : ∀ x ∈ head :: L, h'.prev x = h.prev x) : WF h' head L :=
  ⟨hw.1.transfer hn (fun x hx => hp x (by simp at hx ⊢; tauto)), hw.2⟩

/-- The cycle of a queue can be read starting from any of its nodes. -/
theorem WF_rotate (h : Heap) (head c : Nat) (X Y : List Nat) :
    WF h head (X ++ c :: Y) ↔ WF h c (Y ++ head :: X) := by
  unfold WF
  rw [Seg_append, Seg_append]
  have hperm : (head :: (X ++ c :: Y)).Perm (c :: (Y ++ head :: X)) := by
    have h1 : (head :: (X ++ c :: Y)) = (head :: X) ++ (c :: Y) := by simp
    have h2 : (c :: (Y ++ head :: X)) = (c :: Y) ++ (head :: X) := by simp
    rw [h1, h2]; exact List.perm_append_comm
  rw [hperm.nodup_iff]
  tauto

theorem WF_nil (h : Heap) (head : Nat) :
    WF h head [] ↔ h.next head = head ∧ h.prev head = head := by
  simp [WF, Seg, Linked]

theorem WF.next_head {h : Heap} {head x : Nat} {L : List Nat} (hw : WF h head (x :: L)) :
    h.next head = x := hw.1.1.1

theorem WF.head_ne {h : Heap} {head : Nat} {L : List Nat} (hw : WF h head L) :
    ∀ x ∈ L, x ≠ head := by
  intro x hx e
  have := hw.2
  simp at this
  exact this.1 (e ▸ hx)

/-! ## What the linkage primitives touch -/

theorem list_del_next_other (h : Heap) {n x : Nat} (hx : x ≠ h.prev n) :
    (list_del h n).next x = h.next x := by
  simp [list_del, upd, hx]

theorem list_del_prev_other (h : Heap) {n x : Nat} (hx : x ≠ h.next n) :
    (list_del h n).prev x = h.prev x := by
  simp [list_del, upd, hx]

theorem list_add_next_other (h : Heap) {node head x : Nat} (h1 : x ≠ node) (h2 : x ≠ head) :
    (list_add h node head).next x = h.next x := by
  simp [list_add, upd, h1, h2]

theorem list_add_prev_other (h : Heap) {node head x : Nat} (h1 : x ≠ node)
    (h2 : x ≠ h.next head) : (list_add h node head).prev x = h.prev x := by
  simp [list_add, upd, h1, h2]

theorem list_add_tail_next_other (h : Heap) {node head x : Nat} (h1 : x ≠ node)
    (h2 : x ≠ h.prev head) : (list_add_tail h node head).next x = h.next x := by
  simp [list_add_tail, upd, h1, h2]

theorem list_add_tail_prev_other (h : Heap) {node head x : Nat} (h1 : x ≠ node)
    (h2 : x ≠ head) : (list_add_tail h node head).prev x = h.prev x := by
  simp [list_add_tail, upd, h1, h2]

/-! ## The linkage primitives on a well-formed queue -/

theorem eq_nil_or_snoc (L : List Nat) : L = [] ∨ ∃ X p, L = X ++ [p] := by
  rcases List.eq_nil_or_concat L with e | ⟨X, p, e⟩
  · exact Or.inl e
  · exact Or.inr ⟨X, p, by simpa using e⟩

/-- The predecessor of the sentinel is the last node (the sentinel itself when empty). -/
theorem WF.prev_head {h : Heap} {head : Nat} {L : List Nat} (hw : WF h head L) :
    h.prev head = (head :: L).getLast (by simp) := by
  rcases eq_nil_or_snoc L with rfl | ⟨X, p, rfl⟩
  · simpa [WF, Seg, Linked] using hw.1.2
  · have := hw.1
    rw [Seg_append] at this
    simpa [Seg, Linked] using this.2.2

/-- Unlinking the first element. -/
theorem WF.list_del_first {h : Heap} {head x : Nat} {L : List Nat} (hw : WF h head (x :: L)) :
    WF (list_del h x) head L := by
  obtain ⟨⟨⟨hn, hp⟩, hs⟩, hnd⟩ := hw
  have hnd' : (head :: L).Nodup := by
    simp only [List.nodup_cons, List.mem_cons] at hnd ⊢
    tauto
  have hxh : x ≠ head := by
    intro e; simp [e] at hnd
  have hxL : x ∉ L := by
    simp only [List.nodup_cons, List.mem_cons] at hnd; tauto
  have hhL : head ∉ L := by
    simp only [List.nodup_cons, List.mem_cons] at hnd; tauto
  refine ⟨?_, hnd'⟩
  cases L with
  | nil =>
    simp only [Seg, Linked] at hs ⊢
    simp [list_del, hs.1, hp, upd]
  | cons y L =>
    simp only [Seg, Linked] at hs ⊢
    obtain ⟨⟨hxy, hyx⟩, hs⟩ := hs
    have hyh : y ≠ head := by
      intro e; simp [e] at hhL
    have hyL : y ∉ L := by
      simp only [List.nodup_cons, List.mem_cons] at hnd'; tauto
    refine ⟨by simp [list_del, hxy, hp, upd], ?_⟩
    apply hs.transfer
    · intro z hz
      apply list_del_next_other
      rw [hp]
      rintro rfl
      simp only [List.mem_cons] at hz hhL
      rcases hz with rfl | hz
      · exact hyh rfl
      · exact hhL (Or.inr hz)
    · intro z hz
      apply list_del_prev_other
      rw [hxy]
      rintro rfl
      simp only [List.mem_append, List.mem_singleton] at hz
      rcases hz with hz | rfl
      · exact hyL hz
      · exact hyh rfl

/-- Linking a new node directly after the sentinel. -/
theorem WF.list_add_head {h : Heap} {head new : Nat} {L : List Nat} (hw : WF h head L)
    (hnew : new ∉ head :: L) : WF (list_add h new head) head (new :: L) := by
  obtain ⟨hs, hnd⟩ := hw
  have hnh : new ≠ head := by
    intro e; simp [e] at hnew
  have hnL : new ∉ L := by
    simp only [List.mem_cons] at hnew; tauto
  refine ⟨?_, ?_⟩
  · cases L with
    | nil =>
      simp only [Seg, Linked] at hs ⊢
      simp [list_add, hs.1, upd, hnh, Ne.symm hnh]
    | cons y L =>
      simp only [Seg, Linked] at hs ⊢
      obtain ⟨⟨hxy, hyx⟩, hs⟩ := hs
      have hyh : y ≠ head := by
        intro e; simp [e] at hnd
      have hyn : y ≠ new := by
        intro e; simp [e] at hnL
      have hyL : y ∉ L := by
        simp only [List.nodup_cons, List.mem_cons] at hnd; tauto
      have hhL : head ∉ L := by
        simp only [List.nodup_cons, List.mem_cons] at hnd; tauto
      refine ⟨by simp [list_add, hxy, upd, hnh, Ne.symm hnh],
        by simp [list_add, hxy, upd, hnh, Ne.symm hnh, hyn, Ne.symm hyn], ?_⟩
      apply hs.transfer
      · intro z hz
        apply list_add_next_other
        · rintro rfl; exact hnL hz
        · rintro rfl
          simp only [List.mem_cons] at hz
          rcases hz with e | hz
          · exact hyh e.symm
          · exact hhL hz
      · intro z hz
        apply list_add_prev_other
        · rintro rfl
          simp only [List.mem_append, List.mem_singleton] at hz
          simp only [List.mem_cons] at hnL
          rcases hz with hz | e
          · exact hnL (Or.inr hz)
          · exact hnh e
        · rw [hxy]; rintro rfl
          simp only [List.mem_append, List.mem_singleton] at hz
          rcases hz with hz | e
          · exact hyL hz
          · exact hyh e
  · simp only [List.nodup_cons, List.mem_cons] at hnd hnew ⊢
    tauto

/-- Linking a new node directly before the sentinel. -/
theorem WF.list_add_tail_head {h : Heap} {head new : Nat} {L : List Nat} (hw : WF h head L)
    (hnew : new ∉ head :: L) : WF (list_add_tail h new head) head (L ++ [new]) := by
  have hnh : new ≠ head := by
    intro e; simp [e] at hnew
  have hnL : new ∉ L := by
    simp only [List.mem_cons] at hnew; tauto
  have hprev := hw.prev_head
  obtain ⟨hs, hnd⟩ := hw
  have hhL : head ∉ L := by
    simp only [List.nodup_cons] at hnd; tauto
  refine ⟨?_, ?_⟩
  · rw [Seg_append]
    rcases eq_nil_or_snoc L with rfl | ⟨X, p, rfl⟩
    · simp only [Seg, Linked] at hs ⊢
      simp [list_add_tail, hs.2, upd, hnh, Ne.symm hnh]
    · rw [Seg_append] at hs ⊢
      simp only [Seg, Linked] at hs ⊢
      simp only [List.mem_append, List.mem_singleton, not_or] at hnL hhL
      have hpl : h.prev head = p := by simpa using hprev
      have hpn : p ≠ new := fun e => hnL.2 e.symm
      have hph : p ≠ head := fun e => hhL.2 e.symm
      have hpX : p ∉ X := by
        have := hnd.of_cons
        rw [List.nodup_append] at this
        intro hm
        exact this.2.2 hm (by simp) 
      refine ⟨⟨?_, by simp [list_add_tail, hpl, upd, hnh, Ne.symm hnh, hpn, Ne.symm hpn],
          by simp [list_add_tail, hpl, upd, hnh, Ne.symm hnh, hpn, Ne.symm hpn]⟩,
        by simp [list_add_tail, hpl, upd, hnh, Ne.symm hnh, hpn, Ne.symm hpn],
        by simp [list_add_tail, hpl, upd, hnh, Ne.symm hnh, hpn, Ne.symm hpn]⟩
      apply hs.1.transfer
      · intro z hz
        apply list_add_tail_next_other
        · rintro rfl
          simp only [List.mem_cons] at hz
          rcases hz with e | hz
          · exact hnh e
          · exact hnL.1 hz
        · rw [hpl]; rintro rfl
          simp only [List.mem_cons] at hz
          rcases hz with e | hz
          · exact hph e
          · exact hpX hz
      · intro z hz
        apply list_add_tail_prev_other
        · rintro rfl
          simp only [List.mem_append, List.mem_singleton] at hz
          rcases hz with hz | e
          · exact hnL.1 hz
          · exact hpn e.symm
        · rintro rfl
          simp only [List.mem_append, List.mem_singleton] at hz
          rcases hz with hz | e
          · exact hhL.1 hz
          · exact hph e.symm
  · rw [show head :: (L ++ [new]) = (head :: L) ++ [new] by simp, List.nodup_append]
    refine ⟨hnd, by simp, ?_⟩
    intro a ha hb
    simp only [List.mem_singleton] at hb
    exact hnew (hb ▸ ha)

/-! ## The primitives at an inner position, and what they leave alone -/

theorem Seg.next_in {h : Heap} {a b : Nat} {X : List Nat} (hs : Seg h a X b) :
    ∀ n ∈ a :: X, h.next n ∈ X ++ [b] := by
  induction X generalizing a with
  | nil =>
    intro n hn
    simp only [List.mem_singleton] at hn
    subst hn
    simp [hs.1]
  | cons x X ih =>
    intro n hn
    rw [List.mem_cons] at hn
    rcases hn with rfl | hn
    · simp [hs.1.1]
    · have := ih hs.2 n hn
      simp only [List.cons_append, List.mem_cons]
      exact Or.inr this

theorem Seg.prev_in {h : Heap} {a b : Nat} {X : List Nat} (hs : Seg h a X b) :
    ∀ n ∈ X ++ [b], h.prev n ∈ a :: X := by
  induction X generalizing a with
  | nil =>
    intro n hn
    simp only [List.nil_append, List.mem_singleton] at hn
    subst hn
    simp [hs.2]
  | cons x X ih =>
    intro n hn
    rw [List.cons_append, List.mem_cons] at hn
    rcases hn with rfl | hn
    · simp [hs.1.2]
    · have := ih hs.2 n hn
      exact List.mem_cons_of_mem _ this

/-- The successor of a node of a queue is a node of the queue. -/
theorem WF.next_mem {h : Heap} {head : Nat} {L : List Nat} (hw : WF h head L) {n : Nat}
    (hn : n ∈ head :: L) : h.next n ∈ head :: L := by
  have := hw.1.next_in n hn
  simp only [List.mem_append, List.mem_singleton, List.mem_cons] at this ⊢
  tauto

/-- The predecessor of a node of a queue is a node of the queue. -/
theorem WF.prev_mem {h : Heap} {head : Nat} {L : List Nat} (hw : WF h head L) {n : Nat}
    (hn : n ∈ head :: L) : h.prev n ∈ head :: L := by
  apply hw.1.prev_in n
  simp only [List.mem_append, List.mem_singleton, List.mem_cons] at hn ⊢
  tauto

/-- Unlinking any element. -/
theorem WF.list_del_mid {h : Heap} {head n : Nat} {X Y : List Nat}
    (hw : WF h head (X ++ n :: Y)) : WF (list_del h n) head (X ++ Y) := by
  rcases eq_nil_or_snoc X with rfl | ⟨X, p, rfl⟩
  · exact hw.list_del_first
  · rw [List.append_assoc] at hw ⊢
    rw [List.singleton_append] at hw ⊢
    rw [WF_rotate] at hw ⊢
    exact WF.list_del_first (by simpa using hw)

/-- Linking a new node directly after an element. -/
theorem WF.list_add_after {h : Heap} {head c new : Nat} {X Y : List Nat}
    (hw : WF h head (X ++ c :: Y)) (hnew : new ∉ head :: (X ++ c :: Y)) :
    WF (list_add h new c) head (X ++ c :: new :: Y) := by
  rw [WF_rotate] at hw ⊢
  have hx : new ∉ c :: (Y ++ head :: X) := by
    simp only [List.mem_cons, List.mem_append] at hnew ⊢
    tauto
  have := hw.list_add_head hx
  simpa using this

/-- Linking a new node directly before an element. -/
theorem WF.list_add_tail_before {h : Heap} {head c new : Nat} {X Y : List Nat}
    (hw : WF h head (X ++ c :: Y)) (hnew : new ∉ head :: (X ++ c :: Y)) :
    WF (list_add_tail h new c) head (X ++ new :: c :: Y) := by
  rw [WF_rotate] at hw
  have hx : new ∉ c :: (Y ++ head :: X) := by
    simp only [List.mem_cons, List.mem_append] at hnew ⊢
    tauto
  have := hw.list_add_tail_head hx
  have e : X ++ new :: c :: Y = (X ++ [new]) ++ c :: Y := by simp
  rw [e, WF_rotate]
  simpa using this

/-- Unlinking an element of a queue leaves every node outside the queue as it was. -/
theorem WF.list_del_outside {h : Heap} {head n : Nat} {L : List Nat} (hw : WF h head L)
    (hn : n ∈ L) {x : Nat} (hx : x ∉ head :: L) :
    (list_del h n).next x = h.next x ∧ (list_del h n).prev x = h.prev x := by
  have h1 := hw.next_mem (List.mem_cons_of_mem _ hn)
  have h2 := hw.prev_mem (List.mem_cons_of_mem _ hn)
  constructor
  · apply list_del_next_other
    rintro rfl; exact hx h2
  · apply list_del_prev_other
    rintro rfl; exact hx h1

/-- Linking `new` after a node of a queue leaves every other node outside the queue as it
was. -/
theorem WF.list_add_outside {h : Heap} {head c new : Nat} {L : List Nat} (hw : WF h head L)
    (hc : c ∈ head :: L) {x : Nat} (hx : x ∉ head :: L) (hxn : x ≠ new) :
    (list_add h new c).next x = h.next x ∧ (list_add h new c).prev x = h.prev x := by
  have h1 := hw.next_mem hc
  constructor
  · apply list_add_next_other _ hxn
    rintro rfl; exact hx hc
  · apply list_add_prev_other _ hxn
    rintro rfl; exact hx h1

/-- Linking `new` before a node of a queue leaves every other node outside the queue as it
was. -/
theorem WF.list_add_tail_outside {h : Heap} {head c new : Nat} {L : List Nat}
    (hw : WF h head L) (hc : c ∈ head :: L) {x : Nat} (hx : x ∉ head :: L) (hxn : x ≠ new) :
    (list_add_tail h new c).next x = h.next x ∧ (list_add_tail h new c).prev x = h.prev x := by
  have h1 := hw.prev_mem hc
  constructor
  · apply list_add_tail_next_other _ hxn
    rintro rfl; exact hx h1
  · apply list_add_tail_prev_other _ hxn
    rintro rfl; exact hx hc

/-! ## Reading a well-formed queue -/

theorem walk_seg {h : Heap} {head : Nat} (X : List Nat) (p : Nat) (fuel : Nat)
    (hs : Seg h p X head) (hX : head ∉ p :: X) (hf : X.length + 2 ≤ fuel) :
    walk fuel h head p = some (p :: X) := by
  induction X generalizing p fuel with
  | nil =>
    obtain ⟨f, rfl⟩ : ∃ f, fuel = f + 2 := ⟨fuel - 2, by simp at hf; omega⟩
    have hp : p ≠ head := by
      intro e; simp [e] at hX
    simp [walk, hp, hs.1]
  | cons x X ih =>
    obtain ⟨f, rfl⟩ : ∃ f, fuel = f + 1 := ⟨fuel - 1, by simp at hf; omega⟩
    have hp : p ≠ head := by
      intro e; simp [e] at hX
    have := ih x f hs.2 (by simp only [List.mem_cons] at hX ⊢; tauto)
      (by simp at hf ⊢; omega)
    simp [walk, hp, hs.1.1, this]

/-- Reading a well-formed queue from the sentinel forward gives its elements in order. -/
theorem WF.toList {h : Heap} {head : Nat} {L : List Nat} (hw : WF h head L) {fuel : Nat}
    (hf : L.length + 1 ≤ fuel) : toList fuel h head = some L := by
  unfold Queue.toList
  cases L with
  | nil =>
    obtain ⟨f, rfl⟩ : ∃ f, fuel = f + 1 := ⟨fuel - 1, by simp at hf; omega⟩
    simp [walk, hw.1.1]
  | cons x L =>
    rw [hw.1.1.1]
    exact walk_seg L x fuel hw.1.2 (by
      have := hw.2
      simp only [List.nodup_cons] at this
      exact this.1) (by simpa using hf)

/-- A memory holds at most one queue at a sentinel. -/
theorem Seg.same_nodes {h : Heap} {a b : Nat} {X Y : List Nat} (hX : Seg h a X b)
    (hY : Seg h a Y b) (hbX : b ∉ X) (hbY : b ∉ Y) : X = Y := by
  induction X generalizing a Y with
  | nil =>
    cases Y with
    | nil => rfl
    | cons y Y =>
      exfalso
      have : y = b := by rw [← hY.1.1, hX.1]
      simp [this] at hbY
  | cons x X ih =>
    cases Y with
    | nil =>
      exfalso
      have : x = b := by rw [← hX.1.1, hY.1]
      simp [this] at hbX
    | cons y Y =>
      have e : x = y := by rw [← hX.1.1, hY.1.1]
      subst e
      rw [ih hX.2 hY.2 (fun hm => hbX (List.mem_cons_of_mem _ hm))
        (fun hm => hbY (List.mem_cons_of_mem _ hm))]

theorem WF.unique {h : Heap} {head : Nat} {L L' : List Nat} (hw : WF h head L)
    (hw' : WF h head L') : L = L' :=
  hw.1.same_nodes hw'.1 (List.nodup_cons.1 hw.2).1 (List.nodup_cons.1 hw'.2).1

/-! ## Insertion -/

theorem Heap.ext' {h g : Heap} (h1 : h.next = g.next) (h2 : h.prev = g.prev)
    (h3 : h.value = g.value) (h4 : h.alloc = g.alloc) (h5 : h.bytes = g.bytes) : h = g := by
  cases h; cases g; simp_all

theorem upd_upd_same {α : Type} (f : Nat → α) (a : Nat) (v w : α) :
    upd (upd f a v) a w = upd f a w := by
  funext x; by_cases e : x = a <;> simp [upd, e]

theorem upd_self {α : Type} (f : Nat → α) (a : Nat) : upd f a (f a) = f := by
  funext x; by_cases e : x = a <;> simp [upd, e]

/-- A failing `new_element` returns `NULL` and leaves links, payloads and buffers alone; the
block it may have obtained is released again. -/
theorem new_element_fail (h : Heap) (s : List Nat) (m : Nat) (dupOk : Bool)
    (hf : m = 0 ∨ dupOk = false) :
    (new_element h s m dupOk).1 = 0 ∧ (new_element h s m dupOk).2.next = h.next ∧
      (new_element h s m dupOk).2.prev = h.prev ∧
      (new_element h s m dupOk).2.value = h.value ∧
      (new_element h s m dupOk).2.bytes = h.bytes ∧
      ((m ≠ 0 → h.alloc m = false) → (new_element h s m dupOk).2 = h) := by
  unfold new_element
  by_cases hm : m = 0
  · simp [hm]
  · have hd : dupOk = false := by tauto
    simp only [hm, hd, if_false, if_true, true_and]
    refine ⟨rfl, rfl, rfl, rfl, ?_⟩
    intro ha
    apply Heap.ext' <;> simp [upd_upd_same]
    rw [← ha hm, upd_self]

theorem new_element_ok (h : Heap) (s : List Nat) (m : Nat) (hm : m ≠ 0) :
    new_element h s m true = (m, (h.setAlloc m true).setValue m (cstr s)) := by
  simp [new_element, hm]

theorem cstr_of_isCStr {s : List Nat} (hs : IsCStr s) : cstr s = s := by
  unfold cstr
  rw [List.takeWhile_eq_self_iff]
  intro b hb
  simpa using hs b hb

theorem payloads_congr {h h' : Heap} {L : List Nat} (hv : ∀ x ∈ L, h'.value x = h.value x) :
    payloads h' L = payloads h L := by
  unfold payloads
  exact List.map_congr_left hv

/-- C9: on a well-formed queue with elements `L`, when `malloc` returns a fresh block `m`
and `strdup` succeeds, `q_insert_head` returns true and the queue becomes `m` followed by
`L`, `q_insert_tail` returns true and the queue becomes `L` followed by `m`; in both cases
the payload of `m` is the string `s`, the payload sequence is `s` put before (after) the
old payloads, and the payload of every other element is unchanged. -/
theorem q_insert_success (h : Heap) (head : Nat) (L : List Nat) (s : List Nat) (m : Nat)
    (hw : WF h head L) (hhead : head ≠ 0) (hm : m ≠ 0) (hfresh : m ∉ head :: L)
    (hs : IsCStr s) :
    ((q_insert_head h head s m true).1 = true ∧
      WF (q_insert_head h head s m true).2 head (m :: L) ∧
      (q_insert_head h head s m true).2.value m = s ∧
      payloads (q_insert_head h head s m true).2 (m :: L) = s :: payloads h L ∧
      ∀ x, x ≠ m → (q_insert_head h head s m true).2.value x = h.value x) ∧
    ((q_insert_tail h head s m true).1 = true ∧
      WF (q_insert_tail h head s m true).2 head (L ++ [m]) ∧
      (q_insert_tail h head s m true).2.value m = s ∧
      payloads (q_insert_tail h head s m true).2 (L ++ [m]) = payloads h L ++ [s] ∧
      ∀ x, x ≠ m → (q_insert_tail h head s m true).2.value x = h.value x) := by
  have hw0 : WF ((h.setAlloc m true).setValue m (cstr s)) head L := hw.frame (by simp) (by simp)
  have hmL : m ∉ L := fun hx => hfresh (List.mem_cons_of_mem _ hx)
  have hval : ∀ x ∈ L, upd h.value m s x = h.value x := by
    intro x hx
    exact upd_other _ _ (fun e => hmL (e ▸ hx))
  constructor
  · simp only [q_insert_head, hhead, if_false, new_element_ok h s m hm, hm]
    refine ⟨trivial, hw0.list_add_head hfresh, by simp [cstr_of_isCStr hs], ?_, ?_⟩
    · simp only [payloads, list_add_value, setValue_value, setAlloc_value, cstr_of_isCStr hs,
        List.map_cons, upd_same]
      rw [List.map_congr_left hval]
    · intro x hx
      simp [upd_other _ _ hx]
  · simp only [q_insert_tail, hhead, if_false, new_element_ok h s m hm, hm]
    refine ⟨trivial, hw0.list_add_tail_head hfresh, by simp [cstr_of_isCStr hs], ?_, ?_⟩
    · simp only [payloads, list_add_tail_value, setValue_value, setAlloc_value,
        cstr_of_isCStr hs, List.map_append, List.map_cons, List.map_nil, upd_same]
      rw [List.map_congr_left hval]
    · intro x hx
      simp [upd_other _ _ hx]

/-- C10: when the handle is null, or `malloc` fails (`m = 0`), or `strdup` fails,
`q_insert_head` and `q_insert_tail` return false, leave every link, payload and buffer byte
as it was, so every queue in memory is the queue it was, and, the block `malloc` handed out
having been free before, leave the memory exactly as it was (the block is released again
and never linked). -/
theorem q_insert_failure (h : Heap) (head : Nat) (s : List Nat) (m : Nat) (dupOk : Bool)
    (hfail : head = 0 ∨ m = 0 ∨ dupOk = false) :
    ((q_insert_head h head s m dupOk).1 = false ∧
      (q_insert_head h head s m dupOk).2.next = h.next ∧
      (q_insert_head h head s m dupOk).2.prev = h.prev ∧
      (q_insert_head h head s m dupOk).2.value = h.value ∧
      (∀ hd L, WF h hd L → WF (q_insert_head h head s m dupOk).2 hd L) ∧
      ((m ≠ 0 → h.alloc m = false) → (q_insert_head h head s m dupOk).2 = h)) ∧
    ((q_insert_tail h head s m dupOk).1 = false ∧
      (q_insert_tail h head s m dupOk).2.next = h.next ∧
      (q_insert_tail h head s m dupOk).2.prev = h.prev ∧
      (q_insert_tail h head s m dupOk).2.value = h.value ∧
      (∀ hd L, WF h hd L → WF (q_insert_tail h head s m dupOk).2 hd L) ∧
      ((m ≠ 0 → h.alloc m = false) → (q_insert_tail h head s m dupOk).2 = h)) := by
  by_cases hh : head = 0
  · subst hh
    simp [q_insert_head, q_insert_tail]
  · have hf : m = 0 ∨ dupOk = false := by tauto
    obtain ⟨h1, h2, h3, h4, -, h6⟩ := new_element_fail h s m dupOk hf
    simp only [q_insert_head, q_insert_tail, hh, if_false, h1, if_true, true_and]
    exact ⟨⟨h2, h3, h4, fun hd L hw => hw.frame (by simp [h2]) (by simp [h3]), h6⟩,
      ⟨h2, h3, h4, fun hd L hw => hw.frame (by simp [h2]) (by simp [h3]), h6⟩⟩

/-! ## Removal -/

theorem WF.list_empty_cons {h : Heap} {head x : Nat} {L : List Nat}
    (hw : WF h head (x :: L)) : list_empty h head = false := by
  have hx : x ≠ head := hw.head_ne x (by simp)
  simp [list_empty, hw.next_head, hx]

theorem WF.list_empty_nil {h : Heap} {head : Nat} (hw : WF h head []) :
    list_empty h head = true := by
  simp [list_empty, hw.1.1]

/-- The function `q_remove_head` on a non-empty queue: the first element is returned, the
buffer (if any) is written, the element is unlinked. -/
theorem q_remove_head_cons {h : Heap} {head x : Nat} {L : List Nat}
    (hw : WF h head (x :: L)) (hhead : head ≠ 0) (sp bufsize : Nat) :
    q_remove_head h head sp bufsize =
      (x, list_del (if sp ≠ 0 then
        (strncpy h sp (h.value x) (sizeSub1 bufsize)).setByte (sp + sizeSub1 bufsize) 0
        else h) x) := by
  simp [q_remove_head, hhead, hw.list_empty_cons, hw.next_head]

theorem q_remove_head_cons_wf {h : Heap} {head x : Nat} {L : List Nat}
    (hw : WF h head (x :: L)) (hhead : head ≠ 0) (sp bufsize : Nat) :
    (q_remove_head h head sp bufsize).1 = x ∧ WF (q_remove_head h head sp bufsize).2 head L ∧
      (q_remove_head h head sp bufsize).2.value = h.value ∧
      (q_remove_head h head sp bufsize).2.alloc = h.alloc := by
  rw [q_remove_head_cons hw hhead]
  refine ⟨rfl, ?_, ?_, ?_⟩
  · apply WF.list_del_first
    apply hw.frame <;> intro y _ <;> split <;> rfl
  · simp only [list_del_value]; split <;> rfl
  · simp only [list_del_alloc]; split <;> rfl

theorem q_remove_head_bytes {h g : Heap} {head hd x : Nat} {L M : List Nat}
    (hw : WF h head (x :: L)) (hhead : head ≠ 0) (hg : WF g hd (x :: M)) (hhd : hd ≠ 0)
    (hv : g.value x = h.value x) (hb : g.bytes = h.bytes) (sp bufsize : Nat) :
    (q_remove_head h head sp bufsize).2.bytes = (q_remove_head g hd sp bufsize).2.bytes := by
  rw [q_remove_head_cons hw hhead, q_remove_head_cons hg hhd]
  simp only [list_del_bytes]
  split
  · simp [Heap.setByte, strncpy, hv, hb]
  · exact hb.symm

theorem strncpyBytes_nil_getD (n i : Nat) : (strncpyBytes [] n).getD i 0 = 0 := by
  induction n generalizing i with
  | zero => simp [strncpyBytes]
  | succ n ih =>
    cases i with
    | zero => simp [strncpyBytes]
    | succ i => simpa [strncpyBytes] using ih i

theorem strncpyBytes_getD {s : List Nat} (hs : IsCStr s) (n i : Nat) (hi : i < n) :
    (strncpyBytes s n).getD i 0 = s.getD i 0 := by
  induction s generalizing n i with
  | nil => simpa using strncpyBytes_nil_getD n i
  | cons c cs ih =>
    obtain ⟨n, rfl⟩ : ∃ k, n = k + 1 := ⟨n - 1, by omega⟩
    have hc : c ≠ 0 := hs c (by simp)
    have hcs : IsCStr cs := fun b hb => hs b (List.mem_cons_of_mem _ hb)
    cases i with
    | zero => simp [strncpyBytes, hc]
    | succ i => simpa [strncpyBytes, hc] using ih hcs n i (by omega)

theorem sizeSub1_pos {bufsize : Nat} (h1 : 1 ≤ bufsize) (h2 : bufsize < 2 ^ 64) :
    sizeSub1 bufsize = bufsize - 1 := by
  unfold sizeSub1
  omega

/-- The bytes of the buffer after the copy `q_remove_head` makes. -/
theorem copy_bytes (h : Heap) (sp : Nat) (s : List Nat) (n : Nat) (hs : IsCStr s) (i : Nat)
    (hi : i ≤ n) :
    ((strncpy h sp s n).setByte (sp + n) 0).bytes (sp + i) = if i < n then s.getD i 0 else 0 := by
  by_cases hin : i < n
  · have hne : sp + i ≠ sp + n := by omega
    have hg := strncpyBytes_getD hs n i hin
    simp only [Heap.setByte, upd, hne, strncpy, hin, if_false, if_true, and_true,
      Nat.le_add_right, Nat.add_lt_add_iff_left, Nat.add_sub_cancel_left]
    exact hg
  · have : i = n := by omega
    subst this
    simp [Heap.setByte, upd]

/-- C6: called without a buffer or with a buffer of capacity `bufsize ≥ 1`, `q_remove_head`
returns `NULL` exactly when the handle is null or the queue is empty; on a non-empty queue
`x :: L'` it returns the first element `x`, no payload and no allocation status changes
(the element is not released), and the queue becomes `L'`.  For a null handle and for an
empty queue it returns `NULL` and leaves the memory unchanged whatever `sp` and `bufsize`
are. -/
theorem q_remove_head_spec (h : Heap) (head sp bufsize : Nat) (L : List Nat)
    (hw : WF h head L) (hnz : 0 ∉ L) (hbuf : sp = 0 ∨ 1 ≤ bufsize)
    (hsize : bufsize < 2 ^ 64) :
    (∀ sp' bufsize', q_remove_head h 0 sp' bufsize' = (0, h)) ∧
    ((q_remove_head h head sp bufsize).1 = 0 ↔ head = 0 ∨ L = []) ∧
    (L = [] → ∀ sp' bufsize', q_remove_head h head sp' bufsize' = (0, h)) ∧
    (∀ x L', head ≠ 0 → L = x :: L' →
      (q_remove_head h head sp bufsize).1 = x ∧
      WF (q_remove_head h head sp bufsize).2 head L' ∧
      (q_remove_head h head sp bufsize).2.value = h.value ∧
      (q_remove_head h head sp bufsize).2.alloc = h.alloc) := by
  refine ⟨fun _ _ => by simp [q_remove_head], ?_, ?_, ?_⟩
  · by_cases hh : head = 0
    · simp [q_remove_head, hh]
    · cases L with
      | nil => simp [q_remove_head, hw.list_empty_nil]
      | cons x L =>
        rw [(q_remove_head_cons_wf hw hh sp bufsize).1]
        have : x ≠ 0 := fun e => hnz (by simp [e])
        simp [this, hh]
  · rintro rfl sp' bufsize'
    simp [q_remove_head, hw.list_empty_nil]
  · rintro x L' hh rfl
    exact q_remove_head_cons_wf hw hh sp bufsize

/-- C7: on a non-empty queue with first element `x`, a non-null buffer `sp` and a capacity
`bufsize ≥ 1`, after `q_remove_head` the buffer starts with the first
`min (length of the payload) (bufsize - 1)` bytes of the payload of `x`, immediately followed
by a NUL byte. -/
theorem q_remove_head_buffer (h : Heap) (head sp bufsize x : Nat) (L : List Nat)
    (hw : WF h head (x :: L)) (hhead : head ≠ 0) (hsp : sp ≠ 0) (hb1 : 1 ≤ bufsize)
    (hb2 : bufsize < 2 ^ 64) (hs : IsCStr (h.value x)) :
    (List.range (min (h.value x).length (bufsize - 1) + 1)).map
        (fun i => (q_remove_head h head sp bufsize).2.bytes (sp + i)) =
      (h.value x).take (bufsize - 1) ++ [0] := by
  rw [q_remove_head_cons hw hhead, sizeSub1_pos hb1 hb2]
  simp only [hsp, ne_eq, not_false_eq_true, if_true, list_del_bytes]
  apply List.ext_getElem
  · simp [Nat.min_comm]
  · intro i h1 h2
    simp only [List.length_map, List.length_range] at h1
    simp only [List.getElem_map, List.getElem_range]
    rw [copy_bytes h sp (h.value x) (bufsize - 1) hs i (by omega)]
    by_cases hi : i < min (h.value x).length (bufsize - 1)
    · have h3 : i < bufsize - 1 := by omega
      have h4 : i < (h.value x).length := by omega
      rw [if_pos h3, List.getElem_append_left (by simp; omega)]
      rw [List.getD_eq_getElem _ _ h4]
      simp
    · have hik : i = min (h.value x).length (bufsize - 1) := by omega
      rw [List.getElem_append_right (by simp; omega)]
      simp only [List.length_take, List.getElem_singleton]
      split
      · apply List.getD_eq_default
        omega
      · rfl

/-- C8: called without a buffer or with a buffer of capacity `bufsize ≥ 1`, on a non-empty
queue `L ++ [x]` (`L` may be empty) `q_remove_tail` returns the last element `x` and the
queue becomes `L`, still a well-formed cycle through the sentinel, with payloads and
allocation status untouched; the buffer ends up exactly as `q_remove_head` leaves it on any
queue whose first element has the same payload; for a null handle or an empty queue it
returns `NULL` and changes nothing, whatever `sp` and `bufsize` are. -/
theorem q_remove_tail_spec (h : Heap) (head sp bufsize x : Nat) (L : List Nat)
    (hw : WF h head (L ++ [x])) (hnz : 0 ∉ head :: L) (hbuf : sp = 0 ∨ 1 ≤ bufsize)
    (hsize : bufsize < 2 ^ 64) :
    (q_remove_tail h head sp bufsize).1 = x ∧
    WF (q_remove_tail h head sp bufsize).2 head L ∧
    (q_remove_tail h head sp bufsize).2.value = h.value ∧
    (q_remove_tail h head sp bufsize).2.alloc = h.alloc ∧
    (∀ g hd M, WF g hd (x :: M) → hd ≠ 0 → g.value x = h.value x → g.bytes = h.bytes →
      (q_remove_tail h head sp bufsize).2.bytes = (q_remove_head g hd sp bufsize).2.bytes) ∧
    (∀ sp' bufsize', q_remove_tail h 0 sp' bufsize' = (0, h)) ∧
    (∀ g hd sp' bufsize', WF g hd [] → q_remove_tail g hd sp' bufsize' = (0, g)) := by
  have hhead : head ≠ 0 := fun e => hnz (by simp [e])
  have hne : list_empty h head = false := by
    cases L with
    | nil => exact hw.list_empty_cons
    | cons y L => exact WF.list_empty_cons (by simpa using hw)
  have hpx : h.prev head = x := by simpa using hw.prev_head
  have hnull : ∀ sp' bufsize', q_remove_tail h 0 sp' bufsize' = (0, h) := by
    intro sp' bufsize'
    simp [q_remove_tail]
  have hempty : ∀ g hd sp' bufsize', WF g hd [] → q_remove_tail g hd sp' bufsize' = (0, g) := by
    intro g hd sp' bufsize' hg
    simp [q_remove_tail, hg.list_empty_nil]
  have hrw : q_remove_tail h head sp bufsize = q_remove_head h (h.prev x) sp bufsize := by
    simp [q_remove_tail, hhead, hne, hpx]
  rw [hrw]
  rcases eq_nil_or_snoc L with rfl | ⟨X, p, rfl⟩
  · have hw1 : WF h head [x] := by simpa using hw
    have hp : h.prev x = head := hw1.1.1.2
    rw [hp]
    obtain ⟨h1, h2, h3, h4⟩ := q_remove_head_cons_wf hw1 hhead sp bufsize
    exact ⟨h1, h2, h3, h4, fun g hd M hg hhd hv hb =>
      q_remove_head_bytes hw1 hhead hg hhd hv hb sp bufsize, hnull, hempty⟩
  · have hw1 : WF h head (X ++ p :: [x]) := by simpa using hw
    have hp : h.prev x = p := by
      have := hw1.1
      rw [Seg_append] at this
      exact this.2.1.2
    have hw2 : WF h p (x :: head :: X) := by
      rw [WF_rotate] at hw1
      simpa using hw1
    have hpz : p ≠ 0 := fun e => hnz (by simp [e])
    rw [hp]
    obtain ⟨h1, h2, h3, h4⟩ := q_remove_head_cons_wf hw2 hpz sp bufsize
    refine ⟨h1, ?_, h3, h4, fun g hd M hg hhd hv hb =>
      q_remove_head_bytes hw2 hpz hg hhd hv hb sp bufsize, hnull, hempty⟩
    have := (WF_rotate _ p head [] X).1 (by simpa using h2)
    simpa using this

/-! ## Positions on the cycle -/

/-- The node at position `i` of the path `a, X, b`. -/
theorem Seg.next_getD {h : Heap} {a b : Nat} {X : List Nat} (hs : Seg h a X b) (i : Nat)
    (hi : i ≤ X.length) :
    h.next ((a :: (X ++ [b])).getD i 0) = (a :: (X ++ [b])).getD (i + 1) 0 := by
  induction X generalizing a i with
  | nil =>
    have : i = 0 := by simpa using hi
    subst this
    simpa using hs.1
  | cons x X ih =>
    cases i with
    | zero => simpa using hs.1.1
    | succ i =>
      have := ih hs.2 i (by simpa using hi)
      simpa using this

/-- On a cycle without repetition only the last position of the closed path shows the
sentinel again. -/
theorem path_getD_eq_head {head : Nat} {L : List Nat} (hnd : (head :: L).Nodup) (i : Nat)
    (hi : i ≤ L.length) : (head :: (L ++ [head])).getD (i + 1) 0 = head ↔ i = L.length := by
  have hh : head ∉ L := (List.nodup_cons.1 hnd).1
  constructor
  · intro e
    by_contra hne
    have hlt : i < L.length := by omega
    have : (L ++ [head]).getD i 0 = L[i] := by
      rw [List.getD_eq_getElem _ _ (by simp; omega)]
      exact List.getElem_append_left hlt
    rw [List.getD_cons_succ, this] at e
    exact hh (e ▸ List.getElem_mem hlt)
  · rintro rfl
    rw [List.getD_cons_succ, List.getD_eq_getElem _ _ (by simp)]
    simp

theorem path_getD_succ {head : Nat} {L : List Nat} (i : Nat) (hi : i < L.length) :
    (head :: (L ++ [head])).getD (i + 1) 0 = L[i] := by
  rw [List.getD_cons_succ, List.getD_eq_getElem _ _ (by simp; omega)]
  exact List.getElem_append_left hi

/-! ## Deleting the middle element -/

/-- The loop of `q_delete_mid` started after `k` rounds stops with `indir` at position
`n / 2` of the cycle. -/
theorem midLoop_spec {h : Heap} {head : Nat} {L : List Nat} (hw : WF h head L) (fuel k : Nat)
    (hk : 2 * k ≤ L.length) (hf : L.length / 2 + 1 ≤ fuel + k) :
    midLoop fuel h head ((head :: (L ++ [head])).getD k 0)
      ((head :: (L ++ [head])).getD (2 * k + 1) 0) =
      some ((head :: (L ++ [head])).getD (L.length / 2) 0) := by
  induction fuel generalizing k with
  | zero => omega
  | succ f ih =>
    unfold midLoop
    have hfast := path_getD_eq_head hw.2 (2 * k) hk
    by_cases hlt : 2 * k + 2 ≤ L.length
    · have h1 : (head :: (L ++ [head])).getD (2 * k + 1) 0 ≠ head := by
        rw [Ne, hfast]; omega
      have h2 := hw.1.next_getD (2 * k + 1) (by omega)
      have h3 : (head :: (L ++ [head])).getD (2 * k + 1 + 1) 0 ≠ head := by
        rw [Ne, path_getD_eq_head hw.2 (2 * k + 1) (by omega)]; omega
      have h4 := hw.1.next_getD (2 * k + 2) (by omega)
      have h5 := hw.1.next_getD k (by omega)
      rw [if_pos ⟨h1, by rw [h2]; exact h3⟩, h2, h4, h5]
      exact ih (k + 1) (by omega) (by omega)
    · have hk2 : k = L.length / 2 := by omega
      by_cases he : 2 * k = L.length
      · have h1 : (head :: (L ++ [head])).getD (2 * k + 1) 0 = head := hfast.2 he
        rw [if_neg (fun hc => hc.1 h1), hk2]
      · have h2 := hw.1.next_getD (2 * k + 1) (by omega)
        have h3 : (head :: (L ++ [head])).getD (2 * k + 1 + 1) 0 = head :=
          (path_getD_eq_head hw.2 (2 * k + 1) (by omega)).2 (by omega)
        rw [if_neg (fun hc => hc.2 (by rw [h2, h3])), hk2]

/-- Writing the successor of `del` into its predecessor first does not change what
`list_del` produces. -/
theorem list_del_after_bypass (h : Heap) (indir del : Nat) (h1 : h.next indir = del)
    (h2 : h.prev del = indir) (h3 : del ≠ indir) :
    list_del (h.setNext indir (h.next (h.next indir))) del = list_del h del := by
  unfold list_del
  apply Heap.ext' <;> simp [upd_other _ _ h3, h1, h2, upd_upd_same]

theorem WF.prev_getElem {h : Heap} {head : Nat} {L : List Nat} (hw : WF h head L) (i : Nat)
    (hi : i < L.length) : h.prev L[i] = (head :: (L ++ [head])).getD i 0 ∧
      h.next ((head :: (L ++ [head])).getD i 0) = L[i] ∧
      L[i] ≠ (head :: (L ++ [head])).getD i 0 := by
  have hsplit : L = L.take i ++ L[i] :: L.drop (i + 1) := by
    simp
  have hs := hw.1
  rw [hsplit, Seg_append] at hs
  have hn := hw.1.next_getD i (by omega)
  rw [path_getD_succ i hi] at hn
  have hp : h.prev L[i] = (head :: (L ++ [head])).getD i 0 := by
    rcases eq_nil_or_snoc (L.take i) with e | ⟨X, p, e⟩
    · rw [e] at hs
      have hi0 : i = 0 := by
        have := congrArg List.length e
        rw [List.length_take, List.length_nil] at this
        omega
      subst hi0
      simpa using hs.1.2
    · rw [e, Seg_append] at hs
      have hlen : X.length + 1 = i := by
        have := congrArg List.length e
        rw [List.length_take, List.length_append, List.length_singleton] at this
        omega
      have hpi : (head :: (L ++ [head])).getD i 0 = p := by
        subst hlen
        rw [path_getD_succ _ (by omega)]
        have h1 : (X ++ [p])[X.length]? = some p := by simp
        rw [← e, List.getElem?_take, if_pos (by omega),
          List.getElem?_eq_getElem (by omega)] at h1
        exact Option.some.inj h1
      rw [hpi]
      exact hs.1.2.2
  refine ⟨hp, hn, ?_⟩
  intro e
  have hnd := hw.2
  cases i with
  | zero =>
    simp at e
    exact hw.head_ne _ (List.getElem_mem hi) e
  | succ j =>
    rw [path_getD_succ j (by omega)] at e
    have := (List.Nodup.getElem_inj_iff hnd.of_cons).1 e
    omega

/-- The function `q_delete_mid` on a non-empty queue. -/
theorem q_delete_mid_wf {h : Heap} {head : Nat} {L : List Nat} (hw : WF h head L)
    (hhead : head ≠ 0) (hL : L ≠ []) (fuel : Nat) (hf : L.length / 2 + 1 ≤ fuel) :
    q_delete_mid fuel h head =
        some (true, q_release_element (list_del h (L.getD (L.length / 2) 0))
          (L.getD (L.length / 2) 0)) ∧
      WF (list_del h (L.getD (L.length / 2) 0)) head (L.eraseIdx (L.length / 2)) := by
  have hpos : 0 < L.length := List.length_pos.2 hL
  have hi : L.length / 2 < L.length := by omega
  obtain ⟨hp, hn, hne⟩ := hw.prev_getElem (L.length / 2) hi
  have hloop := midLoop_spec hw fuel 0 (by omega) (by omega)
  have hne' : list_empty h head = false := by
    cases L with
    | nil => exact absurd rfl hL
    | cons x L => exact hw.list_empty_cons
  have h0 : (head :: (L ++ [head])).getD 0 0 = head := rfl
  have h1 : (head :: (L ++ [head])).getD (2 * 0 + 1) 0 = h.next head := by
    have := hw.1.next_getD 0 (by omega)
    rw [← this]; rfl
  rw [h0, h1] at hloop
  have hget : L.getD (L.length / 2) 0 = L[L.length / 2] := List.getD_eq_getElem _ _ hi
  constructor
  · simp only [q_delete_mid, hhead, hne', false_or, Bool.false_eq_true, if_false, hloop, hget]
    rw [list_del_after_bypass h _ _ rfl (by rw [hn, hp]) (by rw [hn]; exact hne), hn]
  · rw [hget]
    have hsplit : L = L.take (L.length / 2) ++ L[L.length / 2] :: L.drop (L.length / 2 + 1) := by
      simp
    have he : L.eraseIdx (L.length / 2) = L.take (L.length / 2) ++ L.drop (L.length / 2 + 1) :=
      List.eraseIdx_eq_take_drop_succ _ _
    rw [he]
    apply WF.list_del_mid
    rw [← hsplit]
    exact hw

/-- C3: on a non-empty queue of length `n`, `q_delete_mid` returns true, unlinks and releases
the element at 0-based index `n / 2`, and leaves the other elements in their order with
their payloads; on an empty queue and on a null handle it returns false and changes
nothing. -/
theorem q_delete_mid_spec (h : Heap) (head : Nat) (L : List Nat) (fuel : Nat)
    (hw : WF h head L) (hf : L.length / 2 + 1 ≤ fuel) :
    (head ≠ 0 → L ≠ [] → ∃ h', q_delete_mid fuel h head = some (true, h') ∧
        WF h' head (L.eraseIdx (L.length / 2)) ∧ h'.value = h.value ∧
        h'.alloc = upd h.alloc (L.getD (L.length / 2) 0) false) ∧
    (L = [] → q_delete_mid fuel h head = some (false, h)) ∧
    q_delete_mid fuel h 0 = some (false, h) := by
  refine ⟨?_, ?_, by simp [q_delete_mid]⟩
  · intro hhead hL
    obtain ⟨h1, h2⟩ := q_delete_mid_wf hw hhead hL fuel hf
    exact ⟨_, h1, h2.frame (by simp) (by simp), rfl, rfl⟩
  · rintro rfl
    simp [q_delete_mid, hw.list_empty_nil]

/-- C4 as the code has it: on the six-element queue `[a,b,c,d,e,f]`, `q_delete_mid` returns
true and removes `d`, the element at 0-based index `6 / 2 = 3`, leaving `[a,b,c,e,f]`. -/
theorem q_delete_mid_six :
    (q_delete_mid 4 (build [[97], [98], [99], [100], [101], [102]]) 1).bind
        (fun r => (toList 6 r.2 1).map (fun l => (r.1, payloads r.2 l))) =
      some (true, [[97], [98], [99], [101], [102]]) := by
  decide

/-- C4 as stated fails: on the six-element queue `[a,b,c,d,e,f]` the queue `q_delete_mid`
leaves is not `[a,b,d,e,f]`. -/
theorem q_delete_mid_no_c_removed :
    ¬ ((q_delete_mid 4 (build [[97], [98], [99], [100], [101], [102]]) 1).bind
        (fun r => (toList 6 r.2 1).map (fun l => payloads r.2 l)) =
      some [[97], [98], [100], [101], [102]]) := by
  decide

/-! ## The order given by `strcmp` -/

theorem strcmp_self (s : List Nat) : strcmp s s = 0 := by
  induction s with
  | nil => simp [strcmp]
  | cons a s ih => simp [strcmp, ih]

theorem strcmp_swap (s t : List Nat) : strcmp t s = - strcmp s t := by
  induction s generalizing t with
  | nil =>
    cases t with
    | nil => simp [strcmp]
    | cons b t => simp [strcmp]
  | cons a s ih =>
    cases t with
    | nil => simp [strcmp]
    | cons b t =>
      by_cases hab : a = b
      · subst hab
        by_cases h0 : a = 0
        · simp [strcmp, h0]
        · simp [strcmp, h0, ih t]
      · have hba : b ≠ a := fun e => hab e.symm
        simp [strcmp, hab, hba]

theorem strcmp_total (s t : List Nat) : strcmp s t ≤ 0 ∨ strcmp t s ≤ 0 := by
  rw [strcmp_swap s t]
  omega

theorem strcmp_trans (s t u : List Nat) (h1 : strcmp s t ≤ 0) (h2 : strcmp t u ≤ 0) :
    strcmp s u ≤ 0 := by
  induction s generalizing t u with
  | nil =>
    cases u with
    | nil => simp [strcmp]
    | cons c u => simp [strcmp]
  | cons a s ih =>
    cases t with
    | nil =>
      have ha : a = 0 := by
        simp only [strcmp] at h1; omega
      subst ha
      cases u with
      | nil => simp [strcmp]
      | cons c u =>
        by_cases hc : 0 = c
        · subst hc; simp [strcmp]
        · simp only [strcmp, hc, if_false]; omega
    | cons b t =>
      cases u with
      | nil =>
        have hb : b = 0 := by
          simp only [strcmp] at h2; omega
        subst hb
        by_cases ha : a = 0
        · subst ha; simp [strcmp]
        · simp only [strcmp, ha, if_false] at h1; omega
      | cons c u =>
        by_cases hab : a = b
        · subst hab
          by_cases hac : a = c
          · subst hac
            by_cases h0 : a = 0
            · simp [strcmp, h0]
            · simp only [strcmp, if_true, h0, if_false] at h1 h2 ⊢
              exact ih t u h1 h2
          · simp only [strcmp, hac, if_false] at h2 ⊢
            exact h2
        · by_cases hbc : b = c
          · subst hbc
            simp only [strcmp, hab, if_false] at h1 ⊢
            exact h1
          · simp only [strcmp, hab, hbc, if_false] at h1 h2
            have hac : a ≠ c := by omega
            simp only [strcmp, hac, if_false]
            omega

theorem strcmp_eq_zero {s t : List Nat} (hs : IsCStr s) (ht : IsCStr t) :
    strcmp s t = 0 ↔ s = t := by
  constructor
  · intro h
    induction s generalizing t with
    | nil =>
      cases t with
      | nil => rfl
      | cons b t =>
        have hb : b ≠ 0 := ht b (by simp)
        simp only [strcmp] at h; omega
    | cons a s ih =>
      have ha : a ≠ 0 := hs a (by simp)
      cases t with
      | nil => simp only [strcmp] at h; omega
      | cons b t =>
        by_cases hab : a = b
        · subst hab
          simp only [strcmp, if_true, ha, if_false] at h
          rw [ih (fun c hc => hs c (List.mem_cons_of_mem _ hc))
            (fun c hc => ht c (List.mem_cons_of_mem _ hc)) h]
        · simp only [strcmp, hab, if_false] at h; omega
  · rintro rfl
    exact strcmp_self s

theorem cmpLE_trans (h : Heap) (a b c : Nat) (h1 : cmpLE h a b = true)
    (h2 : cmpLE h b c = true) : cmpLE h a c = true := by
  simp only [cmpLE, decide_eq_true_eq] at *
  exact strcmp_trans _ _ _ h1 h2

theorem cmpLE_total (h : Heap) (a b : Nat) : (cmpLE h a b || cmpLE h b a) = true := by
  simp only [cmpLE, Bool.or_eq_true, decide_eq_true_eq]
  exact strcmp_total _ _

/-! ## Deleting duplicates -/

theorem dupFilter_sublist (v : Nat → List Nat) (b : Bool) (R : List Nat) :
    (dupFilter v b R).Sublist R := by
  induction R generalizing b with
  | nil => simp [dupFilter]
  | cons x R ih =>
    cases R with
    | nil =>
      unfold dupFilter
      split <;> simp
    | cons y R =>
      unfold dupFilter
      split
      · exact (ih true).cons _
      · split
        · exact (ih false).cons _
        · exact (ih false).cons₂ _

/-- The loop of `q_delete_dup`: with the elements `K` kept so far and the elements `R` still
to visit, it ends with the queue `K ++ dupFilter isdup R`. -/
theorem dupLoop_spec (head : Nat) (R : List Nat) :
    ∀ (h : Heap) (K : List Nat) (isdup : Bool) (fuel : Nat), WF h head (K ++ R) →
      R.length + 1 ≤ fuel →
      ∃ h', dupLoop fuel h head (R.headD head) (h.next (R.headD head)) isdup = some h' ∧
        WF h' head (K ++ dupFilter h.value isdup R) ∧ h'.value = h.value ∧
        ∀ x ∈ K ++ dupFilter h.value isdup R, h'.alloc x = h.alloc x := by
  induction R with
  | nil =>
    intro h K isdup fuel hw hf
    obtain ⟨f, rfl⟩ : ∃ f, fuel = f + 1 := ⟨fuel - 1, by simp at hf; omega⟩
    exact ⟨h, by simp [dupLoop], by simpa [dupFilter] using hw, rfl, fun _ _ => rfl⟩
  | cons x R ih =>
    intro h K isdup fuel hw hf
    obtain ⟨f, rfl⟩ : ∃ f, fuel = f + 1 := ⟨fuel - 1, by simp at hf; omega⟩
    have hf' : R.length + 1 ≤ f := by simpa using hf
    have hxh : x ≠ head := hw.head_ne x (by simp)
    have hseg := hw.1
    rw [Seg_append] at hseg
    -- the successor of `x` is the first node still to visit
    have hnext : h.next x = R.headD head := by
      cases R with
      | nil => exact hseg.2.1
      | cons y R => exact hseg.2.1.1
    -- unlinking and releasing `x`
    have hdel : WF (q_release_element (list_del h x) x) head (K ++ R) :=
      (WF.list_del_mid hw).frame (by simp) (by simp)
    have hxKR : x ∉ K ++ R := by
      have hnd := hw.2.of_cons
      rw [List.nodup_append] at hnd
      obtain ⟨-, h2, h3⟩ := hnd
      intro hm
      rcases List.mem_append.1 hm with hm | hm
      · exact h3 hm (by simp)
      · exact (List.nodup_cons.1 h2).1 hm
    have hdrop : ∀ b, ∃ h', dupLoop f (q_release_element (list_del h x) x) head
        (R.headD head) ((q_release_element (list_del h x) x).next (R.headD head)) b = some h' ∧
        WF h' head (K ++ dupFilter h.value b R) ∧ h'.value = h.value ∧
        ∀ y ∈ K ++ dupFilter h.value b R, h'.alloc y = h.alloc y := by
      intro b
      obtain ⟨h', e1, e2, e3, e4⟩ := ih (q_release_element (list_del h x) x) K b f hdel hf'
      refine ⟨h', e1, e2, e3, ?_⟩
      intro y hy
      rw [e4 y hy]
      have hyx : y ≠ x := by
        rintro rfl
        apply hxKR
        rcases List.mem_append.1 hy with hy | hy
        · exact List.mem_append_left _ hy
        · exact List.mem_append_right _ ((dupFilter_sublist _ _ _).subset hy)
      simp [q_release_element, upd_other _ _ hyx]
    have hkeep : ∃ h', dupLoop f h head (R.headD head) (h.next (R.headD head)) false = some h' ∧
        WF h' head (K ++ x :: dupFilter h.value false R) ∧ h'.value = h.value ∧
        ∀ y ∈ K ++ x :: dupFilter h.value false R, h'.alloc y = h.alloc y := by
      obtain ⟨h', e1, e2, e3, e4⟩ := ih h (K ++ [x]) false f (by simpa using hw) hf'
      exact ⟨h', e1, by simpa using e2, e3, by simpa using e4⟩
    simp only [List.headD_cons]
    unfold dupLoop
    rw [if_neg hxh, hnext]
    cases R with
    | nil =>
      simp only [List.headD_nil, ne_eq, not_true_eq_false, false_and, if_false]
      by_cases hb : isdup = true
      · simp only [hb, if_true, dupFilter]
        simpa [dupFilter] using hdrop false
      · simp only [hb, if_false, dupFilter]
        have hb' : isdup = false := by simpa using hb
        subst hb'
        simpa [dupFilter] using hkeep
    | cons y R =>
      have hyh : y ≠ head := hw.head_ne y (by simp)
      simp only [List.headD_cons, ne_eq, hyh, not_false_eq_true, true_and]
      by_cases hc : strcmp (h.value x) (h.value y) = 0
      · simp only [hc, if_true, dupFilter]
        simpa using hdrop true
      · simp only [hc, if_false, dupFilter]
        by_cases hb : isdup = true
        · simp only [hb, if_true]
          simpa using hdrop false
        · have hb' : isdup = false := by simpa using hb
          subst hb'
          simp only [Bool.false_eq_true, if_false]
          simpa using hkeep

/-- In a list sorted by `strcmp`, a payload that differs from its successor occurs nowhere
later. -/
theorem sorted_not_mem_of_ne {v : Nat → List Nat} {x y : Nat} {R : List Nat}
    (hcs : ∀ z ∈ x :: y :: R, IsCStr (v z))
    (hs : ((x :: y :: R).map v).Pairwise (fun s t => strcmp s t ≤ 0)) (hne : v x ≠ v y) :
    ∀ z ∈ y :: R, v z ≠ v x := by
  intro z hz e
  simp only [List.map_cons, List.pairwise_cons, List.mem_cons, List.mem_map,
    forall_eq_or_imp, forall_exists_index, and_imp, forall_apply_eq_imp_iff₂] at hs
  obtain ⟨⟨hxy, -⟩, ⟨hyR, -⟩⟩ := hs
  have hyz : strcmp (v y) (v z) ≤ 0 := by
    rcases List.mem_cons.1 hz with rfl | hz
    · rw [strcmp_self]
    · exact hyR z hz
  rw [e] at hyz
  have h0 : strcmp (v x) (v y) = 0 := by
    have := strcmp_swap (v x) (v y)
    omega
  exact hne ((strcmp_eq_zero (hcs x (by simp)) (hcs y (by simp))).1 h0)

/-- On a list sorted by `strcmp` the loop of `q_delete_dup` keeps the elements whose payload
occurs once, the flag counting as one more occurrence of the first payload. -/
theorem dupFilter_sorted (v : Nat → List Nat) (R : List Nat) :
    ∀ (x : Nat) (b : Bool), (∀ z ∈ x :: R, IsCStr (v z)) →
      ((x :: R).map v).Pairwise (fun s t => strcmp s t ≤ 0) →
      dupFilter v b (x :: R) = (x :: R).filter (fun z =>
        decide (((x :: R).map v).count (v z) + (if b = true ∧ v z = v x then 1 else 0) = 1)) := by
  induction R with
  | nil =>
    intro x b _ _
    cases b <;> simp [dupFilter]
  | cons y R ih =>
    intro x b hcs hs
    have hcs' : ∀ z ∈ y :: R, IsCStr (v z) := fun z hz => hcs z (List.mem_cons_of_mem _ hz)
    have hs' : ((y :: R).map v).Pairwise (fun s t => strcmp s t ≤ 0) := by
      simp only [List.map_cons, List.pairwise_cons] at hs ⊢
      exact hs.2
    have hpos : ∀ z ∈ y :: R, 0 < ((y :: R).map v).count (v z) := fun z hz =>
      List.count_pos_iff.2 (List.mem_map_of_mem v hz)
    have hcount : ∀ z, ((x :: y :: R).map v).count (v z) =
        ((y :: R).map v).count (v z) + (if v x = v z then 1 else 0) := by
      intro z
      rw [List.map_cons, List.count_cons]
      simp
    unfold dupFilter
    by_cases hc : strcmp (v x) (v y) = 0
    · have hxy : v x = v y := (strcmp_eq_zero (hcs x (by simp)) (hcs y (by simp))).1 hc
      have hx : ¬ (((x :: y :: R).map v).count (v x) +
          (if b = true ∧ v x = v x then 1 else 0) = 1) := by
        have := hpos y (by simp)
        rw [hcount x, hxy]
        simp only [if_true]
        omega
      rw [if_pos hc, List.filter_cons_of_neg (by simpa using hx), ih y true hcs' hs']
      apply List.filter_congr
      intro z hz
      have := hpos z hz
      rw [hcount z, hxy]
      by_cases hzy : v z = v y
      · have hyz : v y = v z := hzy.symm
        rw [hzy] at this
        simp only [hzy, if_true, and_true, decide_eq_decide]
        constructor <;> intro <;> omega
      · have hyz : ¬ v y = v z := fun e => hzy e.symm
        simp [hzy, hyz]
    · have hxy : v x ≠ v y := fun e => hc (by rw [e, strcmp_self])
      have hnot := sorted_not_mem_of_ne hcs hs hxy
      have hxcount : ((x :: y :: R).map v).count (v x) = 1 := by
        rw [hcount x]
        have : ((y :: R).map v).count (v x) = 0 := by
          apply List.count_eq_zero_of_not_mem
          intro hm
          obtain ⟨z, hz, e⟩ := List.mem_map.1 hm
          exact hnot z hz e
        rw [this]; simp
      have hrest : (y :: R).filter (fun z => decide (((x :: y :: R).map v).count (v z) +
            (if b = true ∧ v z = v x then 1 else 0) = 1)) =
          (y :: R).filter (fun z => decide (((y :: R).map v).count (v z) +
            (if false = true ∧ v z = v y then 1 else 0) = 1)) := by
        apply List.filter_congr
        intro z hz
        have h1 := hnot z hz
        have h2 : ¬ v x = v z := fun e => h1 e.symm
        rw [hcount z]
        simp [h1, h2]
      rw [if_neg hc, List.filter_cons, hxcount, hrest, ← ih y false hcs' hs']
      cases b <;> simp

theorem WF.next_head_headD {h : Heap} {head : Nat} {L : List Nat} (hw : WF h head L) :
    h.next head = L.headD head := by
  cases L with
  | nil => exact hw.1.1
  | cons x L => exact hw.1.1.1

/-- The function `q_delete_dup` on a well-formed queue. -/
theorem q_delete_dup_wf {h : Heap} {head : Nat} {L : List Nat} (hw : WF h head L)
    (hhead : head ≠ 0) (fuel : Nat) (hf : L.length + 1 ≤ fuel) :
    ∃ h', q_delete_dup fuel h head = some (true, h') ∧
      WF h' head (dupFilter h.value false L) ∧ h'.value = h.value ∧
      ∀ x ∈ dupFilter h.value false L, h'.alloc x = h.alloc x := by
  obtain ⟨h', e1, e2, e3, e4⟩ := dupLoop_spec head L h [] false fuel (by simpa using hw) hf
  refine ⟨h', ?_, by simpa using e2, e3, by simpa using e4⟩
  simp only [q_delete_dup, hhead, if_false, hw.next_head_headD, e1]

/-- C5: on a queue sorted ascending by payload (`strcmp`), `q_delete_dup` returns true and
leaves exactly the elements whose payload occurs once among the payloads of the input, in
their order and with their payloads, none of them released; an empty queue stays as it is
with result true; for a null handle the result is false. -/
theorem q_delete_dup_sorted (h : Heap) (head : Nat) (L : List Nat) (fuel : Nat)
    (hw : WF h head L) (hhead : head ≠ 0) (hcs : ∀ x ∈ L, IsCStr (h.value x))
    (hs : (payloads h L).Pairwise (fun s t => strcmp s t ≤ 0)) (hf : L.length + 1 ≤ fuel) :
    (∃ h', q_delete_dup fuel h head = some (true, h') ∧
      WF h' head (L.filter (fun x => decide ((payloads h L).count (h.value x) = 1))) ∧
      h'.value = h.value ∧
      ∀ x ∈ L.filter (fun x => decide ((payloads h L).count (h.value x) = 1)),
        h'.alloc x = h.alloc x) ∧
    (L = [] → q_delete_dup fuel h head = some (true, h)) ∧
    q_delete_dup fuel h 0 = some (false, h) := by
  have hkey : dupFilter h.value false L =
      L.filter (fun x => decide ((payloads h L).count (h.value x) = 1)) := by
    cases L with
    | nil => simp [dupFilter]
    | cons x R =>
      rw [dupFilter_sorted h.value R x false hcs hs]
      simp [payloads]
  refine ⟨?_, ?_, by simp [q_delete_dup]⟩
  · rw [← hkey]
    exact q_delete_dup_wf hw hhead fuel hf
  · rintro rfl
    obtain ⟨f, rfl⟩ : ∃ f, fuel = f + 1 := ⟨fuel - 1, by simp at hf; omega⟩
    simp [q_delete_dup, hhead, dupLoop, hw.1.1]

/-! ## Sorting: finding the middle and splitting -/

/-- The slow/fast loop of `q_sort` started after `k` rounds stops with `slow` on the element
of index `(n - 1) / 2`. -/
theorem sortMid_spec {h : Heap} {head : Nat} {L : List Nat} (hw : WF h head L) (fuel k : Nat)
    (hk : 2 * k + 1 ≤ L.length) (hf : (L.length - 1) / 2 + 1 ≤ fuel + k) :
    sortMid fuel h head ((head :: (L ++ [head])).getD (k + 1) 0)
      ((head :: (L ++ [head])).getD (2 * k + 2) 0) =
      some ((head :: (L ++ [head])).getD ((L.length - 1) / 2 + 1) 0) := by
  induction fuel generalizing k with
  | zero => omega
  | succ f ih =>
    unfold sortMid
    have hfast := path_getD_eq_head hw.2 (2 * k + 1) hk
    by_cases hlt : 2 * k + 3 ≤ L.length
    · have h1 : (head :: (L ++ [head])).getD (2 * k + 2) 0 ≠ head := by
        rw [Ne, hfast]; omega
      have h2 := hw.1.next_getD (2 * k + 2) (by omega)
      have h3 : (head :: (L ++ [head])).getD (2 * k + 2 + 1) 0 ≠ head := by
        rw [Ne, path_getD_eq_head hw.2 (2 * k + 2) (by omega)]; omega
      have h4 := hw.1.next_getD (2 * k + 3) (by omega)
      have h5 := hw.1.next_getD (k + 1) (by omega)
      rw [if_pos ⟨h1, by rw [h2]; exact h3⟩, h2, h4, h5]
      exact ih (k + 1) (by omega) (by omega)
    · have hk2 : k = (L.length - 1) / 2 := by omega
      by_cases he : 2 * k + 1 = L.length
      · have h1 : (head :: (L ++ [head])).getD (2 * k + 2) 0 = head := hfast.2 he
        rw [if_neg (fun hc => hc.1 h1), hk2]
      · have h2 := hw.1.next_getD (2 * k + 2) (by omega)
        have h3 : (head :: (L ++ [head])).getD (2 * k + 2 + 1) 0 = head :=
          (path_getD_eq_head hw.2 (2 * k + 2) (by omega)).2 (by omega)
        rw [if_neg (fun hc => hc.2 (by rw [h2, h3])), hk2]

/-- The split of `q_sort`: the nodes up to `slow` stay under `head`, the nodes after it go
under the fresh sentinel `right`; nothing else is touched. -/
theorem sortSplit_spec {h : Heap} {head slow y right : Nat} {X Y : List Nat}
    (hw : WF h head (X ++ slow :: y :: Y)) (hr : right ∉ head :: (X ++ slow :: y :: Y)) :
    WF (sortSplit h head slow right) head (X ++ [slow]) ∧
      WF (sortSplit h head slow right) right (y :: Y) ∧
      (sortSplit h head slow right).value = h.value ∧
      ∀ x, x ∉ head :: (X ++ slow :: y :: Y) → x ≠ right →
        (sortSplit h head slow right).next x = h.next x ∧
        (sortSplit h head slow right).prev x = h.prev x := by
  have hnd := hw.2
  have hseg := hw.1
  rw [Seg_append] at hseg
  obtain ⟨hsX, ⟨hsy1, hsy2⟩, hsY⟩ := hseg
  have hprev := hw.prev_head
  -- all the nodes are different
  simp only [List.nodup_cons, List.nodup_append, List.mem_cons, List.mem_append, not_or] at hnd
  simp only [List.mem_cons, List.mem_append, not_or] at hr
  obtain ⟨⟨hhX, hhs, hhy, hhY⟩, hXnd, ⟨⟨hsy, hsY'⟩, hyY, hYnd⟩, hdisj⟩ := hnd
  obtain ⟨hrh, hrX, hrs, hry, hrY⟩ := hr
  have hsX' : slow ∉ X := fun hm => hdisj hm (by simp)
  have hyX : y ∉ X := fun hm => hdisj hm (by simp)
  have hYX : ∀ z ∈ Y, z ∉ X := fun z hz hm => hdisj hm (by simp [hz])
  -- the last node `t` of the second half
  obtain ⟨t, ht, htY, hpt⟩ : ∃ t, h.prev head = t ∧ t ∈ y :: Y ∧
      (Y = [] → t = y) := by
    refine ⟨h.prev head, rfl, ?_, ?_⟩
    · rw [hprev]
      have : (head :: (X ++ slow :: y :: Y)).getLast (by simp) = (y :: Y).getLast (by simp) := by
        simp [List.getLast_cons, List.getLast_append]
      rw [this]
      exact List.getLast_mem _
    · rintro rfl
      rw [hprev]
      simp [List.getLast_cons, List.getLast_append]
  have hth : t ≠ head := by
    rintro rfl
    rcases List.mem_cons.1 htY with e | hm
    · exact hhy e
    · exact hhY hm
  have htr : t ≠ right := by
    rintro rfl
    rcases List.mem_cons.1 htY with e | hm
    · exact hry e
    · exact hrY hm
  have hts : t ≠ slow := by
    rintro rfl
    rcases List.mem_cons.1 htY with e | hm
    · exact hsy e
    · exact hsY' hm
  have htX : t ∉ X := by
    intro hm
    rcases List.mem_cons.1 htY with e | hm'
    · exact hyX (e ▸ hm)
    · exact hYX t hm' hm
  -- the two fields after the split
  have hnext : (sortSplit h head slow right).next =
      upd (upd (upd h.next right y) t right) slow head := by
    funext x
    simp [sortSplit, INIT_LIST_HEAD, upd, Ne.symm hrs, hsy1, Ne.symm hrh, hhy, ht, hrs, hth,
      Ne.symm hth]
    by_cases e1 : x = slow
    · simp [e1]
    · by_cases e2 : x = t
      · simp [e2]
      · by_cases e3 : x = right <;> simp [e1, e2, e3]
  have hprev' : (sortSplit h head slow right).prev =
      upd (upd (upd h.prev y right) right t) head slow := by
    funext x
    simp [sortSplit, INIT_LIST_HEAD, upd, Ne.symm hrs, hsy1, Ne.symm hrh, hhy, ht, hrs, hth,
      Ne.symm hth, hrh, Ne.symm hhy]
    by_cases e1 : x = head
    · simp [e1]
    · by_cases e2 : x = right
      · simp [e2]
      · by_cases e3 : x = y <;> simp [e1, e2, e3]
  refine ⟨⟨?_, ?_⟩, ⟨?_, ?_⟩, rfl, ?_⟩
  · rw [Seg_append]
    refine ⟨hsX.transfer ?_ ?_, ?_⟩
    · intro x hx
      rw [hnext]
      have e1 : x ≠ slow := by
        rintro rfl
        rcases List.mem_cons.1 hx with e | hm
        · exact hhs e.symm
        · exact hsX' hm
      have e2 : x ≠ t := by
        rintro rfl
        rcases List.mem_cons.1 hx with e | hm
        · exact hth e
        · exact htX hm
      have e3 : x ≠ right := by
        rintro rfl
        rcases List.mem_cons.1 hx with e | hm
        · exact hrh e
        · exact hrX hm
      simp [upd, e1, e2, e3]
    · intro x hx
      rw [hprev']
      have e1 : x ≠ head := by
        rintro rfl
        rcases List.mem_append.1 hx with hm | hm
        · exact hhX hm
        · exact hhs (by simpa using hm)
      have e2 : x ≠ right := by
        rintro rfl
        rcases List.mem_append.1 hx with hm | hm
        · exact hrX hm
        · exact hrs (by simpa using hm)
      have e3 : x ≠ y := by
        intro e
        rw [e] at hx
        rcases List.mem_append.1 hx with hm | hm
        · exact hyX hm
        · exact hsy (List.mem_singleton.1 hm).symm
      simp [upd, e1, e2, e3]
    · simp [Seg, Linked, hnext, hprev', upd]
  · simp only [List.nodup_cons, List.nodup_append, List.mem_append, List.mem_singleton, not_or]
    exact ⟨⟨hhX, hhs⟩, hXnd, ⟨List.not_mem_nil _, List.nodup_nil⟩,
      fun a ha hb => hsX' (by simpa using (List.mem_singleton.1 hb ▸ ha))⟩
  · refine ⟨⟨by simp [hnext, upd, hrs, htr, Ne.symm htr],
      by simp [hprev', upd, Ne.symm hhy, hry, Ne.symm hry]⟩, ?_⟩
    rcases eq_nil_or_snoc Y with rfl | ⟨Y', t', rfl⟩
    · have hty : t = y := hpt rfl
      subst hty
      simp [Seg, Linked, hnext, hprev', upd, hts, hrh, Ne.symm hrh]
    · have hsY2 := hsY
      rw [Seg_append] at hsY2
      obtain ⟨hs1, hs2, hs3⟩ := hsY2
      have htt : t' = t := by rw [← ht]; exact hs3.symm
      subst htt
      rw [Seg_append]
      simp only [List.mem_append, List.mem_singleton, not_or] at hyY hhY hrY hsY'
      have hnd3 := List.nodup_append.1 hYnd
      have htY' : t' ∉ Y' := fun hm => hnd3.2.2 hm (by simp)
      refine ⟨hs1.transfer ?_ ?_, ?_⟩
      · intro x hx
        rw [hnext]
        have e1 : x ≠ slow := by
          rintro rfl
          rcases List.mem_cons.1 hx with e | hm
          · exact hsy e
          · exact hsY'.1 hm
        have e2 : x ≠ t' := by
          rintro rfl
          rcases List.mem_cons.1 hx with e | hm
          · exact hyY.2 e.symm
          · exact htY' hm
        have e3 : x ≠ right := by
          rintro rfl
          rcases List.mem_cons.1 hx with e | hm
          · exact hry e
          · exact hrY.1 hm
        simp [upd, e1, e2, e3]
      · intro x hx
        rw [hprev']
        have e1 : x ≠ head := by
          intro e
          rw [e] at hx
          rcases List.mem_append.1 hx with hm | hm
          · exact hhY.1 hm
          · exact hth (List.mem_singleton.1 hm).symm
        have e2 : x ≠ right := by
          intro e
          rw [e] at hx
          rcases List.mem_append.1 hx with hm | hm
          · exact hrY.1 hm
          · exact htr (List.mem_singleton.1 hm).symm
        have e3 : x ≠ y := by
          rintro rfl
          rcases List.mem_append.1 hx with hm | hm
          · exact hyY.1 hm
          · exact hyY.2 (by simpa using hm)
        simp [upd, e1, e2, e3]
      · simp [Seg, Linked, hnext, hprev', upd, hts, hrh, Ne.symm hrh]
  · simp only [List.nodup_cons, List.mem_cons, not_or]
    exact ⟨⟨hry, hrY⟩, hyY, hYnd⟩
  · intro x hx hxr
    simp only [List.mem_cons, List.mem_append, not_or] at hx
    obtain ⟨hxh, hxX, hxs, hxy, hxY⟩ := hx
    have hxt : x ≠ t := by
      rintro rfl
      rcases List.mem_cons.1 htY with e | hm
      · exact hxy e
      · exact hxY hm
    rw [hnext, hprev']
    simp [upd, hxh, hxs, hxy, hxt, hxr]

/-! ## Sorting: merging -/

theorem cmpLE_congr {h h' : Heap} (hv : h'.value = h.value) : cmpLE h' = cmpLE h := by
  funext a b
  simp [cmpLE, hv]

/-- Elements of the left list that compare less or equal to the first element of the right
list come first in the merge. -/
theorem merge_passed (le : Nat → Nat → Bool) (Q A : List Nat) (r : Nat) (R : List Nat)
    (hQ : ∀ q ∈ Q, le q r = true) :
    List.merge (Q ++ A) (r :: R) le = Q ++ List.merge A (r :: R) le := by
  induction Q with
  | nil => rfl
  | cons q Q ih =>
    rw [List.cons_append, List.cons_merge_cons_pos _ _ _ (hQ q (by simp)),
      ih (fun x hx => hQ x (List.mem_cons_of_mem _ hx)), List.cons_append]

/-- The inner loop of `merge_two_list`: the cursor passes the nodes `Q` that compare less or
equal to `r` and stops on `c'`, which compares greater or is the last node. -/
theorem mergeAdvance_spec {h : Heap} {lh : Nat} (r : Nat) (S : List Nat) :
    ∀ (c : Nat) (fuel : Nat), Seg h c S lh → lh ∉ S → S.length + 1 ≤ fuel →
      ∃ Q c' S', mergeAdvance fuel h lh c r (strcmp (h.value c) (h.value r)) =
          some (c', strcmp (h.value c') (h.value r)) ∧
        c :: S = Q ++ c' :: S' ∧ (∀ q ∈ Q, strcmp (h.value q) (h.value r) ≤ 0) ∧
        (strcmp (h.value c') (h.value r) ≤ 0 → S' = []) := by
  induction S with
  | nil =>
    intro c fuel hs _ hf
    obtain ⟨f, rfl⟩ : ∃ f, fuel = f + 1 := ⟨fuel - 1, by simp at hf; omega⟩
    refine ⟨[], c, [], ?_, rfl, by simp, fun _ => rfl⟩
    unfold mergeAdvance
    rw [if_neg (fun hc => hc.1 hs.1)]
  | cons s S ih =>
    intro c fuel hs hlh hf
    obtain ⟨f, rfl⟩ : ∃ f, fuel = f + 1 := ⟨fuel - 1, by simp at hf; omega⟩
    have hsl : s ≠ lh := fun e => hlh (by simp [e])
    unfold mergeAdvance
    by_cases hc : strcmp (h.value c) (h.value r) ≤ 0
    · rw [if_pos ⟨by rw [hs.1.1]; exact hsl, hc⟩, hs.1.1]
      obtain ⟨Q, c', S', e1, e2, e3, e4⟩ := ih s f hs.2
        (fun hm => hlh (List.mem_cons_of_mem _ hm)) (by simpa using hf)
      refine ⟨c :: Q, c', S', e1, by rw [e2]; rfl, ?_, e4⟩
      intro q hq
      rcases List.mem_cons.1 hq with rfl | hq
      · exact hc
      · exact e3 q hq
    · rw [if_neg (fun hcc => hc hcc.2)]
      exact ⟨[], c, s :: S, rfl, rfl, by simp, fun hcc => absurd hcc hc⟩

theorem WF.next_first {h : Heap} {head x : Nat} {L : List Nat} (hw : WF h head (x :: L)) :
    h.next x = L.headD head := by
  cases L with
  | nil => exact hw.1.2.1
  | cons y L => exact hw.1.2.1.1

/-- The outer loop of `merge_two_list`: with the cursor on `c` in the left list
`P ++ c :: S` and the sorted nodes `R` still in the right list, it ends with the left list
`P ++ merge (c :: S) R`; nodes of neither list are untouched. -/
theorem mergeLoop_spec (lh rh : Nat) (R : List Nat) :
    ∀ (h : Heap) (c : Nat) (P S : List Nat) (fuel bound : Nat),
      WF h lh (P ++ c :: S) → WF h rh R → (∀ x ∈ rh :: R, x ∉ lh :: (P ++ c :: S)) →
      R.Pairwise (fun a b => cmpLE h a b = true) → R.length + 1 ≤ fuel →
      (P ++ c :: S).length + R.length ≤ bound →
      ∃ h', mergeLoop bound fuel h lh rh c (R.headD rh) (h.next (R.headD rh)) = some h' ∧
        WF h' lh (P ++ List.merge (c :: S) R (cmpLE h)) ∧ h'.value = h.value ∧
        ∀ x, x ∉ lh :: (P ++ c :: S) → x ∉ rh :: R →
          h'.next x = h.next x ∧ h'.prev x = h.prev x := by
  induction R with
  | nil =>
    intro h c P S fuel bound hwl _ _ _ hf _
    obtain ⟨f, rfl⟩ : ∃ f, fuel = f + 1 := ⟨fuel - 1, by simp at hf; omega⟩
    exact ⟨h, by simp [mergeLoop], by simpa using hwl, rfl, fun _ _ _ => ⟨rfl, rfl⟩⟩
  | cons r R ih =>
    intro h c P S fuel bound hwl hwr hdis hsorted hf hb
    obtain ⟨f, rfl⟩ : ∃ f, fuel = f + 1 := ⟨fuel - 1, by simp at hf; omega⟩
    have hf' : R.length + 1 ≤ f := by simpa using hf
    have hrrh : r ≠ rh := hwr.head_ne r (by simp)
    have hrR : r ∉ R := (List.nodup_cons.1 hwr.2.of_cons).1
    have hsafe : h.next r = R.headD rh := hwr.next_first
    -- the inner loop
    have hsegc := hwl.1
    rw [Seg_append] at hsegc
    have hlhS : lh ∉ S := fun hm =>
      (List.nodup_cons.1 hwl.2).1 (List.mem_append_right _ (List.mem_cons_of_mem _ hm))
    obtain ⟨Q, c', S', hadv, hsplit, hQ, hlast⟩ :=
      mergeAdvance_spec r S c bound hsegc.2 hlhS (by simp at hb; omega)
    have hleft : P ++ c :: S = (P ++ Q) ++ c' :: S' := by rw [hsplit]; simp
    rw [hleft] at hwl hdis hb
    have hrl : r ∉ lh :: ((P ++ Q) ++ c' :: S') := hdis r (by simp)
    -- unlinking `r` from the right list
    have hw1r : WF (list_del h r) rh R := hwr.list_del_first
    have hw1l : WF (list_del h r) lh ((P ++ Q) ++ c' :: S') :=
      hwl.frame
        (fun x hx => (hwr.list_del_outside (List.mem_cons_self _ _)
          (fun hm => hdis x hm hx)).1)
        (fun x hx => (hwr.list_del_outside (List.mem_cons_self _ _)
          (fun hm => hdis x hm hx)).2)
    have hc'mem : c' ∈ lh :: ((P ++ Q) ++ c' :: S') := by simp
    have hdis' : ∀ x ∈ rh :: R, x ∉ lh :: ((P ++ Q) ++ c' :: S') ∧ x ≠ r := by
      intro x hx
      refine ⟨hdis x ?_, ?_⟩
      · rcases List.mem_cons.1 hx with e | hm
        · simp [e]
        · simp [hm]
      · rintro rfl
        rcases List.mem_cons.1 hx with e | hm
        · exact hrrh e
        · exact hrR hm
    have hsorted' : R.Pairwise (fun a b => cmpLE h a b = true) := (List.pairwise_cons.1 hsorted).2
    have hmergeQ : P ++ List.merge (c :: S) (r :: R) (cmpLE h) =
        (P ++ Q) ++ List.merge (c' :: S') (r :: R) (cmpLE h) := by
      rw [hsplit, merge_passed (cmpLE h) Q (c' :: S') r R
        (fun q hq => by simpa [cmpLE] using hQ q hq)]
      simp
    simp only [List.headD_cons]
    unfold mergeLoop
    rw [if_neg hrrh]
    simp only [hadv, hsafe]
    by_cases hcmp : strcmp (h.value c') (h.value r) > 0
    · -- `r` goes directly before `c'`
      rw [if_pos hcmp]
      have hw2l : WF (list_add_tail (list_del h r) r c') lh ((P ++ Q ++ [r]) ++ c' :: S') := by
        have := hw1l.list_add_tail_before hrl
        simpa using this
      have hw2r : WF (list_add_tail (list_del h r) r c') rh R :=
        hw1r.frame
          (fun x hx => (hw1l.list_add_tail_outside hc'mem (hdis' x hx).1 (hdis' x hx).2).1)
          (fun x hx => (hw1l.list_add_tail_outside hc'mem (hdis' x hx).1 (hdis' x hx).2).2)
      have hcm : cmpLE (list_add_tail (list_del h r) r c') = cmpLE h := cmpLE_congr rfl
      obtain ⟨h', e1, e2, e3, e4⟩ := ih (list_add_tail (list_del h r) r c') c' (P ++ Q ++ [r])
        S' f bound hw2l hw2r
        (by
          intro x hx
          have := hdis' x hx
          simp only [List.mem_cons, List.mem_append, List.mem_singleton, not_or] at this ⊢
          tauto)
        (by rw [hcm]; exact hsorted')
        hf' (by simp at hb ⊢; omega)
      refine ⟨h', e1, ?_, e3, ?_⟩
      · rw [hmergeQ, List.cons_merge_cons_neg _ _ _ (by simpa [cmpLE] using hcmp)]
        rw [hcm] at e2
        simpa using e2
      · intro x hx1 hx2
        have hxr : x ≠ r := fun e => hx2 (by simp [e])
        have hx1' : x ∉ lh :: ((P ++ Q) ++ c' :: S') := by rw [← hleft]; exact hx1
        have hx2' : x ∉ rh :: R := by
          simp only [List.mem_cons, not_or] at hx2 ⊢
          tauto
        have h3 := e4 x (by
          simp only [List.mem_cons, List.mem_append, List.mem_singleton, not_or] at hx1' ⊢
          tauto) hx2'
        have h2 := hw1l.list_add_tail_outside hc'mem hx1' hxr
        have h1 := hwr.list_del_outside (List.mem_cons_self r R) hx2
        exact ⟨by rw [h3.1, h2.1, h1.1], by rw [h3.2, h2.2, h1.2]⟩
    · -- `c'` is the last node and `r` goes directly after it
      rw [if_neg hcmp]
      have hle : strcmp (h.value c') (h.value r) ≤ 0 := by omega
      have hS' : S' = [] := hlast hle
      subst hS'
      have hw2l : WF (list_add (list_del h r) r c') lh ((P ++ Q) ++ c' :: [r]) :=
        hw1l.list_add_after hrl
      have hw2r : WF (list_add (list_del h r) r c') rh R :=
        hw1r.frame
          (fun x hx => (hw1l.list_add_outside hc'mem (hdis' x hx).1 (hdis' x hx).2).1)
          (fun x hx => (hw1l.list_add_outside hc'mem (hdis' x hx).1 (hdis' x hx).2).2)
      have hcm : cmpLE (list_add (list_del h r) r c') = cmpLE h := cmpLE_congr rfl
      obtain ⟨h', e1, e2, e3, e4⟩ := ih (list_add (list_del h r) r c') c' (P ++ Q) [r] f bound
        hw2l hw2r
        (by
          intro x hx
          have := hdis' x hx
          simp only [List.mem_cons, List.mem_append, List.mem_singleton, not_or,
            List.not_mem_nil, or_false] at this ⊢
          tauto)
        (by rw [hcm]; exact hsorted')
        hf' (by simp at hb ⊢; omega)
      refine ⟨h', e1, ?_, e3, ?_⟩
      · rw [hmergeQ, List.cons_merge_cons_pos _ _ _ (by simpa [cmpLE] using hle),
          List.nil_merge]
        rw [hcm] at e2
        have hall : ∀ a b, a ∈ [c', r] → b ∈ R → cmpLE h a b = true := by
          intro a b ha hb'
          have hrb : cmpLE h r b = true := (List.pairwise_cons.1 hsorted).1 b hb'
          simp only [List.mem_cons, List.mem_singleton, List.not_mem_nil, or_false] at ha
          rcases ha with rfl | rfl
          · exact cmpLE_trans h _ r _ (by simpa [cmpLE] using hle) hrb
          · exact hrb
        rw [List.merge_of_le hall] at e2
        simpa using e2
      · intro x hx1 hx2
        have hxr : x ≠ r := fun e => hx2 (by simp [e])
        have hx1' : x ∉ lh :: ((P ++ Q) ++ [c']) := by rw [← hleft]; exact hx1
        have hx2' : x ∉ rh :: R := by
          simp only [List.mem_cons, not_or] at hx2 ⊢
          tauto
        have h3 := e4 x (by
          simp only [List.mem_cons, List.mem_append, List.mem_singleton, not_or,
            List.not_mem_nil, or_false] at hx1' ⊢
          tauto) hx2'
        have h2 := hw1l.list_add_outside hc'mem hx1' hxr
        have h1 := hwr.list_del_outside (List.mem_cons_self r R) hx2
        exact ⟨by rw [h3.1, h2.1, h1.1], by rw [h3.2, h2.2, h1.2]⟩

/-- The function `merge_two_list` on a non-empty left list and a sorted right list. -/
theorem merge_two_list_spec {h : Heap} {lh rh a : Nat} {A B : List Nat} (fuel : Nat)
    (hwl : WF h lh (a :: A)) (hwr : WF h rh B) (hdis : ∀ x ∈ rh :: B, x ∉ lh :: a :: A)
    (hsorted : B.Pairwise (fun x y => cmpLE h x y = true))
    (hf : (a :: A).length + B.length + 1 ≤ fuel) :
    ∃ h', merge_two_list fuel h lh rh = some h' ∧
      WF h' lh (List.merge (a :: A) B (cmpLE h)) ∧ h'.value = h.value ∧
      ∀ x, x ∉ lh :: a :: A → x ∉ rh :: B → h'.next x = h.next x ∧ h'.prev x = h.prev x := by
  have hal : a ≠ lh := hwl.head_ne a (by simp)
  obtain ⟨h', e1, e2, e3, e4⟩ := mergeLoop_spec lh rh B h a [] A fuel fuel (by simpa using hwl) hwr
    (by simpa using hdis) hsorted (by omega) (by simp at hf ⊢; omega)
  refine ⟨h', ?_, by simpa using e2, e3, by simpa using e4⟩
  unfold merge_two_list
  simp only [hwl.next_head, hal, false_and, if_false, hwr.next_head_headD]
  exact e1

/-- One unfolding of the merge sort of the standard library. -/
theorem mergeSort_unfold (le : Nat → Nat → Bool) (L : List Nat) (hL : 2 ≤ L.length) :
    L.mergeSort le = List.merge ((L.take ((L.length + 1) / 2)).mergeSort le)
      ((L.drop ((L.length + 1) / 2)).mergeSort le) le := by
  match L, hL with
  | a :: b :: xs, _ =>
    rw [List.mergeSort]
    simp only [List.splitInTwo_fst, List.splitInTwo_snd, List.length_cons]

/-- A list of at least two elements around its middle. -/
theorem split_middle (L : List Nat) (hL : 2 ≤ L.length) :
    ∃ X slow y Y, L = X ++ slow :: y :: Y ∧ X.length = (L.length - 1) / 2 := by
  have h1 : (L.length - 1) / 2 < L.length := by omega
  have h2 : (L.length - 1) / 2 + 1 < L.length := by omega
  refine ⟨L.take ((L.length - 1) / 2), L[(L.length - 1) / 2], L[(L.length - 1) / 2 + 1],
    L.drop ((L.length - 1) / 2 + 1 + 1), ?_, ?_⟩
  · rw [List.getElem_cons_drop, List.getElem_cons_drop, List.take_append_drop]
  · rw [List.length_take]; omega

/-- The queue of a non-empty, non-singular well-formed list passes the two tests at the
start of `q_sort`. -/
theorem WF.not_singular {h : Heap} {head a b : Nat} {L : List Nat}
    (hw : WF h head (a :: b :: L)) : list_is_singular h head = false := by
  have hp := hw.prev_head
  have hn := hw.next_head
  have hlast : (head :: a :: b :: L).getLast (by simp) ∈ b :: L := by
    have : (head :: a :: b :: L).getLast (by simp) = (b :: L).getLast (by simp) := by
      simp [List.getLast_cons]
    rw [this]
    exact List.getLast_mem _
  have hab : a ∉ b :: L := (List.nodup_cons.1 hw.2.of_cons).1
  have hne : h.prev head ≠ h.next head := by
    rw [hp, hn]
    intro e
    exact hab (e ▸ hlast)
  simp [list_is_singular, hne]

/-- The function `q_sort` on a well-formed queue whose nodes lie below the stack address
`sp`: with enough fuel it ends, and the queue then holds the merge sort (as defined in the
standard library) of its elements by `strcmp`; payloads are untouched, and so are the links
of every node below `sp` that is not in the queue. -/
theorem q_sort_spec : ∀ (fuel : Nat) (h : Heap) (head sp : Nat) (L : List Nat),
    WF h head L → head ≠ 0 → (∀ x ∈ head :: L, x < sp) → L.length + 2 ≤ fuel →
    ∃ h', q_sort fuel h head sp = some h' ∧ WF h' head (L.mergeSort (cmpLE h)) ∧
      h'.value = h.value ∧
      ∀ x, x ∉ head :: L → x < sp → h'.next x = h.next x ∧ h'.prev x = h.prev x := by
  intro fuel
  induction fuel with
  | zero =>
    intro h head sp L _ _ _ hf
    omega
  | succ f ih =>
    intro h head sp L hw hhead hsp hf
    by_cases hlen : L.length < 2
    · have hq : q_sort (f + 1) h head sp = some h ∧ L.mergeSort (cmpLE h) = L := by
        unfold q_sort
        match L, hlen, hw with
        | [], _, hw => simp [hw.list_empty_nil]
        | [a], _, hw =>
          have h1 : list_is_singular h head = true := by
            have hp : h.prev head = a := hw.1.2.2
            simp [list_is_singular, hw.list_empty_cons, hp, hw.next_head]
          simp [h1]
      exact ⟨h, hq.1, by rw [hq.2]; exact hw, rfl, fun _ _ _ => ⟨rfl, rfl⟩⟩
    · have hlen2 : 2 ≤ L.length := by omega
      have hunfold := mergeSort_unfold (cmpLE h) L hlen2
      obtain ⟨X, slow, y, Y, hL, hXlen⟩ := split_middle L hlen2
      have hmid0 := sortMid_spec hw f 0 (by omega) (by omega)
      subst hL
      have hn : (X ++ slow :: y :: Y).length = X.length + Y.length + 2 := by
        simp; omega
      rw [hn] at hXlen hf hunfold hmid0
      have hk : (X.length + Y.length + 2 + 1) / 2 = X.length + 1 := by omega
      have hXY : X ++ slow :: y :: Y = (X ++ [slow]) ++ (y :: Y) := by simp
      rw [hk, hXY, List.take_left' (by simp), List.drop_left' (by simp)] at hunfold
      rw [← hXY] at hunfold
      -- the tests at the start
      have hne : list_empty h head = false := by
        cases X with
        | nil => exact hw.list_empty_cons
        | cons x X => exact WF.list_empty_cons (by simpa using hw)
      have hns : list_is_singular h head = false := by
        match X, hw with
        | [], hw =>
          have hw' : WF h head (slow :: y :: Y) := by simpa using hw
          exact hw'.not_singular
        | [x], hw =>
          have hw' : WF h head (x :: slow :: (y :: Y)) := by simpa using hw
          exact hw'.not_singular
        | x :: x' :: X, hw =>
          have hw' : WF h head (x :: x' :: (X ++ slow :: y :: Y)) := by simpa using hw
          exact hw'.not_singular
      -- the middle
      have hmid : sortMid f h head (h.next head) (h.next (h.next head)) = some slow := by
        have e1 := hw.1.next_getD 0 (by omega)
        have e2 := hw.1.next_getD 1 (by rw [hn]; omega)
        have e0 : (head :: (X ++ slow :: y :: Y ++ [head])).getD 0 0 = head := rfl
        rw [e0] at e1
        rw [← e1] at e2
        have e3 : (head :: (X ++ slow :: y :: Y ++ [head])).getD ((X.length + Y.length + 2 - 1) / 2 + 1) 0
            = slow := by
          rw [← hXlen, List.getD_cons_succ, List.append_assoc,
            List.getD_eq_getElem _ _ (by simp), List.getElem_append_right (le_refl _)]
          simp
        rw [e3] at hmid0
        rw [e2, e1]
        exact hmid0
      -- the split
      have hspL : sp ∉ head :: (X ++ slow :: y :: Y) := fun hm => Nat.lt_irrefl _ (hsp sp hm)
      obtain ⟨hw1l, hw1r, hv1, hfr1⟩ := sortSplit_spec hw hspL
      have hsp0 : sp ≠ 0 := by
        have := hsp head (by simp)
        omega
      have hltL : ∀ x ∈ X ++ slow :: y :: Y, x < sp := fun x hx =>
        hsp x (List.mem_cons_of_mem _ hx)
      have hnd := hw.2
      -- sorting the second half
      obtain ⟨h2, e2, hw2r, hv2, hfr2⟩ := ih (sortSplit h head slow sp) sp (sp + 1) (y :: Y) hw1r
        hsp0
        (by
          intro x hx
          rcases List.mem_cons.1 hx with rfl | hx
          · omega
          · have := hltL x (by simp at hx ⊢; tauto)
            omega)
        (by simp; omega)
      have hdisj1 : ∀ x ∈ head :: (X ++ [slow]), x ∉ sp :: y :: Y := by
        intro x hx hm
        rcases List.mem_cons.1 hm with rfl | hm
        · exact hspL (by simp at hx ⊢; tauto)
        · simp only [List.nodup_cons, List.nodup_append, List.mem_cons, List.mem_append,
            not_or] at hnd
          obtain ⟨⟨hhX, hhs, hhy, hhY⟩, hXnd, ⟨⟨hsy, hsY'⟩, hyY, hYnd⟩, hdisj⟩ := hnd
          simp only [List.mem_cons, List.mem_append, List.mem_singleton, List.not_mem_nil,
            or_false] at hx
          rcases hx with rfl | hx | rfl
          · rcases List.mem_cons.1 hm with e | hm
            · exact hhy e
            · exact hhY hm
          · exact hdisj hx (List.mem_cons_of_mem _ hm)
          · rcases List.mem_cons.1 hm with e | hm
            · exact hsy e
            · exact hsY' hm
      have hw2l : WF h2 head (X ++ [slow]) :=
        hw1l.frame
          (fun x hx => (hfr2 x (hdisj1 x hx) (by
            have := hsp x (by simp at hx ⊢; tauto)
            omega)).1)
          (fun x hx => (hfr2 x (hdisj1 x hx) (by
            have := hsp x (by simp at hx ⊢; tauto)
            omega)).2)
      -- sorting the first half
      obtain ⟨h3, e3, hw3l, hv3, hfr3⟩ := ih h2 head (sp + 1) (X ++ [slow]) hw2l hhead
        (by
          intro x hx
          have := hsp x (by simp at hx ⊢; tauto)
          omega)
        (by simp; omega)
      have hc1 : cmpLE (sortSplit h head slow sp) = cmpLE h := cmpLE_congr hv1
      have hc2 : cmpLE h2 = cmpLE h := cmpLE_congr (hv2.trans hv1)
      have hc3 : cmpLE h3 = cmpLE h := cmpLE_congr (hv3.trans (hv2.trans hv1))
      rw [hc1] at hw2r
      rw [hc2] at hw3l
      have hw3r : WF h3 sp ((y :: Y).mergeSort (cmpLE h)) :=
        hw2r.frame
          (fun x hx => (hfr3 x (fun hm => hdisj1 x hm (by simpa using hx)) (by
            rcases List.mem_cons.1 hx with rfl | hx
            · omega
            · have := hltL x (by simp at hx ⊢; tauto)
              omega)).1)
          (fun x hx => (hfr3 x (fun hm => hdisj1 x hm (by simpa using hx)) (by
            rcases List.mem_cons.1 hx with rfl | hx
            · omega
            · have := hltL x (by simp at hx ⊢; tauto)
              omega)).2)
      -- merging
      obtain ⟨a, A, hA⟩ : ∃ a A, (X ++ [slow]).mergeSort (cmpLE h) = a :: A := by
        cases hm : (X ++ [slow]).mergeSort (cmpLE h) with
        | nil =>
          have := congrArg List.length hm
          simp at this
        | cons a A => exact ⟨a, A, rfl⟩
      rw [hA] at hw3l
      have hmemA : ∀ x, x ∈ a :: A ↔ x ∈ X ++ [slow] := by
        intro x; rw [← hA]; exact List.mem_mergeSort
      have hlenA : (a :: A).length = X.length + 1 := by
        rw [← hA]; simp
      obtain ⟨h4, e4, hw4, hv4, hfr4⟩ := merge_two_list_spec f hw3l hw3r
        (by
          intro x hx hm
          have hx' : x ∈ sp :: y :: Y := by
            rcases List.mem_cons.1 hx with e | hx
            · simp [e]
            · exact List.mem_cons_of_mem _ (List.mem_mergeSort.1 hx)
          have hm' : x ∈ head :: (X ++ [slow]) := by
            rcases List.mem_cons.1 hm with e | hm
            · simp [e]
            · exact List.mem_cons_of_mem _ ((hmemA x).1 hm)
          exact hdisj1 x hm' hx')
        (by
          rw [hc3]
          exact List.sorted_mergeSort (cmpLE_trans h) (cmpLE_total h) (y :: Y))
        (by rw [hlenA]; simp; omega)
      rw [hc3, ← hA, ← hunfold] at hw4
      refine ⟨h4, ?_, hw4, by rw [hv4, hv3, hv2, hv1], ?_⟩
      · unfold q_sort
        simp only [hhead, hne, hns, false_or, Bool.false_eq_true, if_false, hmid, e2, e3]
        exact e4
      · intro x hx hxsp
        have hx1 : x ≠ sp := by omega
        have hx' : x ∉ head :: (X ++ [slow]) := by
          simp only [List.mem_cons, List.mem_append, List.mem_singleton, not_or,
            List.not_mem_nil, or_false] at hx ⊢
          tauto
        have hx'' : x ∉ sp :: y :: Y := by
          simp only [List.mem_cons, List.mem_append, not_or] at hx ⊢
          tauto
        have f1 := hfr1 x hx hx1
        have f2 := hfr2 x hx'' (by omega)
        have f3 := hfr3 x hx' (by omega)
        have f4 := hfr4 x
          (by
            intro hm
            apply hx'
            rcases List.mem_cons.1 hm with e | hm
            · simp [e]
            · exact List.mem_cons_of_mem _ ((hmemA x).1 hm))
          (by
            intro hm
            apply hx''
            rcases List.mem_cons.1 hm with e | hm
            · simp [e]
            · exact List.mem_cons_of_mem _ (List.mem_mergeSort.1 hm))
        exact ⟨by rw [f4.1, f3.1, f2.1, f1.1], by rw [f4.2, f3.2, f2.2, f1.2]⟩

/-- C1: on a well-formed queue (nodes below the stack address `sp`, fuel at least the length
plus two) `q_sort` ends, and afterwards the queue is well formed, its payloads read from
the sentinel forward are ascending under `strcmp`, its nodes are a permutation of the nodes
it had before, and no payload has changed. -/
theorem q_sort_sorted_perm (h : Heap) (head sp : Nat) (L : List Nat) (fuel : Nat)
    (hw : WF h head L) (hhead : head ≠ 0) (hsp : ∀ x ∈ head :: L, x < sp)
    (hf : L.length + 2 ≤ fuel) :
    ∃ h' L', q_sort fuel h head sp = some h' ∧ WF h' head L' ∧
      toList fuel h' head = some L' ∧
      (payloads h' L').Pairwise (fun s t => strcmp s t ≤ 0) ∧ L'.Perm L ∧
      h'.value = h.value := by
  obtain ⟨h', e1, e2, e3, -⟩ := q_sort_spec fuel h head sp L hw hhead hsp hf
  refine ⟨h', L.mergeSort (cmpLE h), e1, e2, e2.toList (by simp; omega), ?_,
    List.mergeSort_perm L _, e3⟩
  have hs := List.sorted_mergeSort (cmpLE_trans h) (cmpLE_total h) L
  rw [payloads, List.pairwise_map, e3]
  exact hs.imp (fun hab => by simpa [cmpLE] using hab)

/-- C2: `q_sort` is stable: of two elements with equal payloads, the one that comes first in
the queue before `q_sort` comes first in the queue after it. -/
theorem q_sort_stable (h : Heap) (head sp : Nat) (L : List Nat) (fuel : Nat)
    (hw : WF h head L) (hhead : head ≠ 0) (hsp : ∀ x ∈ head :: L, x < sp)
    (hf : L.length + 2 ≤ fuel) :
    ∃ h' L', q_sort fuel h head sp = some h' ∧ WF h' head L' ∧
      toList fuel h' head = some L' ∧
      ∀ a b, h.value a = h.value b → [a, b].Sublist L → [a, b].Sublist L' := by
  obtain ⟨h', e1, e2, -, -⟩ := q_sort_spec fuel h head sp L hw hhead hsp hf
  refine ⟨h', L.mergeSort (cmpLE h), e1, e2, e2.toList (by simp; omega), ?_⟩
  intro a b hab hsub
  exact List.pair_sublist_mergeSort (cmpLE_trans h) (cmpLE_total h)
    (by simp [cmpLE, hab, strcmp_self]) hsub

/-! ## The theorems at concrete queues -/

/-- The queue `["c", "a", "b", "a"]` is sorted by `q_sort`. -/
theorem q_sort_sorted_perm_witness :
    WF (build [[99], [97], [98], [97]]) 1 [2, 3, 4, 5] ∧
      ∃ h' L', q_sort 6 (build [[99], [97], [98], [97]]) 1 9 = some h' ∧ WF h' 1 L' ∧
        toList 6 h' 1 = some L' ∧
        (payloads h' L').Pairwise (fun s t => strcmp s t ≤ 0) ∧ L'.Perm [2, 3, 4, 5] ∧
        h'.value = (build [[99], [97], [98], [97]]).value :=
  ⟨by decide, q_sort_sorted_perm (build [[99], [97], [98], [97]]) 1 9 [2, 3, 4, 5] 6
    (by decide) (by decide) (by decide) (by decide)⟩

/-- In the queue `["b", "a", "b", "a"]` the equal payloads keep their order. -/
theorem q_sort_stable_witness :
    WF (build [[98], [97], [98], [97]]) 1 [2, 3, 4, 5] ∧
      ∃ h' L', q_sort 6 (build [[98], [97], [98], [97]]) 1 9 = some h' ∧ WF h' 1 L' ∧
        toList 6 h' 1 = some L' ∧
        ∀ a b, (build [[98], [97], [98], [97]]).value a =
            (build [[98], [97], [98], [97]]).value b →
          [a, b].Sublist [2, 3, 4, 5] → [a, b].Sublist L' :=
  ⟨by decide, q_sort_stable (build [[98], [97], [98], [97]]) 1 9 [2, 3, 4, 5] 6
    (by decide) (by decide) (by decide) (by decide)⟩

/-- The middle of the five-element queue `[a,b,c,d,e]` is `c`, at address `4`. -/
theorem q_delete_mid_spec_witness :
    WF (build [[97], [98], [99], [100], [101]]) 1 [2, 3, 4, 5, 6] ∧
      ∃ h', q_delete_mid 3 (build [[97], [98], [99], [100], [101]]) 1 = some (true, h') ∧
        WF h' 1 [2, 3, 5, 6] :=
  ⟨by decide,
    match (q_delete_mid_spec (build [[97], [98], [99], [100], [101]]) 1 [2, 3, 4, 5, 6] 3
      (by decide) (by decide)).1 (by decide) (by decide) with
    | ⟨h', e1, e2, _⟩ => ⟨h', e1, e2⟩⟩

/-- The sorted queue `["a","a","b","c","c","c"]` becomes `["b"]`. -/
theorem q_delete_dup_sorted_witness :
    WF (build [[97], [97], [98], [99], [99], [99]]) 1 [2, 3, 4, 5, 6, 7] ∧
      ∃ h', q_delete_dup 7 (build [[97], [97], [98], [99], [99], [99]]) 1 = some (true, h') ∧
        WF h' 1 [4] ∧ payloads h' [4] = [[98]] :=
  ⟨by decide,
    match (q_delete_dup_sorted (build [[97], [97], [98], [99], [99], [99]]) 1
      [2, 3, 4, 5, 6, 7] 7 (by decide) (by decide) (by decide) (by decide) (by decide)).1 with
    | ⟨h', e1, e2, e3, _⟩ => ⟨h', e1, e2, by rw [payloads, e3]; decide⟩⟩

/-- Removing the head of `["a","b"]` with a 4-byte buffer at address `50` gives the element
at address `2` and leaves `["b"]`. -/
theorem q_remove_head_spec_witness :
    (WF (build [[97], [98]]) 1 [2, 3] ∧ (50 = 0 ∨ 1 ≤ 4)) ∧
      (q_remove_head (build [[97], [98]]) 1 50 4).1 = 2 ∧
      WF (q_remove_head (build [[97], [98]]) 1 50 4).2 1 [3] :=
  ⟨⟨by decide, by decide⟩,
    ((q_remove_head_spec (build [[97], [98]]) 1 50 4 [2, 3] (by decide) (by decide)
      (by decide) (by decide)).2.2.2 2 [3] (by decide) rfl).1,
    ((q_remove_head_spec (build [[97], [98]]) 1 50 4 [2, 3] (by decide) (by decide)
      (by decide) (by decide)).2.2.2 2 [3] (by decide) rfl).2.1⟩

/-- The payload `"hello"` removed into a 4-byte buffer at address `50` gives `"hel"` and the
terminator. -/
theorem q_remove_head_buffer_witness :
    WF (build [[104, 101, 108, 108, 111]]) 1 [2] ∧
      (List.range 4).map
          (fun i => (q_remove_head (build [[104, 101, 108, 108, 111]]) 1 50 4).2.bytes (50 + i)) =
        [104, 101, 108, 0] :=
  ⟨by decide,
    q_remove_head_buffer (build [[104, 101, 108, 108, 111]]) 1 50 4 2 [] (by decide)
      (by decide) (by decide) (by decide) (by decide) (by decide)⟩

/-- Removing the tail of `["a","b"]` with a 4-byte buffer at address `50` gives the element
at address `3` and leaves `["a"]`. -/
theorem q_remove_tail_spec_witness :
    (WF (build [[97], [98]]) 1 [2, 3] ∧ (50 = 0 ∨ 1 ≤ 4)) ∧
      (q_remove_tail (build [[97], [98]]) 1 50 4).1 = 3 ∧
      WF (q_remove_tail (build [[97], [98]]) 1 50 4).2 1 [2] :=
  ⟨⟨by decide, by decide⟩,
    (q_remove_tail_spec (build [[97], [98]]) 1 50 4 3 [2] (by decide) (by decide) (by decide)
      (by decide)).1,
    (q_remove_tail_spec (build [[97], [98]]) 1 50 4 3 [2] (by decide) (by decide) (by decide)
      (by decide)).2.1⟩

/-- Inserting `"c"` with the fresh block `4` into `["a","b"]` at the head and at the tail. -/
theorem q_insert_success_witness :
    WF (build [[97], [98]]) 1 [2, 3] ∧
      WF (q_insert_head (build [[97], [98]]) 1 [99] 4 true).2 1 [4, 2, 3] ∧
      WF (q_insert_tail (build [[97], [98]]) 1 [99] 4 true).2 1 [2, 3, 4] :=
  ⟨by decide,
    (q_insert_success (build [[97], [98]]) 1 [2, 3] [99] 4 (by decide) (by decide) (by decide)
      (by decide) (by decide)).1.2.1,
    (q_insert_success (build [[97], [98]]) 1 [2, 3] [99] 4 (by decide) (by decide) (by decide)
      (by decide) (by decide)).2.2.1⟩

/-- A failing `strdup` leaves the queue `["a","b"]` as it was. -/
theorem q_insert_failure_witness :
    (1 = 0 ∨ 4 = 0 ∨ false = false) ∧
      (q_insert_head (build [[97], [98]]) 1 [99] 4 false).1 = false ∧
      (q_insert_head (build [[97], [98]]) 1 [99] 4 false).2 = build [[97], [98]] :=
  ⟨by decide,
    (q_insert_failure (build [[97], [98]]) 1 [99] 4 false (by decide)).1.1,
    (q_insert_failure (build [[97], [98]]) 1 [99] 4 false (by decide)).1.2.2.2.2.2
      (fun _ => by decide)⟩

/-! ## Sorting twice, and the split -/

/-- C16: `q_sort` leaves a queue that is already ascending under `strcmp` in its order, and
applying `q_sort` to the queue `q_sort` has left gives the same order of elements again. -/
theorem q_sort_idempotent (h : Heap) (head sp : Nat) (L : List Nat) (fuel : Nat)
    (hw : WF h head L) (hhead : head ≠ 0) (hsp : ∀ x ∈ head :: L, x < sp)
    (hf : L.length + 2 ≤ fuel) :
    ∃ h1 L1, q_sort fuel h head sp = some h1 ∧ WF h1 head L1 ∧
      toList fuel h1 head = some L1 ∧
      ((payloads h L).Pairwise (fun s t => strcmp s t ≤ 0) → L1 = L) ∧
      ∃ h2, q_sort fuel h1 head sp = some h2 ∧ WF h2 head L1 ∧
        toList fuel h2 head = some L1 := by
  obtain ⟨h1, e1, hw1, hv1, -⟩ := q_sort_spec fuel h head sp L hw hhead hsp hf
  have hlen : (L.mergeSort (cmpLE h)).length = L.length := List.length_mergeSort L
  obtain ⟨h2, e2, hw2, -, -⟩ := q_sort_spec fuel h1 head sp (L.mergeSort (cmpLE h)) hw1 hhead
    (by
      intro x hx
      apply hsp x
      rcases List.mem_cons.1 hx with e | hx
      · simp [e]
      · exact List.mem_cons_of_mem _ (List.mem_mergeSort.1 hx))
    (by rw [hlen]; exact hf)
  have hsorted := List.sorted_mergeSort (cmpLE_trans h) (cmpLE_total h) L
  rw [cmpLE_congr hv1, List.mergeSort_of_sorted hsorted] at hw2
  refine ⟨h1, L.mergeSort (cmpLE h), e1, hw1, hw1.toList (by rw [hlen]; omega), ?_,
    h2, e2, hw2, hw2.toList (by rw [hlen]; omega)⟩
  intro hs
  apply List.mergeSort_of_sorted
  rw [payloads, List.pairwise_map] at hs
  exact hs.imp (fun hab => by simpa [cmpLE] using hab)

/-- The slow/fast loop of `q_sort` from its start: `slow` ends on the last node of the first
half. -/
theorem sortMid_start {h : Heap} {head slow y : Nat} {X Y : List Nat}
    (hw : WF h head (X ++ slow :: y :: Y))
    (hXlen : X.length = ((X ++ slow :: y :: Y).length - 1) / 2) (fuel : Nat)
    (hf : ((X ++ slow :: y :: Y).length - 1) / 2 + 1 ≤ fuel) :
    sortMid fuel h head (h.next head) (h.next (h.next head)) = some slow := by
  have hn : (X ++ slow :: y :: Y).length = X.length + Y.length + 2 := by
    simp; omega
  have hmid0 := sortMid_spec hw fuel 0 (by rw [hn]; omega) (by omega)
  have e1 := hw.1.next_getD 0 (by omega)
  have e2 := hw.1.next_getD 1 (by rw [hn]; omega)
  have e0 : (head :: (X ++ slow :: y :: Y ++ [head])).getD 0 0 = head := rfl
  rw [e0] at e1
  rw [← e1] at e2
  have e3 : (head :: (X ++ slow :: y :: Y ++ [head])).getD
      (((X ++ slow :: y :: Y).length - 1) / 2 + 1) 0 = slow := by
    rw [← hXlen, List.getD_cons_succ, List.append_assoc,
      List.getD_eq_getElem _ _ (by simp), List.getElem_append_right (le_refl _)]
    simp
  rw [e3] at hmid0
  rw [e2, e1]
  exact hmid0

/-- C18: on a well-formed queue of length `n ≥ 2` the slow/fast loop of `q_sort` ends, and
the split leaves the first `(n + 1) / 2` elements under the sentinel and the other `n / 2`
elements under the local sentinel at `sp`, both queues well formed, non-empty and shorter
than `n`; and `q_sort` ends on every well-formed queue. -/
theorem q_sort_split_terminates (h : Heap) (head sp : Nat) (L : List Nat) (fuel : Nat)
    (hw : WF h head L) (hhead : head ≠ 0) (hsp : ∀ x ∈ head :: L, x < sp)
    (hf : L.length + 2 ≤ fuel) :
    (2 ≤ L.length →
      (∃ slow, sortMid fuel h head (h.next head) (h.next (h.next head)) = some slow ∧
        WF (sortSplit h head slow sp) head (L.take ((L.length + 1) / 2)) ∧
        WF (sortSplit h head slow sp) sp (L.drop ((L.length + 1) / 2))) ∧
      (L.take ((L.length + 1) / 2)).length = (L.length + 1) / 2 ∧
      (L.drop ((L.length + 1) / 2)).length = L.length / 2 ∧
      0 < (L.length + 1) / 2 ∧ 0 < L.length / 2 ∧
      (L.length + 1) / 2 < L.length ∧ L.length / 2 < L.length) ∧
    ∃ h', q_sort fuel h head sp = some h' := by
  refine ⟨?_, ?_⟩
  · intro hlen
    refine ⟨?_, by rw [List.length_take]; omega, by rw [List.length_drop]; omega,
      by omega, by omega, by omega, by omega⟩
    obtain ⟨X, slow, y, Y, hL, hXlen⟩ := split_middle L hlen
    subst hL
    have hn : (X ++ slow :: y :: Y).length = X.length + Y.length + 2 := by
      simp; omega
    have hk : ((X ++ slow :: y :: Y).length + 1) / 2 = X.length + 1 := by omega
    have hXY : X ++ slow :: y :: Y = (X ++ [slow]) ++ (y :: Y) := by simp
    have hspL : sp ∉ head :: (X ++ slow :: y :: Y) := fun hm => Nat.lt_irrefl _ (hsp sp hm)
    obtain ⟨hw1l, hw1r, -, -⟩ := sortSplit_spec hw hspL
    refine ⟨slow, sortMid_start hw hXlen fuel (by omega), ?_, ?_⟩
    · rw [hk, hXY, List.take_left' (by simp)]
      exact hw1l
    · rw [hk, hXY, List.drop_left' (by simp)]
      exact hw1r
  · obtain ⟨h', e1, -⟩ := q_sort_spec fuel h head sp L hw hhead hsp hf
    exact ⟨h', e1⟩

/-! ## Deleting duplicates in any queue -/

/-- The loop of `q_delete_dup` keeps the elements that differ in payload from both
neighbours; the flag stands for an equal payload just before the first element. -/
theorem dupFilter_eq_isolated (v : Nat → List Nat) (R : List Nat) :
    ∀ (x : Nat) (b : Bool) (p : Option (List Nat)), (∀ z ∈ x :: R, IsCStr (v z)) →
      (b = true ↔ p = some (v x)) → dupFilter v b (x :: R) = isolated v p (x :: R) := by
  induction R with
  | nil =>
    intro x b p _ hb
    unfold dupFilter isolated
    by_cases hc : b = true
    · rw [if_pos hc, if_pos (hb.1 hc)]
    · rw [if_neg hc, if_neg (fun e => hc (hb.2 e))]
  | cons y R ih =>
    intro x b p hcs hb
    have hcs' : ∀ z ∈ y :: R, IsCStr (v z) := fun z hz => hcs z (List.mem_cons_of_mem _ hz)
    have hzero : strcmp (v x) (v y) = 0 ↔ v x = v y :=
      strcmp_eq_zero (hcs x (by simp)) (hcs y (by simp))
    unfold dupFilter isolated
    by_cases hxy : v x = v y
    · rw [if_pos (hzero.2 hxy), if_pos (Or.inr hxy.symm)]
      exact ih y true (some (v x)) hcs' (by simp [hxy])
    · rw [if_neg (fun e => hxy (hzero.1 e))]
      have hih := ih y false (some (v x)) hcs' (by simp [hxy])
      by_cases hc : b = true
      · rw [if_pos hc, if_pos (Or.inl (hb.1 hc))]
        exact hih
      · rw [if_neg hc, if_neg (by
          rintro (e | e)
          · exact hc (hb.2 e)
          · exact hxy e.symm), hih]

theorem isolated_sublist (v : Nat → List Nat) (R : List Nat) :
    ∀ p, (isolated v p R).Sublist R := by
  induction R with
  | nil => intro p; simp [isolated]
  | cons x R ih =>
    intro p
    cases R with
    | nil =>
      unfold isolated
      split <;> simp
    | cons y R =>
      unfold isolated
      split
      · exact (ih _).cons _
      · exact (ih _).cons₂ _

/-- Where no two neighbours have the same payload nothing is taken out. -/
theorem isolated_of_chain (v : Nat → List Nat) (R : List Nat) :
    ∀ p, (∀ x ∈ R.head?, p ≠ some (v x)) → R.Chain' (fun a b => v a ≠ v b) →
      isolated v p R = R := by
  induction R with
  | nil => intro p _ _; simp [isolated]
  | cons x R ih =>
    intro p hp hc
    have hpx : p ≠ some (v x) := hp x (by simp)
    cases R with
    | nil =>
      unfold isolated
      rw [if_neg hpx]
    | cons y R =>
      have hxy : v x ≠ v y := (List.chain'_cons.1 hc).1
      unfold isolated
      rw [if_neg (by
        rintro (e | e)
        · exact hpx e
        · exact hxy e.symm)]
      rw [ih (some (v x)) (by
        intro z hz
        simp only [List.head?_cons, Option.mem_def, Option.some.injEq] at hz
        subst hz
        simpa using hxy) (List.chain'_cons.1 hc).2]

/-- C19: on any well-formed queue (sorted or not) `q_delete_dup` returns true and leaves, in
their order and with their payloads, exactly the elements whose payload differs from the
payload of the element directly before and of the element directly after them in the
original sequence; so a queue in which no two neighbours have equal payloads is left as it
is, whatever duplicates it holds further apart. -/
theorem q_delete_dup_adjacent (h : Heap) (head : Nat) (L : List Nat) (fuel : Nat)
    (hw : WF h head L) (hhead : head ≠ 0) (hcs : ∀ x ∈ L, IsCStr (h.value x))
    (hf : L.length + 1 ≤ fuel) :
    ∃ h', q_delete_dup fuel h head = some (true, h') ∧
      WF h' head (isolated h.value none L) ∧ h'.value = h.value ∧
      (isolated h.value none L).Sublist L ∧
      (L.Chain' (fun a b => h.value a ≠ h.value b) → isolated h.value none L = L) := by
  have hkey : dupFilter h.value false L = isolated h.value none L := by
    cases L with
    | nil => simp [dupFilter, isolated]
    | cons x R => exact dupFilter_eq_isolated h.value R x false none hcs (by simp)
  obtain ⟨h', e1, e2, e3, -⟩ := q_delete_dup_wf hw hhead fuel hf
  rw [hkey] at e2
  exact ⟨h', e1, e2, e3, isolated_sublist _ _ _,
    fun hc => isolated_of_chain _ _ _ (by simp) hc⟩

/-! ## The contract of `merge_two_list` -/

/-- Splices a non-empty queue into an empty one: the nodes end up under the sentinel `lh`;
nodes of neither queue are untouched. -/
theorem list_splice_empty {h : Heap} {lh rh b : Nat} {B : List Nat} (hwl : WF h lh [])
    (hwr : WF h rh (b :: B)) (hdis : lh ∉ rh :: b :: B) :
    WF (list_splice h rh lh) lh (b :: B) ∧ (list_splice h rh lh).value = h.value ∧
      ∀ x, x ≠ lh → x ∉ rh :: b :: B →
        (list_splice h rh lh).next x = h.next x ∧ (list_splice h rh lh).prev x = h.prev x := by
  have hne : list_empty h rh = false := hwr.list_empty_cons
  have hlh : h.next lh = lh := hwl.1.1
  have hb : h.next rh = b := hwr.next_head
  have hnd := hwr.2
  simp only [List.mem_cons, not_or] at hdis
  obtain ⟨hlr, hlb, hlB⟩ := hdis
  simp only [List.nodup_cons, List.mem_cons, not_or] at hnd
  obtain ⟨⟨hrb, hrB⟩, hbB, hBnd⟩ := hnd
  rcases eq_nil_or_snoc B with rfl | ⟨M, t, rfl⟩
  · have ht : h.prev rh = b := hwr.1.2.2
    have hnext : (list_splice h rh lh).next = upd (upd h.next lh b) b lh := by
      simp [list_splice, hne, hlh, hb, ht]
    have hprev : (list_splice h rh lh).prev = upd (upd h.prev b lh) lh b := by
      simp [list_splice, hne, hlh, hb, ht]
    refine ⟨⟨?_, ?_⟩, ?_, ?_⟩
    · simp [Seg, Linked, hnext, hprev, upd, hlb, Ne.symm hlb]
    · simp [hlb]
    · simp [list_splice, hne]
    · intro x hx1 hx2
      simp only [List.mem_cons, List.mem_singleton, List.not_mem_nil, or_false, not_or] at hx2
      rw [hnext, hprev]
      simp [upd, hx1, hx2.2]
  · have hseg := hwr.1
    rw [show b :: (M ++ [t]) = (b :: M) ++ [t] by simp, Seg_append] at hseg
    obtain ⟨⟨hs1, hs2⟩, hs3⟩ := hseg
    have ht : h.prev rh = t := hs3.2
    simp only [List.mem_append, List.mem_singleton, not_or] at hlB hrB hbB
    have hMt := List.nodup_append.1 hBnd
    have htM : t ∉ M := fun hm => hMt.2.2 hm (by simp)
    have htl : t ≠ lh := fun e => hlB.2 e.symm
    have hnext : (list_splice h rh lh).next = upd (upd h.next lh b) t lh := by
      simp [list_splice, hne, hlh, hb, ht]
    have hprev : (list_splice h rh lh).prev = upd (upd h.prev b lh) lh t := by
      simp [list_splice, hne, hlh, hb, ht]
    refine ⟨⟨?_, ?_⟩, ?_, ?_⟩
    · rw [show b :: (M ++ [t]) = (b :: M) ++ [t] by simp, Seg_append]
      refine ⟨⟨by simp [Linked, hnext, hprev, upd, htl, Ne.symm htl, hlb, Ne.symm hlb], ?_⟩,
        by simp [Seg, Linked, hnext, hprev, upd]⟩
      apply hs2.transfer
      · intro x hx
        rw [hnext]
        have e1 : x ≠ t := by
          rintro rfl
          rcases List.mem_cons.1 hx with e | hm
          · exact hbB.2 e.symm
          · exact htM hm
        have e2 : x ≠ lh := by
          rintro rfl
          rcases List.mem_cons.1 hx with e | hm
          · exact hlb e
          · exact hlB.1 hm
        simp [upd, e1, e2]
      · intro x hx
        rw [hprev]
        have e1 : x ≠ lh := by
          intro e
          rw [e] at hx
          rcases List.mem_append.1 hx with hm | hm
          · exact hlB.1 hm
          · exact hlB.2 (List.mem_singleton.1 hm)
        have e2 : x ≠ b := by
          intro e
          rw [e] at hx
          rcases List.mem_append.1 hx with hm | hm
          · exact hbB.1 hm
          · exact hbB.2 (List.mem_singleton.1 hm)
        simp [upd, e1, e2]
    · refine List.nodup_cons.2 ⟨?_, hwr.2.of_cons⟩
      simp only [List.mem_cons, List.mem_append, List.mem_singleton, not_or,
        List.not_mem_nil, or_false]
      exact ⟨hlb, hlB.1, hlB.2⟩
    · simp [list_splice, hne]
    · intro x hx1 hx2
      simp only [List.mem_cons, List.mem_append, List.mem_singleton, List.not_mem_nil,
        or_false, not_or] at hx2
      rw [hnext, hprev]
      simp [upd, hx1, hx2.2.1, hx2.2.2.2]

/-- The left list is kept in its order by the merge. -/
theorem sublist_merge_left (le : Nat → Nat → Bool) (A : List Nat) :
    ∀ B : List Nat, A.Sublist (List.merge A B le) := by
  induction A with
  | nil => intro B; simp
  | cons x xs ihA =>
    intro B
    induction B with
    | nil => simp
    | cons y ys ihB =>
      by_cases hxy : le x y = true
      · rw [List.cons_merge_cons_pos _ _ _ hxy]
        exact (ihA (y :: ys)).cons₂ x
      · rw [List.cons_merge_cons_neg _ _ _ hxy]
        exact ihB.cons y

/-- The right list is kept in its order by the merge. -/
theorem sublist_merge_right (le : Nat → Nat → Bool) (A : List Nat) :
    ∀ B : List Nat, B.Sublist (List.merge A B le) := by
  induction A with
  | nil => intro B; simp
  | cons x xs ihA =>
    intro B
    induction B with
    | nil => simp
    | cons y ys ihB =>
      by_cases hxy : le x y = true
      · rw [List.cons_merge_cons_pos _ _ _ hxy]
        exact (ihA (y :: ys)).cons x
      · rw [List.cons_merge_cons_neg _ _ _ hxy]
        exact ihB.cons₂ y

/-- In the merge an element of the sorted left list stands before every element of the
right list that it compares less or equal to. -/
theorem pair_sublist_merge (le : Nat → Nat → Bool)
    (htrans : ∀ a b c, le a b = true → le b c = true → le a c = true) (A : List Nat) :
    ∀ B : List Nat, A.Pairwise (fun a b => le a b = true) →
      ∀ a ∈ A, ∀ b ∈ B, le a b = true → [a, b].Sublist (List.merge A B le) := by
  induction A with
  | nil => intro B _ a ha; simp at ha
  | cons x xs ihA =>
    intro B
    induction B with
    | nil => intro _ a _ b hb; simp at hb
    | cons y ys ihB =>
      intro hsA a ha b hb hab
      have hsA' := (List.pairwise_cons.1 hsA).2
      by_cases hxy : le x y = true
      · rw [List.cons_merge_cons_pos _ _ _ hxy]
        rcases List.mem_cons.1 ha with rfl | ha
        · apply List.Sublist.cons₂
          rw [List.singleton_sublist]
          exact List.mem_merge_right le hb
        · exact (ihA (y :: ys) hsA' a ha b hb hab).cons x
      · rw [List.cons_merge_cons_neg _ _ _ hxy]
        rcases List.mem_cons.1 hb with rfl | hb
        · exfalso
          rcases List.mem_cons.1 ha with rfl | ha
          · exact hxy hab
          · exact hxy (htrans _ _ _ ((List.pairwise_cons.1 hsA).1 a ha) hab)
        · exact (ihB hsA a ha b hb hab).cons y

/-- The function `merge_two_list` on any left list and a sorted right list: the left
sentinel ends up with the merge of the two, as defined in the standard library. -/
theorem merge_two_list_any {h : Heap} {lh rh : Nat} {A B : List Nat} (fuel : Nat)
    (hwl : WF h lh A) (hwr : WF h rh B) (hdis : ∀ x ∈ rh :: B, x ∉ lh :: A)
    (hsorted : B.Pairwise (fun x y => cmpLE h x y = true))
    (hf : A.length + B.length + 1 ≤ fuel) :
    ∃ h', merge_two_list fuel h lh rh = some h' ∧
      WF h' lh (List.merge A B (cmpLE h)) ∧ h'.value = h.value := by
  cases A with
  | cons a A =>
    obtain ⟨h', e1, e2, e3, -⟩ := merge_two_list_spec fuel hwl hwr hdis hsorted hf
    exact ⟨h', e1, e2, e3⟩
  | nil =>
    cases B with
    | nil =>
      obtain ⟨f, rfl⟩ : ∃ f, fuel = f + 1 := ⟨fuel - 1, by omega⟩
      refine ⟨h, ?_, by simpa using hwl, rfl⟩
      simp [merge_two_list, hwr.1.1, mergeLoop]
    | cons b B =>
      have hlr : lh ∉ rh :: b :: B := by
        intro hm
        exact hdis lh hm (by simp)
      obtain ⟨e1, e2, -⟩ := list_splice_empty hwl hwr hlr
      refine ⟨list_splice h rh lh, ?_, by simpa using e1, e2⟩
      have hb : b ≠ rh := hwr.head_ne b (by simp)
      simp [merge_two_list, hwl.1.1, hwr.next_head, hb]

/-- C17: for a left list `A` and a right list `B` that are each ascending under `strcmp`
(`A` may be empty), `merge_two_list` ends and leaves under the left sentinel a list that is
ascending, holds exactly the nodes of `A` and `B`, keeps the order within `A` and within
`B`, and has an element of `A` before every element of `B` with an equal payload; when `A`
is empty the result is `B` unchanged. -/
theorem merge_two_list_contract (h : Heap) (lh rh : Nat) (A B : List Nat) (fuel : Nat)
    (hwl : WF h lh A) (hwr : WF h rh B) (hdis : ∀ x ∈ rh :: B, x ∉ lh :: A)
    (hsA : (payloads h A).Pairwise (fun s t => strcmp s t ≤ 0))
    (hsB : (payloads h B).Pairwise (fun s t => strcmp s t ≤ 0))
    (hf : A.length + B.length + 1 ≤ fuel) :
    ∃ h' M, merge_two_list fuel h lh rh = some h' ∧ WF h' lh M ∧ h'.value = h.value ∧
      (payloads h' M).Pairwise (fun s t => strcmp s t ≤ 0) ∧ M.Perm (A ++ B) ∧
      A.Sublist M ∧ B.Sublist M ∧
      (∀ a ∈ A, ∀ b ∈ B, h.value a = h.value b → [a, b].Sublist M) ∧
      (A = [] → M = B) := by
  have hA : A.Pairwise (fun x y => cmpLE h x y = true) := by
    rw [payloads, List.pairwise_map] at hsA
    exact hsA.imp (fun hab => by simpa [cmpLE] using hab)
  have hB : B.Pairwise (fun x y => cmpLE h x y = true) := by
    rw [payloads, List.pairwise_map] at hsB
    exact hsB.imp (fun hab => by simpa [cmpLE] using hab)
  obtain ⟨h', e1, e2, e3⟩ := merge_two_list_any fuel hwl hwr hdis hB hf
  refine ⟨h', List.merge A B (cmpLE h), e1, e2, e3, ?_, List.merge_perm_append _,
    sublist_merge_left _ _ _, sublist_merge_right _ _ _, ?_, ?_⟩
  · have hs := List.sorted_merge (cmpLE_trans h) (cmpLE_total h) A B hA hB
    rw [payloads, List.pairwise_map, e3]
    exact hs.imp (fun hab => by simpa [cmpLE] using hab)
  · intro a ha b hb hab
    exact pair_sublist_merge (cmpLE h) (cmpLE_trans h) A B hA a ha b hb
      (by simp [cmpLE, hab, strcmp_self])
  · rintro rfl
    simp

/-! ## Swapping pairs -/

/-- The successor of an element is the element after it, or the sentinel. -/
theorem WF.next_mid {h : Heap} {head a : Nat} {X R : List Nat} (hw : WF h head (X ++ a :: R)) :
    h.next a = R.headD head := by
  rw [WF_rotate] at hw
  cases R with
  | nil => simpa using hw.next_head
  | cons y R => simpa using hw.next_head

/-- The loop of `q_swap`: with the elements `K` done and the elements `R` still to visit,
it ends with the queue `K ++ swapPairs R`. -/
theorem swapLoop_spec (head : Nat) (fuel : Nat) :
    ∀ (h : Heap) (K R : List Nat), WF h head (K ++ R) → R.length / 2 + 1 ≤ fuel →
      ∃ h', swapLoop fuel h head (R.headD head) = some h' ∧
        WF h' head (K ++ swapPairs R) ∧ h'.value = h.value ∧ h'.alloc = h.alloc ∧
        (R.length ≤ 1 → h' = h) := by
  induction fuel with
  | zero => intro h K R _ hf; omega
  | succ f ih =>
    intro h K R hw hf
    match R, hw, hf with
    | [], hw, _ =>
      refine ⟨h, ?_, by simpa [swapPairs] using hw, rfl, rfl, fun _ => rfl⟩
      simp [swapLoop]
    | [a], hw, _ =>
      refine ⟨h, ?_, by simpa [swapPairs] using hw, rfl, rfl, fun _ => rfl⟩
      have hn : h.next a = head := by simpa using hw.next_mid
      simp [swapLoop, hn]
    | a :: b :: R, hw, hf =>
      have hn : h.next a = b := by simpa using hw.next_mid
      have hah : a ≠ head := hw.head_ne a (by simp)
      have hbh : b ≠ head := hw.head_ne b (by simp)
      have hw1 : WF (list_del h a) head (K ++ b :: R) := hw.list_del_mid
      have hnd := hw.2
      have ha : a ∉ head :: (K ++ b :: R) := by
        simp only [List.nodup_cons, List.nodup_append, List.mem_cons, List.mem_append,
          not_or] at hnd ⊢
        obtain ⟨⟨hhK, hha, hhb, hhR⟩, hKnd, ⟨⟨hab, haR⟩, hbR, hRnd⟩, hdisj⟩ := hnd
        exact ⟨fun e => hha e.symm, fun hm => hdisj hm (by simp), hab, haR⟩
      have hw2 : WF (list_add (list_del h a) a b) head (K ++ b :: a :: R) :=
        hw1.list_add_after ha
      have hw2' : WF (list_add (list_del h a) a b) head ((K ++ [b]) ++ a :: R) := by
        simpa using hw2
      have hn2 : (list_add (list_del h a) a b).next a = R.headD head := hw2'.next_mid
      obtain ⟨h', e1, e2, e3, e4, -⟩ := ih (list_add (list_del h a) a b) (K ++ [b, a]) R
        (by simpa using hw2) (by simp at hf; omega)
      refine ⟨h', ?_, by simpa [swapPairs] using e2, e3, e4, fun hc => by simp at hc⟩
      simp only [List.headD_cons]
      unfold swapLoop
      rw [if_pos ⟨by rw [hn]; exact hbh, hah⟩]
      simp only [hn, hn2]
      exact e1

theorem swapPairs_length : ∀ L : List Nat, (swapPairs L).length = L.length
  | [] => rfl
  | [_] => rfl
  | a :: b :: R => by simp [swapPairs, swapPairs_length R]

/-- The elements at the positions `2 * k` and `2 * k + 1` change places. -/
theorem swapPairs_pair : ∀ (L : List Nat) (k : Nat), 2 * k + 1 < L.length →
    (swapPairs L)[2 * k]? = L[2 * k + 1]? ∧ (swapPairs L)[2 * k + 1]? = L[2 * k]?
  | [], _, hk => by simp at hk
  | [_], _, hk => by simp at hk
  | a :: b :: R, 0, _ => by simp [swapPairs]
  | a :: b :: R, k + 1, hk => by
    have := swapPairs_pair R k (by simp at hk; omega)
    have e1 : 2 * (k + 1) = 2 * k + 1 + 1 := by omega
    have e2 : 2 * (k + 1) + 1 = (2 * k + 1) + 1 + 1 := by omega
    rw [e2, e1]
    simpa [swapPairs] using this

/-- With an odd number of elements the last one stays where it is. -/
theorem swapPairs_last : ∀ L : List Nat, L.length % 2 = 1 →
    (swapPairs L)[L.length - 1]? = L[L.length - 1]?
  | [], h => by simp at h
  | [_], _ => rfl
  | a :: b :: R, h => by
    have hR : R.length % 2 = 1 := by simp at h; omega
    have hpos : 0 < R.length := by omega
    have := swapPairs_last R hR
    have e : (a :: b :: R).length - 1 = (R.length - 1) + 1 + 1 := by simp; omega
    rw [e]
    simpa [swapPairs] using this

theorem swapPairs_swapPairs : ∀ L : List Nat, swapPairs (swapPairs L) = L
  | [] => rfl
  | [_] => rfl
  | a :: b :: R => by simp [swapPairs, swapPairs_swapPairs R]

/-- The function `q_swap` on a well-formed queue. -/
theorem q_swap_wf {h : Heap} {head : Nat} {L : List Nat} (hw : WF h head L) (hhead : head ≠ 0)
    (fuel : Nat) (hf : L.length / 2 + 1 ≤ fuel) :
    ∃ h', q_swap fuel h head = some h' ∧ WF h' head (swapPairs L) ∧ h'.value = h.value ∧
      h'.alloc = h.alloc ∧ (L.length ≤ 1 → h' = h) := by
  obtain ⟨h', e1, e2, e3, e4, e5⟩ := swapLoop_spec head fuel h [] L (by simpa using hw) hf
  refine ⟨h', ?_, by simpa using e2, e3, e4, e5⟩
  simp only [q_swap, hhead, if_false, hw.next_head_headD]
  exact e1

/-- C11: on a well-formed queue `q_swap` ends with the elements at the positions `2 * k` and
`2 * k + 1` exchanged for every `k` with `2 * k + 1 < n`, the last element of an odd-length
queue in its place, and all payloads as they were; an empty or single-element queue and a
null handle leave the memory unchanged. -/
theorem q_swap_spec (h : Heap) (head : Nat) (L : List Nat) (fuel : Nat) (hw : WF h head L)
    (hhead : head ≠ 0) (hf : L.length / 2 + 1 ≤ fuel) :
    (∃ h', q_swap fuel h head = some h' ∧ WF h' head (swapPairs L) ∧
      toList (L.length + 1) h' head = some (swapPairs L) ∧ h'.value = h.value) ∧
    (swapPairs L).length = L.length ∧
    (∀ k, 2 * k + 1 < L.length →
      (swapPairs L)[2 * k]? = L[2 * k + 1]? ∧ (swapPairs L)[2 * k + 1]? = L[2 * k]?) ∧
    (L.length % 2 = 1 → (swapPairs L)[L.length - 1]? = L[L.length - 1]?) ∧
    (L.length ≤ 1 → q_swap fuel h head = some h) ∧
    q_swap fuel h 0 = some h := by
  obtain ⟨h', e1, e2, e3, -, e5⟩ := q_swap_wf hw hhead fuel hf
  refine ⟨⟨h', e1, e2, e2.toList (by rw [swapPairs_length]), e3⟩, swapPairs_length L,
    swapPairs_pair L, swapPairs_last L, ?_, by simp [q_swap]⟩
  intro hl
  rw [e1, e5 hl]

/-- C20: applying `q_swap` twice to a well-formed queue, of even or odd length, gives back
the original order of the elements. -/
theorem q_swap_involution (h : Heap) (head : Nat) (L : List Nat) (fuel : Nat)
    (hw : WF h head L) (hhead : head ≠ 0) (hf : L.length / 2 + 1 ≤ fuel) :
    ∃ h1 h2, q_swap fuel h head = some h1 ∧ q_swap fuel h1 head = some h2 ∧
      WF h2 head L ∧ toList (L.length + 1) h2 head = some L ∧ h2.value = h.value := by
  obtain ⟨h1, e1, hw1, hv1, -, -⟩ := q_swap_wf hw hhead fuel hf
  obtain ⟨h2, e2, hw2, hv2, -, -⟩ := q_swap_wf hw1 hhead fuel (by rw [swapPairs_length]; exact hf)
  rw [swapPairs_swapPairs] at hw2
  exact ⟨h1, h2, e1, e2, hw2, hw2.toList (le_refl _), hv2.trans hv1⟩

/-! ## Reversing -/

/-- Exchanging the two fields of every node of a segment turns the segment around. -/
theorem Seg.reverse_seg {h h' : Heap} {a b : Nat} {X : List Nat} (hs : Seg h a X b)
    (hsw : ∀ x ∈ a :: (X ++ [b]), h'.next x = h.prev x ∧ h'.prev x = h.next x) :
    Seg h' b X.reverse a := by
  induction X generalizing a with
  | nil =>
    have ha := hsw a (by simp)
    have hb := hsw b (by simp)
    exact ⟨by rw [hb.1]; exact hs.2, by rw [ha.2]; exact hs.1⟩
  | cons x X ih =>
    rw [List.reverse_cons, Seg_append]
    have ha := hsw a (by simp)
    have hx := hsw x (by simp)
    refine ⟨ih hs.2 (fun y hy => hsw y (List.mem_cons_of_mem _ hy)), ?_⟩
    exact ⟨by rw [hx.1]; exact hs.1.2, by rw [ha.2]; exact hs.1.1⟩

/-- Exchanging the two fields of every node of a queue reverses the queue. -/
theorem WF.reverse_wf {h h' : Heap} {head : Nat} {L : List Nat} (hw : WF h head L)
    (hsw : ∀ x ∈ head :: L, h'.next x = h.prev x ∧ h'.prev x = h.next x) :
    WF h' head L.reverse := by
  refine ⟨hw.1.reverse_seg (fun x hx => hsw x ?_), ?_⟩
  · simp only [List.mem_cons, List.mem_append, List.mem_singleton, List.not_mem_nil,
      or_false] at hx ⊢
    tauto
  · have := hw.2
    simp only [List.nodup_cons, List.mem_reverse, List.nodup_reverse] at this ⊢
    exact this

/-- The loop of `q_reverse`: the two fields of every node still to visit are exchanged,
every other node is left alone. -/
theorem reverseLoop_spec (h0 : Heap) (head : Nat) (R : List Nat) :
    ∀ (a : Nat) (hc : Heap) (fuel : Nat), Seg h0 a R head → head ∉ R → R.Nodup →
      (∀ x ∈ R, hc.next x = h0.next x ∧ hc.prev x = h0.prev x) → R.length + 1 ≤ fuel →
      ∃ h', reverseLoop fuel hc head (R.headD head) = some h' ∧
        (∀ x ∈ R, h'.next x = h0.prev x ∧ h'.prev x = h0.next x) ∧
        (∀ x, x ∉ R → h'.next x = hc.next x ∧ h'.prev x = hc.prev x) ∧
        h'.value = hc.value ∧ h'.alloc = hc.alloc ∧ h'.bytes = hc.bytes := by
  induction R with
  | nil =>
    intro a hc fuel _ _ _ _ hf
    obtain ⟨f, rfl⟩ : ∃ f, fuel = f + 1 := ⟨fuel - 1, by simp at hf; omega⟩
    exact ⟨hc, by simp [reverseLoop], by simp, fun _ _ => ⟨rfl, rfl⟩, rfl, rfl, rfl⟩
  | cons r R ih =>
    intro a hc fuel hs hh hnd hag hf
    obtain ⟨f, rfl⟩ : ∃ f, fuel = f + 1 := ⟨fuel - 1, by simp at hf; omega⟩
    have hrh : r ≠ head := fun e => hh (by simp [e])
    have hrR : r ∉ R := (List.nodup_cons.1 hnd).1
    have hr := hag r (by simp)
    have hnext : h0.next r = R.headD head := by
      cases R with
      | nil => exact hs.2.1
      | cons y R => exact hs.2.1.1
    obtain ⟨h', e1, e2, e3, e4, e5, e6⟩ := ih r
      ((hc.setPrev r (hc.next r)).setNext r (hc.prev r)) f hs.2
      (fun hm => hh (List.mem_cons_of_mem _ hm)) (List.nodup_cons.1 hnd).2
      (by
        intro x hx
        have hxr : x ≠ r := fun e => hrR (e ▸ hx)
        have := hag x (List.mem_cons_of_mem _ hx)
        simp [upd, hxr, this])
      (by simpa using hf)
    refine ⟨h', ?_, ?_, ?_, e4, e5, e6⟩
    · simp only [List.headD_cons]
      unfold reverseLoop
      rw [if_pos hrh]
      simp only []
      rw [hr.1, hnext] at e1 ⊢
      exact e1
    · intro x hx
      rcases List.mem_cons.1 hx with rfl | hx
      · have := e3 x hrR
        rw [this.1, this.2]
        simp [upd, hr.1, hr.2]
      · exact e2 x hx
    · intro x hx
      simp only [List.mem_cons, not_or] at hx
      have := e3 x hx.2
      rw [this.1, this.2]
      simp [upd, hx.1]

/-- The function `q_reverse` on a well-formed queue: the two fields of the sentinel and of
every element are exchanged, nothing else changes. -/
theorem q_reverse_fields {h : Heap} {head : Nat} {L : List Nat} (hw : WF h head L)
    (hhead : head ≠ 0) (fuel : Nat) (hf : L.length + 1 ≤ fuel) :
    ∃ h', q_reverse fuel h head = some h' ∧
      (∀ x ∈ head :: L, h'.next x = h.prev x ∧ h'.prev x = h.next x) ∧
      (∀ x, x ∉ head :: L → h'.next x = h.next x ∧ h'.prev x = h.prev x) ∧
      h'.value = h.value ∧ h'.alloc = h.alloc ∧ h'.bytes = h.bytes := by
  cases L with
  | nil =>
    refine ⟨h, by simp [q_reverse, hw.list_empty_nil], ?_, fun _ _ => ⟨rfl, rfl⟩, rfl, rfl, rfl⟩
    intro x hx
    simp only [List.mem_singleton] at hx
    subst hx
    rw [hw.1.1, hw.1.2]
    exact ⟨rfl, rfl⟩
  | cons y L =>
    have hhL : head ∉ y :: L := (List.nodup_cons.1 hw.2).1
    obtain ⟨h', e1, e2, e3, e4, e5, e6⟩ := reverseLoop_spec h head (y :: L) head h fuel hw.1
      hhL hw.2.of_cons (fun _ _ => ⟨rfl, rfl⟩) hf
    have hh := e3 head hhL
    refine ⟨(h'.setPrev head (h'.next head)).setNext head (h'.prev head), ?_, ?_, ?_, e4, e5, e6⟩
    · simp only [q_reverse, hhead, hw.list_empty_cons, false_or, Bool.false_eq_true, if_false,
        hw.next_head]
      simp only [List.headD_cons] at e1
      rw [e1]
    · intro x hx
      rcases List.mem_cons.1 hx with rfl | hx
      · simp [upd, hh.1, hh.2]
      · have hxh : x ≠ head := fun e => hhL (e ▸ hx)
        simp [upd, hxh, e2 x hx]
    · intro x hx
      simp only [List.mem_cons, not_or] at hx
      have := e3 x (by simp only [List.mem_cons, not_or]; exact hx.2)
      simp [upd, hx.1, this]

theorem walkBack_eq_walk (h g : Heap) (head : Nat) (hg : g.next = h.prev) :
    ∀ (fuel p : Nat), walkBack fuel h head p = walk fuel g head p := by
  intro fuel
  induction fuel with
  | zero => intro p; rfl
  | succ f ih =>
    intro p
    unfold walkBack walk
    rw [hg, ih]

/-- Reading a well-formed queue from the sentinel backward gives its elements in reverse
order. -/
theorem WF.toListBack_eq {h : Heap} {head : Nat} {L : List Nat} (hw : WF h head L) {fuel : Nat}
    (hf : L.length + 1 ≤ fuel) : toListBack fuel h head = some L.reverse := by
  have hw' : WF { h with next := h.prev, prev := h.next } head L.reverse :=
    hw.reverse_wf (fun _ _ => ⟨rfl, rfl⟩)
  have hlen : L.reverse.length + 1 ≤ fuel := by simpa using hf
  have := hw'.toList hlen
  unfold toListBack
  rw [walkBack_eq_walk h { h with next := h.prev, prev := h.next } head rfl]
  exact this

/-- C12: on a well-formed queue `q_reverse` ends with the same nodes in the reversed order:
the queue read forward afterwards is the queue read backward before; payloads and
allocation status are untouched; an empty queue and a null handle leave the memory
unchanged. -/
theorem q_reverse_spec (h : Heap) (head : Nat) (L : List Nat) (fuel : Nat) (hw : WF h head L)
    (hhead : head ≠ 0) (hf : L.length + 1 ≤ fuel) :
    (∃ h', q_reverse fuel h head = some h' ∧ WF h' head L.reverse ∧
      toList fuel h' head = some L.reverse ∧ toList fuel h' head = toListBack fuel h head ∧
      L.reverse.Perm L ∧ h'.value = h.value ∧ h'.alloc = h.alloc) ∧
    (L = [] → q_reverse fuel h head = some h) ∧
    q_reverse fuel h 0 = some h := by
  obtain ⟨h', e1, e2, -, e4, e5, -⟩ := q_reverse_fields hw hhead fuel hf
  have hw' : WF h' head L.reverse := hw.reverse_wf e2
  have hlen : L.reverse.length + 1 ≤ fuel := by simpa using hf
  refine ⟨⟨h', e1, hw', hw'.toList hlen, ?_, List.reverse_perm L, e4, e5⟩, ?_,
    by simp [q_reverse]⟩
  · rw [hw'.toList hlen, hw.toListBack_eq hf]
  · rintro rfl
    simp [q_reverse, hw.list_empty_nil]

/-- C13: applying `q_reverse` twice to a well-formed queue gives back the original order of
the elements; the memory is then exactly the memory before the two calls. -/
theorem q_reverse_twice (h : Heap) (head : Nat) (L : List Nat) (fuel : Nat) (hw : WF h head L)
    (hhead : head ≠ 0) (hf : L.length + 1 ≤ fuel) :
    ∃ h1 h2, q_reverse fuel h head = some h1 ∧ q_reverse fuel h1 head = some h2 ∧
      WF h2 head L ∧ toList fuel h2 head = some L ∧ h2 = h := by
  obtain ⟨h1, e1, e2, e3, e4, e5, e6⟩ := q_reverse_fields hw hhead fuel hf
  have hw1 : WF h1 head L.reverse := hw.reverse_wf e2
  obtain ⟨h2, f1, f2, f3, f4, f5, f6⟩ := q_reverse_fields hw1 hhead fuel (by simpa using hf)
  have hw2 : WF h2 head L := by simpa using hw1.reverse_wf f2
  have hmem : ∀ x, x ∈ head :: L.reverse ↔ x ∈ head :: L := by
    intro x; simp
  have heq : h2 = h := by
    apply Heap.ext'
    · funext x
      by_cases hx : x ∈ head :: L
      · rw [(f2 x ((hmem x).2 hx)).1, (e2 x hx).2]
      · rw [(f3 x (fun hm => hx ((hmem x).1 hm))).1, (e3 x hx).1]
    · funext x
      by_cases hx : x ∈ head :: L
      · rw [(f2 x ((hmem x).2 hx)).2, (e2 x hx).1]
      · rw [(f3 x (fun hm => hx ((hmem x).1 hm))).2, (e3 x hx).2]
    · rw [f4, e4]
    · rw [f5, e5]
    · rw [f6, e6]
  exact ⟨h1, h2, e1, f1, hw2, hw2.toList hf, heq⟩

/-! ## Counting the elements -/

theorem intWrap_of_lt (n : Int) (h0 : 0 ≤ n) (h1 : n < 2 ^ 31) : intWrap n = n := by
  unfold intWrap
  norm_num at h1 ⊢
  omega

/-- The loop of `q_size`: it adds the number of nodes it still has to visit to the count, as
long as the sum fits in an `int`. -/
theorem sizeLoop_spec {h : Heap} {head : Nat} (R : List Nat) :
    ∀ (a len fuel : Nat), Seg h a R head → head ∉ R → len + R.length < 2 ^ 31 →
      R.length + 1 ≤ fuel →
      sizeLoop fuel h head (R.headD head) (len : Int) = some ((len + R.length : Nat) : Int) := by
  induction R with
  | nil =>
    intro a len fuel _ _ _ hf
    obtain ⟨f, rfl⟩ : ∃ f, fuel = f + 1 := ⟨fuel - 1, by simp at hf; omega⟩
    simp [sizeLoop]
  | cons r R ih =>
    intro a len fuel hs hh hlen hf
    obtain ⟨f, rfl⟩ : ∃ f, fuel = f + 1 := ⟨fuel - 1, by simp at hf; omega⟩
    have hrh : r ≠ head := fun e => hh (by simp [e])
    have hnext : h.next r = R.headD head := by
      cases R with
      | nil => exact hs.2.1
      | cons y R => exact hs.2.1.1
    have hlen' : len + 1 + R.length < 2 ^ 31 := by
      simp only [List.length_cons] at hlen; omega
    have hw : intWrap ((len : Int) + 1) = ((len + 1 : Nat) : Int) := by
      rw [intWrap_of_lt _ (by omega) (by
        have : (len : Int) + 1 < ((2 ^ 31 : Nat) : Int) := by
          have : len + 1 < 2 ^ 31 := by omega
          exact_mod_cast this
        simpa using this)]
      simp
    have := ih r (len + 1) f hs.2 (fun hm => hh (List.mem_cons_of_mem _ hm)) hlen'
      (by simpa using hf)
    simp only [List.headD_cons]
    unfold sizeLoop
    have e : len + 1 + R.length = len + (r :: R).length := by
      simp only [List.length_cons]; omega
    rw [if_neg hrh, hnext, hw, this, e]

/-- The function `q_size` on a well-formed queue whose length fits in an `int`. -/
theorem q_size_wf {h : Heap} {head : Nat} {L : List Nat} (hw : WF h head L) (hhead : head ≠ 0)
    (fuel : Nat) (hlen : L.length < 2 ^ 31) (hf : L.length + 1 ≤ fuel) :
    q_size fuel h head = some (L.length : Int) := by
  have := sizeLoop_spec L head 0 fuel hw.1 (List.nodup_cons.1 hw.2).1 (by omega) hf
  simp only [q_size, hhead, if_false, hw.next_head_headD]
  simpa using this

/-! ## Sequences of insertions, removals and deletions -/

/-- The function `q_insert_head` on a well-formed queue, whatever the allocator does. -/
theorem q_insert_head_wf {h : Heap} {head : Nat} {L : List Nat} (hw : WF h head L)
    (hhead : head ≠ 0) (s : List Nat) (m : Nat) (dupOk : Bool) (hfresh : m ∉ head :: L) :
    ((q_insert_head h head s m dupOk).1 = true ↔ ¬ (m = 0 ∨ dupOk = false)) ∧
      WF (q_insert_head h head s m dupOk).2 head
        (if m = 0 ∨ dupOk = false then L else m :: L) := by
  by_cases hfail : m = 0 ∨ dupOk = false
  · obtain ⟨h1, h2, h3, -⟩ := new_element_fail h s m dupOk hfail
    simp only [q_insert_head, hhead, if_false, h1, if_true, hfail, not_true_eq_false, iff_false,
      Bool.false_eq_true, not_false_eq_true, true_and]
    exact hw.frame (by simp [h2]) (by simp [h3])
  · have hm : m ≠ 0 := fun e => hfail (Or.inl e)
    have hd : dupOk = true := by
      cases dupOk
      · exact absurd (Or.inr rfl) hfail
      · rfl
    subst hd
    have hw0 : WF ((h.setAlloc m true).setValue m (cstr s)) head L :=
      hw.frame (by simp) (by simp)
    have hq : q_insert_head h head s m true =
        (true, list_add ((h.setAlloc m true).setValue m (cstr s)) m head) := by
      simp [q_insert_head, hhead, new_element_ok h s m hm, hm]
    rw [hq, if_neg hfail]
    exact ⟨by simp [hm], hw0.list_add_head hfresh⟩

/-- The function `q_insert_tail` on a well-formed queue, whatever the allocator does. -/
theorem q_insert_tail_wf {h : Heap} {head : Nat} {L : List Nat} (hw : WF h head L)
    (hhead : head ≠ 0) (s : List Nat) (m : Nat) (dupOk : Bool) (hfresh : m ∉ head :: L) :
    ((q_insert_tail h head s m dupOk).1 = true ↔ ¬ (m = 0 ∨ dupOk = false)) ∧
      WF (q_insert_tail h head s m dupOk).2 head
        (if m = 0 ∨ dupOk = false then L else L ++ [m]) := by
  by_cases hfail : m = 0 ∨ dupOk = false
  · obtain ⟨h1, h2, h3, -⟩ := new_element_fail h s m dupOk hfail
    simp only [q_insert_tail, hhead, if_false, h1, if_true, hfail, not_true_eq_false, iff_false,
      Bool.false_eq_true, not_false_eq_true, true_and]
    exact hw.frame (by simp [h2]) (by simp [h3])
  · have hm : m ≠ 0 := fun e => hfail (Or.inl e)
    have hd : dupOk = true := by
      cases dupOk
      · exact absurd (Or.inr rfl) hfail
      · rfl
    subst hd
    have hw0 : WF ((h.setAlloc m true).setValue m (cstr s)) head L :=
      hw.frame (by simp) (by simp)
    have hq : q_insert_tail h head s m true =
        (true, list_add_tail ((h.setAlloc m true).setValue m (cstr s)) m head) := by
      simp [q_insert_tail, hhead, new_element_ok h s m hm, hm]
    rw [hq, if_neg hfail]
    exact ⟨by simp [hm], hw0.list_add_tail_head hfresh⟩

/-- The function `q_remove_tail` on a non-empty queue: the last element is returned and
unlinked. -/
theorem q_remove_tail_wf {h : Heap} {head x : Nat} {L : List Nat} (hw : WF h head (L ++ [x]))
    (hnz : 0 ∉ head :: L) (sp bufsize : Nat) :
    (q_remove_tail h head sp bufsize).1 = x ∧ WF (q_remove_tail h head sp bufsize).2 head L := by
  have hhead : head ≠ 0 := fun e => hnz (by simp [e])
  have hne : list_empty h head = false := by
    cases L with
    | nil => exact hw.list_empty_cons
    | cons y L => exact WF.list_empty_cons (by simpa using hw)
  have hpx : h.prev head = x := by simpa using hw.prev_head
  have hrw : q_remove_tail h head sp bufsize = q_remove_head h (h.prev x) sp bufsize := by
    simp [q_remove_tail, hhead, hne, hpx]
  rw [hrw]
  rcases eq_nil_or_snoc L with rfl | ⟨X, p, rfl⟩
  · have hw1 : WF h head [x] := by simpa using hw
    have hp : h.prev x = head := hw1.1.1.2
    rw [hp]
    obtain ⟨h1, h2, -, -⟩ := q_remove_head_cons_wf hw1 hhead sp bufsize
    exact ⟨h1, h2⟩
  · have hw1 : WF h head (X ++ p :: [x]) := by simpa using hw
    have hp : h.prev x = p := by
      have := hw1.1
      rw [Seg_append] at this
      exact this.2.1.2
    have hw2 : WF h p (x :: head :: X) := by
      rw [WF_rotate] at hw1
      simpa using hw1
    have hpz : p ≠ 0 := fun e => hnz (by simp [e])
    rw [hp]
    obtain ⟨h1, h2, -, -⟩ := q_remove_head_cons_wf hw2 hpz sp bufsize
    refine ⟨h1, ?_⟩
    have := (WF_rotate _ p head [] X).1 (by simpa using h2)
    simpa using this

/-- One call on a well-formed queue: it ends, the queue stays well formed with the elements
`opList L op`, and the change it reports is the change of the length. -/
theorem applyOp_spec {h : Heap} {head : Nat} {L : List Nat} (hw : WF h head L)
    (hhead : head ≠ 0) (hnz : 0 ∉ L) (op : Op) (hfresh : opValid head L op) (fuel : Nat)
    (hf : L.length / 2 + 1 ≤ fuel) :
    ∃ h1 d, applyOp fuel h head op = some (h1, d) ∧ WF h1 head (opList L op) ∧
      0 ∉ opList L op ∧ ((opList L op).length : Int) = (L.length : Int) + d := by
  cases op with
  | insertHead s m dupOk =>
    obtain ⟨e1, e2⟩ := q_insert_head_wf hw hhead s m dupOk hfresh
    refine ⟨_, _, rfl, e2, ?_, ?_⟩
    · simp only [opList]
      split
      · exact hnz
      · rename_i hc
        simp only [List.mem_cons, not_or]
        exact ⟨fun e => hc (Or.inl e.symm), hnz⟩
    · simp only [opList]
      by_cases hc : m = 0 ∨ dupOk = false
      · rw [if_pos hc, if_neg (fun e => e1.1 e hc)]; simp
      · rw [if_neg hc, if_pos (e1.2 hc)]; simp
  | insertTail s m dupOk =>
    obtain ⟨e1, e2⟩ := q_insert_tail_wf hw hhead s m dupOk hfresh
    refine ⟨_, _, rfl, e2, ?_, ?_⟩
    · simp only [opList]
      split
      · exact hnz
      · rename_i hc
        simp only [List.mem_append, List.mem_singleton, not_or]
        exact ⟨hnz, fun e => hc (Or.inl e.symm)⟩
    · simp only [opList]
      by_cases hc : m = 0 ∨ dupOk = false
      · rw [if_pos hc, if_neg (fun e => e1.1 e hc)]; simp
      · rw [if_neg hc, if_pos (e1.2 hc)]; simp
  | removeHead sp bufsize =>
    cases L with
    | nil =>
      refine ⟨h, 0, ?_, by simpa [opList] using hw, by simp [opList], by simp [opList]⟩
      simp [applyOp, q_remove_head, hw.list_empty_nil]
    | cons x L =>
      obtain ⟨e1, e2, -, -⟩ := q_remove_head_cons_wf hw hhead sp bufsize
      have hx : x ≠ 0 := fun e => hnz (by simp [e])
      refine ⟨_, _, rfl, by simpa [opList] using e2, ?_, ?_⟩
      · simp only [opList, List.tail_cons]
        exact fun hm => hnz (List.mem_cons_of_mem _ hm)
      · rw [e1, if_neg hx]
        simp [opList]
  | removeTail sp bufsize =>
    rcases eq_nil_or_snoc L with rfl | ⟨X, x, rfl⟩
    · refine ⟨h, 0, ?_, by simpa [opList] using hw, by simp [opList], by simp [opList]⟩
      simp [applyOp, q_remove_tail, hw.list_empty_nil]
    · simp only [List.mem_append, List.mem_singleton, not_or] at hnz
      obtain ⟨e1, e2⟩ := q_remove_tail_wf hw (by
        simp only [List.mem_cons, not_or]
        exact ⟨fun e => hhead e.symm, hnz.1⟩) sp bufsize
      have hx : x ≠ 0 := fun e => hnz.2 e.symm
      refine ⟨_, _, rfl, by simpa [opList] using e2, ?_, ?_⟩
      · simpa [opList] using hnz.1
      · rw [e1, if_neg hx]
        simp [opList]
  | deleteMid =>
    cases L with
    | nil =>
      refine ⟨h, 0, ?_, by simpa [opList] using hw, by simp [opList], by simp [opList]⟩
      simp [applyOp, q_delete_mid, hw.list_empty_nil]
    | cons x L =>
      obtain ⟨e1, e2⟩ := q_delete_mid_wf hw hhead (by simp) fuel hf
      have e3 : WF (q_release_element (list_del h ((x :: L).getD ((x :: L).length / 2) 0))
          ((x :: L).getD ((x :: L).length / 2) 0)) head
          ((x :: L).eraseIdx ((x :: L).length / 2)) := e2.frame (by simp) (by simp)
      refine ⟨_, -1, ?_, e3, ?_, ?_⟩
      · simp only [applyOp, e1, if_true]
      · simp only [opList]
        exact fun hm => hnz ((List.eraseIdx_sublist _ _).subset hm)
      · simp only [opList]
        rw [List.length_eraseIdx_of_lt (by simp only [List.length_cons]; omega)]
        simp

theorem opList_length_le (L : List Nat) (op : Op) : (opList L op).length ≤ L.length + 1 := by
  cases op with
  | insertHead s m dupOk => simp only [opList]; split <;> simp
  | insertTail s m dupOk => simp only [opList]; split <;> simp
  | removeHead sp bufsize => simp only [opList, List.length_tail]; omega
  | removeTail sp bufsize => simp only [opList, List.length_dropLast]; omega
  | deleteMid =>
    simp only [opList]
    have := List.length_eraseIdx_le L (L.length / 2)
    omega

/-- A sequence of calls on a well-formed queue: every call ends, the queue stays well
formed, and its length changes by the number of successful insertions minus the number of
successful removals and deletions. -/
theorem runOps_spec (head : Nat) (hhead : head ≠ 0) (fuel : Nat) (ops : List Op) :
    ∀ (h : Heap) (L : List Nat), WF h head L → 0 ∉ L → ValidOps head L ops →
      L.length + ops.length + 1 ≤ fuel →
      ∃ h' k, runOps fuel h head ops = some (h', k) ∧ WF h' head (ops.foldl opList L) ∧
        ((ops.foldl opList L).length : Int) = (L.length : Int) + k ∧
        (ops.foldl opList L).length ≤ L.length + ops.length := by
  induction ops with
  | nil =>
    intro h L hw _ _ _
    exact ⟨h, 0, rfl, hw, by simp, by simp⟩
  | cons op ops ih =>
    intro h L hw hnz hfresh hf
    simp only [List.length_cons] at hf
    obtain ⟨h1, d, e1, e2, e3, e4⟩ := applyOp_spec hw hhead hnz op hfresh.1 fuel (by omega)
    have hle := opList_length_le L op
    obtain ⟨h', k, f1, f2, f3, f4⟩ := ih h1 (opList L op) e2 e3 hfresh.2 (by omega)
    refine ⟨h', d + k, ?_, by simpa using f2, ?_, ?_⟩
    · simp only [runOps, e1, f1]
    · simp only [List.foldl_cons]
      rw [f3, e4]; ring
    · simp only [List.foldl_cons, List.length_cons]
      omega

/-- The function `q_new` with a successful `malloc` makes an empty well-formed queue. -/
theorem q_new_wf (h : Heap) (m : Nat) (hm : m ≠ 0) :
    (q_new h m).1 = m ∧ WF (q_new h m).2 m [] := by
  simp [q_new, hm, WF, Seg, Linked, INIT_LIST_HEAD]

/-- C14: `q_size` returns `0` for a null handle and the number of elements of a well-formed
queue (a number that fits in an `int`); hence after a sequence of `q_insert_head`,
`q_insert_tail`, `q_remove_head`, `q_remove_tail` and `q_delete_mid` calls that is valid
(`ValidOps`: every insertion allocates a fresh block, every removal is called without a
buffer or with a capacity `1 ≤ bufsize < 2 ^ 64`) `q_size` is the size before plus the
number of successful insertions minus the number of successful removals and deletions, and
on a fresh queue from `q_new` it is that net number. -/
theorem q_size_spec (h : Heap) (head : Nat) (L : List Nat) (ops : List Op) (fuel : Nat)
    (hw : WF h head L) (hhead : head ≠ 0) (hnz : 0 ∉ L) (hlen : L.length + ops.length < 2 ^ 31)
    (hf : L.length + ops.length + 1 ≤ fuel) :
    q_size fuel h 0 = some 0 ∧
    q_size fuel h head = some (L.length : Int) ∧
    (ValidOps head L ops → ∃ h' k, runOps fuel h head ops = some (h', k) ∧
      q_size fuel h' head = some ((L.length : Int) + k)) ∧
    (∀ h0, ValidOps head [] ops → ∃ h' k, runOps fuel (q_new h0 head).2 head ops = some (h', k) ∧
      q_size fuel h' head = some k) := by
  refine ⟨by simp [q_size], q_size_wf hw hhead fuel (by omega) (by omega), ?_, ?_⟩
  · intro hfresh
    obtain ⟨h', k, e1, e2, e3, e4⟩ := runOps_spec head hhead fuel ops h L hw hnz hfresh hf
    refine ⟨h', k, e1, ?_⟩
    rw [q_size_wf e2 hhead fuel (by omega) (by omega), e3]
  · intro h0 hfresh
    obtain ⟨h', k, e1, e2, e3, e4⟩ := runOps_spec head hhead fuel ops (q_new h0 head).2 []
      (q_new_wf h0 head hhead).2 (by simp) hfresh (by simp at hf ⊢; omega)
    refine ⟨h', k, e1, ?_⟩
    simp only [List.length_nil] at e4
    rw [q_size_wf e2 hhead fuel (by omega) (by omega), e3]
    simp

/-! ## The link invariant -/

/-- The link invariant at the sentinel of a well-formed queue. -/
theorem WF.linkInv_head {h : Heap} {head : Nat} {L : List Nat} (hw : WF h head L) :
    LinkInv h head := by
  constructor
  · cases L with
    | nil => rw [hw.1.1]; exact hw.1.2
    | cons x L => rw [hw.1.1.1]; exact hw.1.1.2
  · rcases eq_nil_or_snoc L with rfl | ⟨X, t, rfl⟩
    · rw [hw.1.2]; exact hw.1.1
    · have := hw.1
      rw [Seg_append] at this
      rw [this.2.2]; exact this.2.1

/-- The link invariant at every node of a well-formed queue. -/
theorem WF.linkInv {h : Heap} {head : Nat} {L : List Nat} (hw : WF h head L) :
    ∀ n ∈ head :: L, LinkInv h n := by
  intro n hn
  rcases List.mem_cons.1 hn with rfl | hn
  · exact hw.linkInv_head
  · obtain ⟨X, Y, rfl⟩ := List.append_of_mem hn
    exact ((WF_rotate h head n X Y).1 hw).linkInv_head

/-- A well-formed queue satisfies the link invariant, read from the sentinel. -/
theorem WF.invHolds {h : Heap} {head : Nat} {L : List Nat} (hw : WF h head L) {fuel : Nat}
    (hf : L.length + 1 ≤ fuel) : InvHolds fuel h head :=
  ⟨L, hw.toList hf, hw.linkInv⟩

theorem walk_seg_of_inv {h : Heap} {head : Nat} (fuel : Nat) :
    ∀ (a : Nat) (X : List Nat), walk fuel h head (h.next a) = some X →
      (∀ n ∈ a :: X, h.prev (h.next n) = n) → Seg h a X head ∧ head ∉ X := by
  induction fuel with
  | zero => intro a X hwalk; simp [walk] at hwalk
  | succ f ih =>
    intro a X hwalk hinv
    unfold walk at hwalk
    by_cases hp : h.next a = head
    · rw [if_pos hp] at hwalk
      have hX : X = [] := (Option.some.inj hwalk).symm
      subst hX
      refine ⟨⟨hp, ?_⟩, by simp⟩
      rw [← hp]; exact hinv a (by simp)
    · rw [if_neg hp] at hwalk
      cases hrec : walk f h head (h.next (h.next a)) with
      | none => rw [hrec] at hwalk; simp at hwalk
      | some X' =>
        rw [hrec] at hwalk
        have hX : X = h.next a :: X' := (Option.some.inj hwalk).symm
        subst hX
        obtain ⟨e1, e2⟩ := ih (h.next a) X' hrec
          (fun n hn => hinv n (List.mem_cons_of_mem _ hn))
        refine ⟨⟨⟨rfl, hinv a (by simp)⟩, e1⟩, ?_⟩
        simp only [List.mem_cons, not_or]
        exact ⟨fun e => hp e.symm, e2⟩

theorem Seg.nodup_of_not_mem {h : Heap} {b : Nat} (X : List Nat) :
    ∀ a, Seg h a X b → a ∉ X → X.Nodup := by
  induction X with
  | nil => intro a _ _; exact List.nodup_nil
  | cons x X ih =>
    intro a hs ha
    have hxX : x ∉ X := by
      intro hm
      have := hs.2.prev_in x (List.mem_append_left _ hm)
      rw [hs.1.2] at this
      exact ha this
    exact List.nodup_cons.2 ⟨hxX, ih x hs.2 hxX⟩

/-- A queue whose nodes, read from the sentinel, satisfy the link invariant is well
formed. -/
theorem WF_of_inv {h : Heap} {head : Nat} {L : List Nat} {fuel : Nat}
    (hreach : toList fuel h head = some L) (hinv : ∀ n ∈ head :: L, LinkInv h n) :
    WF h head L := by
  obtain ⟨e1, e2⟩ := walk_seg_of_inv fuel head L hreach (fun n hn => (hinv n hn).1)
  exact ⟨e1, List.nodup_cons.2 ⟨e2, Seg.nodup_of_not_mem L head e1 e2⟩⟩

/-- C15: if the link invariant `n->next->prev == n` and `n->prev->next == n` holds at the
sentinel and at every node reached from it, then it holds again, at the sentinel and at
every node then reached from it, after `q_insert_head`, `q_insert_tail`, `q_remove_head`,
`q_remove_tail` (the two removals called without a buffer, `sp = 0`, or with a capacity
`1 ≤ bufsize < 2 ^ 64`: with a buffer and `bufsize = 0` the C code copies `SIZE_MAX` bytes),
`q_delete_mid`, `q_delete_dup`, `q_swap`, `q_reverse` and `q_sort`, each of which ends. -/
theorem link_invariant_preserved (h : Heap) (head : Nat) (L : List Nat) (fuel0 fuel : Nat)
    (s : List Nat) (m : Nat) (dupOk : Bool) (sp bufsize stk : Nat)
    (hreach : toList fuel0 h head = some L) (hinv : ∀ n ∈ head :: L, LinkInv h n)
    (hhead : head ≠ 0) (hnz : 0 ∉ L) (hfresh : m ∉ head :: L)
    (hbuf : sp = 0 ∨ 1 ≤ bufsize) (hsize : bufsize < 2 ^ 64)
    (hstk : ∀ x ∈ head :: L, x < stk) (hf : L.length + 2 ≤ fuel) :
    InvHolds fuel (q_insert_head h head s m dupOk).2 head ∧
    InvHolds fuel (q_insert_tail h head s m dupOk).2 head ∧
    InvHolds fuel (q_remove_head h head sp bufsize).2 head ∧
    InvHolds fuel (q_remove_tail h head sp bufsize).2 head ∧
    (∃ r, q_delete_mid fuel h head = some r ∧ InvHolds fuel r.2 head) ∧
    (∃ r, q_delete_dup fuel h head = some r ∧ InvHolds fuel r.2 head) ∧
    (∃ h', q_swap fuel h head = some h' ∧ InvHolds fuel h' head) ∧
    (∃ h', q_reverse fuel h head = some h' ∧ InvHolds fuel h' head) ∧
    (∃ h', q_sort fuel h head stk = some h' ∧ InvHolds fuel h' head) := by
  have hw : WF h head L := WF_of_inv hreach hinv
  refine ⟨?_, ?_, ?_, ?_, ?_, ?_, ?_, ?_, ?_⟩
  · have := (q_insert_head_wf hw hhead s m dupOk hfresh).2
    apply this.invHolds
    split
    · omega
    · simp only [List.length_cons, List.length_append, List.length_singleton,
        List.length_nil]
      omega
  · have := (q_insert_tail_wf hw hhead s m dupOk hfresh).2
    apply this.invHolds
    split
    · omega
    · simp only [List.length_cons, List.length_append, List.length_singleton,
        List.length_nil]
      omega
  · cases L with
    | nil =>
      have e : q_remove_head h head sp bufsize = (0, h) := by
        simp [q_remove_head, hw.list_empty_nil]
      rw [e]
      exact hw.invHolds (by simp only [List.length_nil] at hf ⊢; omega)
    | cons x L =>
      exact (q_remove_head_cons_wf hw hhead sp bufsize).2.1.invHolds
        (by simp only [List.length_cons] at hf; omega)
  · rcases eq_nil_or_snoc L with rfl | ⟨X, x, rfl⟩
    · have e : q_remove_tail h head sp bufsize = (0, h) := by
        simp [q_remove_tail, hw.list_empty_nil]
      rw [e]
      exact hw.invHolds (by simp only [List.length_nil] at hf ⊢; omega)
    · simp only [List.mem_append, List.mem_singleton, not_or] at hnz
      have hnz' : 0 ∉ head :: X := by
        simp only [List.mem_cons, not_or]
        exact ⟨fun e => hhead e.symm, hnz.1⟩
      exact (q_remove_tail_wf hw hnz' sp bufsize).2.invHolds
        (by simp only [List.length_append, List.length_singleton] at hf; omega)
  · cases L with
    | nil =>
      exact ⟨(false, h), by simp [q_delete_mid, hw.list_empty_nil], hw.invHolds (by simp only [List.length_nil] at hf ⊢; omega)⟩
    | cons x L =>
      obtain ⟨e1, e2⟩ := q_delete_mid_wf hw hhead (by simp) fuel (by omega)
      have e3 : WF (q_release_element (list_del h ((x :: L).getD ((x :: L).length / 2) 0))
          ((x :: L).getD ((x :: L).length / 2) 0)) head
          ((x :: L).eraseIdx ((x :: L).length / 2)) := e2.frame (by simp) (by simp)
      refine ⟨_, e1, e3.invHolds ?_⟩
      have := List.length_eraseIdx_le (x :: L) ((x :: L).length / 2)
      omega
  · obtain ⟨h', e1, e2, -, -⟩ := q_delete_dup_wf hw hhead fuel (by omega)
    refine ⟨_, e1, e2.invHolds ?_⟩
    have := (dupFilter_sublist h.value false L).length_le
    omega
  · obtain ⟨h', e1, e2, -⟩ := q_swap_wf hw hhead fuel (by omega)
    exact ⟨h', e1, e2.invHolds (by rw [swapPairs_length]; omega)⟩
  · obtain ⟨h', e1, e2, -⟩ := q_reverse_fields hw hhead fuel (by omega)
    exact ⟨h', e1, (hw.reverse_wf e2).invHolds (by simp; omega)⟩
  · obtain ⟨h', e1, e2, -⟩ := q_sort_spec fuel h head stk L hw hhead hstk hf
    exact ⟨h', e1, e2.invHolds (by simp; omega)⟩

/-! ## The later theorems at concrete queues -/

/-- The queue `[1,2,3,4,5]` becomes `[2,1,4,3,5]`. -/
theorem q_swap_spec_witness :
    WF (build [[1], [2], [3], [4], [5]]) 1 [2, 3, 4, 5, 6] ∧
      ∃ h', q_swap 3 (build [[1], [2], [3], [4], [5]]) 1 = some h' ∧
        WF h' 1 [3, 2, 5, 4, 6] ∧ payloads h' [3, 2, 5, 4, 6] = [[2], [1], [4], [3], [5]] :=
  ⟨by decide,
    match (q_swap_spec (build [[1], [2], [3], [4], [5]]) 1 [2, 3, 4, 5, 6] 3 (by decide)
      (by decide) (by decide)).1 with
    | ⟨h', e1, e2, _, e4⟩ => ⟨h', e1, e2, by rw [payloads, e4]; decide⟩⟩

/-- The queue `[1,2,3]` becomes `[3,2,1]`. -/
theorem q_reverse_spec_witness :
    WF (build [[1], [2], [3]]) 1 [2, 3, 4] ∧
      ∃ h', q_reverse 4 (build [[1], [2], [3]]) 1 = some h' ∧ WF h' 1 [4, 3, 2] :=
  ⟨by decide,
    match (q_reverse_spec (build [[1], [2], [3]]) 1 [2, 3, 4] 4 (by decide) (by decide)
      (by decide)).1 with
    | ⟨h', e1, e2, _⟩ => ⟨h', e1, e2⟩⟩

/-- Reversing `[1,2,3]` twice gives the memory of `[1,2,3]`. -/
theorem q_reverse_twice_witness :
    WF (build [[1], [2], [3]]) 1 [2, 3, 4] ∧
      ∃ h1 h2, q_reverse 4 (build [[1], [2], [3]]) 1 = some h1 ∧
        q_reverse 4 h1 1 = some h2 ∧ h2 = build [[1], [2], [3]] :=
  ⟨by decide,
    match q_reverse_twice (build [[1], [2], [3]]) 1 [2, 3, 4] 4 (by decide) (by decide)
      (by decide) with
    | ⟨h1, h2, e1, e2, _, _, e5⟩ => ⟨h1, h2, e1, e2, e5⟩⟩

/-- The queue `[1,2,3]` has size `3`, and after two insertions, a removal and two deletions
(the last one failing) on a fresh queue `q_size` is the net count. -/
theorem q_size_spec_witness :
    WF (build [[1], [2], [3]]) 1 [2, 3, 4] ∧
      q_size 9 (build [[1], [2], [3]]) 1 = some 3 ∧
      ∃ h' k, runOps 9 (q_new Heap.empty 1).2 1
          [Op.insertHead [7] 5 true, Op.insertTail [8] 6 true, Op.removeHead 50 4, Op.deleteMid,
            Op.deleteMid] = some (h', k) ∧
        q_size 9 h' 1 = some k :=
  ⟨by decide,
    (q_size_spec (build [[1], [2], [3]]) 1 [2, 3, 4]
      [Op.insertHead [7] 5 true, Op.insertTail [8] 6 true, Op.removeHead 50 4, Op.deleteMid,
        Op.deleteMid] 9
      (by decide) (by decide) (by decide) (by decide) (by decide)).2.1,
    (q_size_spec (build [[1], [2], [3]]) 1 [2, 3, 4]
      [Op.insertHead [7] 5 true, Op.insertTail [8] 6 true, Op.removeHead 50 4, Op.deleteMid,
        Op.deleteMid] 9
      (by decide) (by decide) (by decide) (by decide) (by decide)).2.2.2 Heap.empty
      (by simp [ValidOps, opValid, opList])⟩

/-- The link invariant of the queue `[1,2,3]` survives `q_sort`. -/
theorem link_invariant_preserved_witness :
    (toList 4 (build [[3], [1], [2]]) 1 = some [2, 3, 4] ∧
      (∀ n ∈ [1, 2, 3, 4], LinkInv (build [[3], [1], [2]]) n) ∧ (50 = 0 ∨ 1 ≤ 4)) ∧
      ∃ h', q_sort 5 (build [[3], [1], [2]]) 1 9 = some h' ∧ InvHolds 5 h' 1 :=
  ⟨⟨by decide, by decide, by decide⟩,
    (link_invariant_preserved (build [[3], [1], [2]]) 1 [2, 3, 4] 4 5 [7] 5 true 50 4 9
      (by decide) (by decide) (by decide) (by decide) (by decide) (by decide) (by decide)
      (by decide) (by decide)).2.2.2.2.2.2.2.2⟩

/-- Sorting `["b","a","c"]` twice. -/
theorem q_sort_idempotent_witness :
    WF (build [[98], [97], [99]]) 1 [2, 3, 4] ∧
      ∃ h1 L1, q_sort 5 (build [[98], [97], [99]]) 1 9 = some h1 ∧ WF h1 1 L1 ∧
        ∃ h2, q_sort 5 h1 1 9 = some h2 ∧ WF h2 1 L1 :=
  ⟨by decide,
    match q_sort_idempotent (build [[98], [97], [99]]) 1 9 [2, 3, 4] 5 (by decide) (by decide)
      (by decide) (by decide) with
    | ⟨h1, L1, e1, e2, _, _, h2, e5, e6, _⟩ => ⟨h1, L1, e1, e2, h2, e5, e6⟩⟩

/-- Merging `["a","c"]` and `["a","b"]`. -/
theorem merge_two_list_contract_witness :
    (WF (buildTwo [[97], [99]] [[97], [98]]) 1 [2, 3] ∧
        WF (buildTwo [[97], [99]] [[97], [98]]) 100 [101, 102]) ∧
      ∃ h' M, merge_two_list 5 (buildTwo [[97], [99]] [[97], [98]]) 1 100 = some h' ∧
        WF h' 1 M ∧ M.Perm ([2, 3] ++ [101, 102]) :=
  ⟨⟨by decide, by decide⟩,
    match merge_two_list_contract (buildTwo [[97], [99]] [[97], [98]]) 1 100 [2, 3] [101, 102] 5
      (by decide) (by decide) (by decide) (by decide) (by decide) (by decide) with
    | ⟨h', M, e1, e2, _, _, e5, _⟩ => ⟨h', M, e1, e2, e5⟩⟩

/-- The split of the five-element queue: three elements stay, two go to the local
sentinel. -/
theorem q_sort_split_terminates_witness :
    WF (build [[5], [4], [3], [2], [1]]) 1 [2, 3, 4, 5, 6] ∧
      ∃ h', q_sort 7 (build [[5], [4], [3], [2], [1]]) 1 9 = some h' :=
  ⟨by decide,
    (q_sort_split_terminates (build [[5], [4], [3], [2], [1]]) 1 9 [2, 3, 4, 5, 6] 7
      (by decide) (by decide) (by decide) (by decide)).2⟩

/-- The unsorted queue `["a","b","a"]` keeps its three elements. -/
theorem q_delete_dup_adjacent_witness :
    WF (build [[97], [98], [97]]) 1 [2, 3, 4] ∧
      ∃ h', q_delete_dup 4 (build [[97], [98], [97]]) 1 = some (true, h') ∧
        WF h' 1 [2, 3, 4] :=
  ⟨by decide,
    match q_delete_dup_adjacent (build [[97], [98], [97]]) 1 [2, 3, 4] 4 (by decide) (by decide)
      (by decide) (by decide) with
    | ⟨h', e1, e2, _⟩ => ⟨h', e1, e2⟩⟩

/-- Swapping `[1,2,3]` twice. -/
theorem q_swap_involution_witness :
    WF (build [[1], [2], [3]]) 1 [2, 3, 4] ∧
      ∃ h1 h2, q_swap 2 (build [[1], [2], [3]]) 1 = some h1 ∧ q_swap 2 h1 1 = some h2 ∧
        WF h2 1 [2, 3, 4] :=
  ⟨by decide,
    match q_swap_involution (build [[1], [2], [3]]) 1 [2, 3, 4] 2 (by decide) (by decide)
      (by decide) with
    | ⟨h1, h2, e1, e2, e3, _⟩ => ⟨h1, h2, e1, e2, e3⟩⟩

end Queue
